import Mathlib

/-!
Verification of the CNF constraint-compiler library in `src/cpp/core.cpp`
of PrimeAndCompositeTautology2.

The C++ library builds CNF clauses as strings of signed, angle-bracketed
variable names (e.g. `"-<a_0000000003> <r_0000000003> 0 "`).  We embed a
clause as a list of literals, a literal being a polarity together with the
variable-name string exactly as the C++ code builds it.  Each C++
`X::expand()` method becomes a Lean function producing the same clause
list in the same order; the per-class static `call_count` variables become
an explicit `Counters` record threaded through the expansion.
-/

/-- A literal: polarity (`true` = positive) and the variable name. -/
abbrev Lit := Bool × String

/-- A clause: disjunction of literals (the trailing `"0 "` terminator of the
C++ strings is implicit). -/
abbrev Clause := List Lit

/-- A clause list, interpreted conjunctively. -/
abbrev Cnf := List Clause

/-- Positive literal `<s>`. -/
def pL (s : String) : Lit := (true, s)

/-- Negative literal `-<s>`. -/
def nL (s : String) : Lit := (false, s)

/-- Decimal digit character, `digitChar d` for `d < 10`. -/
def digitChar (d : Nat) : Char := Char.ofNat (48 + d)

/-- Structurally recursive core of decimal formatting (`f` is fuel). -/
def decDigitsCore : Nat → Nat → List Char
  | 0, _ => []
  | f + 1, n =>
    if n < 10 then [digitChar n]
    else decDigitsCore f (n / 10) ++ [digitChar (n % 10)]

/-- Big-endian decimal representation of a natural number, as characters
(`decRepr 123 = ['1','2','3']`, `decRepr 0 = ['0']`). -/
def decRepr (i : Nat) : List Char := decDigitsCore (i + 1) i

/-- `Z` from core.cpp: 10-digit zero-padded decimal formatting used for all
indexed variable names. -/
def Z (i : Nat) : String :=
  ⟨List.replicate (10 - (decRepr i).length) '0' ++ decRepr i⟩

/-- Bit `i` of operand `x` is the variable `x_<Z i>` (core.cpp builds
`input + "_" + Z(i)` everywhere). -/
def bitName (x : String) (i : Nat) : String := x ++ "_" ++ Z i

/-- Truth value of a literal under an assignment. -/
def litVal (σ : String → Bool) (l : Lit) : Bool :=
  cond l.1 (σ l.2) (! σ l.2)

/-- Truth value of a clause (disjunction). -/
def clauseVal (σ : String → Bool) (cl : Clause) : Bool :=
  cl.any (litVal σ)

/-- Truth value of a clause list (conjunction). -/
def cnfVal (σ : String → Bool) (L : Cnf) : Bool :=
  L.all (clauseVal σ)

/-- `σ` satisfies the clause list `L`. -/
abbrev Sat (σ : String → Bool) (L : Cnf) : Prop := cnfVal σ L = true

/-- There is an assignment satisfying `L`. -/
def Satisfiable (L : Cnf) : Prop := ∃ σ, Sat σ L

/-- The value of an `n`-bit word whose bit `i` is `φ i` (LSB first, the
convention of the C++ encoding). -/
def natOfBits (φ : Nat → Bool) : Nat → Nat
  | 0 => 0
  | n + 1 => natOfBits φ n + 2 ^ n * (φ n).toNat

/-- Integer value of the `n`-bit operand `x` under assignment `σ`. -/
def bitsVal (σ : String → Bool) (x : String) (n : Nat) : Nat :=
  natOfBits (fun i => σ (bitName x i)) n

/-- All variable names mentioned in a clause. -/
def clauseVars (cl : Clause) : List String := cl.map Prod.snd

/-- All variable names mentioned in a clause list. -/
def cnfVars (L : Cnf) : List String := L.flatMap clauseVars

/-- The per-generator-kind static `call_count` variables of core.cpp. -/
structure Counters where
  add : Nat := 0
  mul : Nat := 0
  lt : Nat := 0
  divmod : Nat := 0
  pow : Nat := 0
  powmod : Nat := 0
  orc : Nat := 0
  sum : Nat := 0
  prod : Nat := 0
  fermat : Nat := 0
  fermat2 : Nat := 0
  fermat3 : Nat := 0
  isprime : Nat := 0
deriving Repr, DecidableEq

/-! ### Constant / pinning conditions -/

/-- `Input_Equals_Number::expand` (core.cpp:55): one unit clause per bit,
pinning `input` to `value` at width `n`. -/
def Input_Equals_Number (input : String) (value : Nat) (n : Nat) : Cnf :=
  (List.range n).map fun i =>
    if value.testBit i then [pL (bitName input i)] else [nL (bitName input i)]

/-- `Input_Not_Equals_Number::expand` (core.cpp:78): a single clause
requiring some bit of `input` to differ from `value`. -/
def Input_Not_Equals_Number (input : String) (value : Nat) (n : Nat) : Cnf :=
  [(List.range n).map fun i =>
    if value.testBit i then nL (bitName input i) else pL (bitName input i)]

/-! ### 1-bit adder gates -/

/-- `CarryOut_Equal_POPCNT_GREATER_THAN_2::expand` (core.cpp:104): eight
clauses forcing `carry_out ↔ (popcount(in_a,in_b,carry_in) ≥ 2)`. -/
def CarryOut_Equal_POPCNT_GREATER_THAN_2 (in_a in_b carry_in carry_out : String) : Cnf :=
  [ [nL in_a, nL in_b, nL carry_in, pL carry_out],
    [nL in_a, nL in_b, pL carry_in, pL carry_out],
    [nL in_a, pL in_b, nL carry_in, pL carry_out],
    [nL in_a, pL in_b, pL carry_in, nL carry_out],
    [pL in_a, nL in_b, nL carry_in, pL carry_out],
    [pL in_a, nL in_b, pL carry_in, nL carry_out],
    [pL in_a, pL in_b, nL carry_in, nL carry_out],
    [pL in_a, pL in_b, pL carry_in, nL carry_out] ]

/-- `Result_Equal_A_XOR_B_XOR_CarryIn::expand` (core.cpp:130): eight clauses
forcing `result ↔ in_a ⊕ in_b ⊕ carry_in`. -/
def Result_Equal_A_XOR_B_XOR_CarryIn (in_a in_b carry_in result : String) : Cnf :=
  [ [nL in_a, nL in_b, nL carry_in, pL result],
    [nL in_a, nL in_b, pL carry_in, nL result],
    [nL in_a, pL in_b, nL carry_in, nL result],
    [nL in_a, pL in_b, pL carry_in, pL result],
    [pL in_a, nL in_b, nL carry_in, nL result],
    [pL in_a, nL in_b, pL carry_in, pL result],
    [pL in_a, pL in_b, nL carry_in, pL result],
    [pL in_a, pL in_b, pL carry_in, nL result] ]

/-- `Add_1Bit::expand` (core.cpp:154): carry-out clauses then sum clauses. -/
def Add_1Bit (in_a in_b carry_in result carry_out : String) : Cnf :=
  CarryOut_Equal_POPCNT_GREATER_THAN_2 in_a in_b carry_in carry_out ++
  Result_Equal_A_XOR_B_XOR_CarryIn in_a in_b carry_in result

/-- Internal carry-wire names `AddNBit_<k>_carry_out_<i>` of `Add_NBit`. -/
def addCarryName (k i : Nat) : String := "AddNBit_" ++ Z k ++ "_carry_out_" ++ Z i

/-- The ripple chain of `Add_NBit::expand`: 1-bit adders for bits `0..m-1`,
in source order. -/
def addChain (k : Nat) (in_a in_b result : String) : Nat → Cnf
  | 0 => []
  | m + 1 =>
    addChain k in_a in_b result m ++
    Add_1Bit (bitName in_a m) (bitName in_b m) (addCarryName k m)
      (bitName result m) (addCarryName k (m + 1))

/-- `Add_NBit::expand` (core.cpp:184): bumps the `Add_NBit` counter,
asserts carry-in 0, chains `n` 1-bit adders, and ties `over_flow` to the
final carry. -/
def Add_NBit (in_a in_b result over_flow : String) (n : Nat) (c : Counters) :
    Cnf × Counters :=
  let k := c.add + 1
  ([[nL (addCarryName k 0)]] ++
   addChain k in_a in_b result n ++
   [[nL over_flow, pL (addCarryName k n)],
    [pL over_flow, nL (addCarryName k n)]],
   { c with add := k })

/-- Majority of three booleans (the carry of a full adder). -/
def maj3 (x y z : Bool) : Bool := x && y || x && z || y && z

/-- Three-way exclusive or (the sum of a full adder). -/
def xor3 (x y z : Bool) : Bool := Bool.xor x (Bool.xor y z)

/-- Satisfying assignment used by the C5 witness: `a = 1`, `b = 1` at width 1,
so `r = 0`, `ov = 1` (carry wires of the `Add_NBit` call with id 1). -/
def σC5w : String → Bool := fun s =>
  (["a_0000000000", "b_0000000000", "AddNBit_0000000001_carry_out_0000000001",
    "ov"] : List String).contains s

/-! ### Clause-list combinators -/

/-- `AddLiteralToCondition::expand` (core.cpp:1214): prepend the literal to
every clause of the condition. -/
def AddLiteralToCondition (l : Lit) (condition : Cnf) : Cnf :=
  condition.map fun cl => l :: cl

/-- Selector-variable name allocated by `Or_Condition::expand`. -/
def orCondName (k : Nat) : String := "Or_Condition_" ++ Z k

/-- `Or_Condition::expand` (core.cpp:1233): Tseitin disjunction — a fresh
selector is added positively to every clause of `condition1` and negatively
to every clause of `condition2`. -/
def Or_Condition (condition1 condition2 : Cnf) (c : Counters) : Cnf × Counters :=
  let k := c.orc + 1
  (AddLiteralToCondition (pL (orCondName k)) condition1 ++
   AddLiteralToCondition (nL (orCondName k)) condition2,
   { c with orc := k })

/-- `And_Condition::expand` (core.cpp:1264): concatenation. -/
def And_Condition (condition1 condition2 : Cnf) : Cnf :=
  condition1 ++ condition2

/-- Well-known constant name `One_NBit_<n>` (an `n`-bit 1). -/
def oneName (n : Nat) : String := "One_NBit_" ++ Z n

/-- Well-known constant name `Zero_1Bit_<1>` (the constant false). -/
def zeroName : String := "Zero_1Bit_" ++ Z 1

/-- Generic counter-threading loop: run `f i` for `i = 0, …, m-1`, in order,
concatenating the produced clauses (matches the sequential `for` loops of
core.cpp that expand counter-bumping sub-generators). -/
def stateLoop (f : Nat → Counters → Cnf × Counters) : Nat → Counters → Cnf × Counters
  | 0, c => ([], c)
  | m + 1, c =>
    let pre := stateLoop f m c
    let blk := f m pre.2
    (pre.1 ++ blk.1, blk.2)

/-! ### Multiplication -/

/-- Partial-product wire base `Mul_NBit_Accum1_<k>_<i>`. -/
def mulAccum1Name (k i : Nat) : String := "Mul_NBit_Accum1_" ++ Z k ++ "_" ++ Z i

/-- Accumulator wire base `Mul_NBit_Accum2_<k>_<i>`. -/
def mulAccum2Name (k i : Nat) : String := "Mul_NBit_Accum2_" ++ Z k ++ "_" ++ Z i

/-- Per-step carry-out wire `Mul_NBit_CarryOut_<k>_<i>`. -/
def mulCarryName (k i : Nat) : String := "Mul_NBit_CarryOut_" ++ Z k ++ "_" ++ Z i

/-- `Mul_NBit_1Bit_Shift::expand` (core.cpp:227): `(in_a · in_b) << shift`
over `2n` bits, `in_b` a single bit wire. -/
def Mul_NBit_1Bit_Shift (in_a in_b result : String) (shift n : Nat) : Cnf :=
  ((List.range shift).map fun i => [nL (bitName result i)]) ++
  ((List.range n).flatMap fun i =>
    [ [pL (bitName result (i + shift)), nL (bitName in_a i), nL in_b],
      [nL (bitName result (i + shift)), nL (bitName in_a i), pL in_b],
      [nL (bitName result (i + shift)), pL (bitName in_a i), nL in_b],
      [nL (bitName result (i + shift)), pL (bitName in_a i), pL in_b] ]) ++
  ((List.range' (shift + n) (n * 2 - (shift + n))).map fun i => [nL (bitName result i)])

/-- The chain of `2n`-bit additions inside `Mul_NBit::expand`. -/
def mulAdds (k n : Nat) : Nat → Counters → Cnf × Counters :=
  stateLoop fun i c =>
    Add_NBit (mulAccum1Name k i) (mulAccum2Name k i) (mulAccum2Name k (i + 1))
      (mulCarryName k i) (n * 2) c

/-- `Mul_NBit::expand` (core.cpp:263): shift-and-add multiplication. -/
def Mul_NBit (in_a in_b result over_flow : String) (n : Nat) (c : Counters) :
    Cnf × Counters :=
  let k := c.mul + 1
  let c1 := { c with mul := k }
  let partials := (List.range n).flatMap fun i =>
    Mul_NBit_1Bit_Shift in_a (bitName in_b i) (mulAccum1Name k i) i n
  let init := (List.range (n * 2)).map fun i => [nL (bitName (mulAccum2Name k 0) i)]
  let adds := mulAdds k n n c1
  let resultConnect := (List.range n).flatMap fun i =>
    [ [nL (bitName result i), pL (bitName (mulAccum2Name k n) i)],
      [pL (bitName result i), nL (bitName (mulAccum2Name k n) i)] ]
  let ovBig := nL over_flow ::
    ((List.range n).map fun i => pL (bitName (mulAccum2Name k n) (i + n)))
  let ovUnits := (List.range n).map fun i =>
    [pL over_flow, nL (bitName (mulAccum2Name k n) (i + n))]
  (partials ++ init ++ adds.1 ++ resultConnect ++ [ovBig] ++ ovUnits, adds.2)

/-! ### Comparisons and 1-bit gates -/

/-- `Mul_NBit_1Bit::expand` (core.cpp:711): `result = in_a & in_b` bitwise. -/
def Mul_NBit_1Bit (in_a in_b result : String) (n : Nat) : Cnf :=
  (List.range n).flatMap fun i =>
    [ [pL (bitName result i), nL (bitName in_a i), nL in_b],
      [nL (bitName result i), nL (bitName in_a i), pL in_b],
      [nL (bitName result i), pL (bitName in_a i), nL in_b],
      [nL (bitName result i), pL (bitName in_a i), pL in_b] ]

/-- `And_1Bit::expand` (core.cpp:736). -/
def And_1Bit (in_a in_b result : String) : Cnf :=
  [ [pL in_a, pL in_b, nL result],
    [pL in_a, nL in_b, nL result],
    [nL in_a, pL in_b, nL result],
    [nL in_a, nL in_b, pL result] ]

/-- `LessThan_1Bit::expand` (core.cpp:755): `result ↔ (¬in_a ∧ in_b)`. -/
def LessThan_1Bit (in_a in_b result : String) : Cnf :=
  [ [pL in_a, pL in_b, nL result],
    [pL in_a, nL in_b, pL result],
    [nL in_a, pL in_b, nL result],
    [nL in_a, nL in_b, nL result] ]

/-- `Equals_1Bit::expand` (core.cpp:774): `result ↔ (in_a = in_b)`. -/
def Equals_1Bit (in_a in_b result : String) : Cnf :=
  [ [pL in_a, pL in_b, pL result],
    [pL in_a, nL in_b, nL result],
    [nL in_a, pL in_b, nL result],
    [nL in_a, nL in_b, pL result] ]

/-- `Equals_NBit::expand` (core.cpp:793): bitwise equality, no wires. -/
def Equals_NBit (in_a in_b : String) (n : Nat) : Cnf :=
  (List.range n).flatMap fun i =>
    [ [nL (bitName in_a i), pL (bitName in_b i)],
      [pL (bitName in_a i), nL (bitName in_b i)] ]

/-- Wire names of `LessThan_NBit`. -/
def ltEqName (k i : Nat) : String := "LessThan_NBit_Equals_" ++ Z k ++ "_" ++ Z i

def ltLessName (k i : Nat) : String := "LessThan_NBit_Less_" ++ Z k ++ "_" ++ Z i

def ltAccumName (k i : Nat) : String := "LessThan_NBit_EqualAccum_" ++ Z k ++ "_" ++ Z i

def ltResName (k i : Nat) : String := "LessThan_NBit_Result_" ++ Z k ++ "_" ++ Z i

/-- `LessThan_NBit::expand` (core.cpp:812): per-bit equality/less wires, a
downward prefix-equality chain, and one final disjunction clause. -/
def LessThan_NBit (in_a in_b : String) (n : Nat) (c : Counters) : Cnf × Counters :=
  let k := c.lt + 1
  (((List.range n).flatMap fun i =>
      Equals_1Bit (bitName in_a i) (bitName in_b i) (ltEqName k i)) ++
   ((List.range n).flatMap fun i =>
      LessThan_1Bit (bitName in_a i) (bitName in_b i) (ltLessName k i)) ++
   [[pL (ltAccumName k n)]] ++
   ((List.range n).flatMap fun i =>
      And_1Bit (ltAccumName k (i + 1)) (ltEqName k i) (ltAccumName k i)) ++
   ((List.range n).flatMap fun i =>
      And_1Bit (ltAccumName k (i + 1)) (ltLessName k i) (ltResName k i)) ++
   [(List.range n).map fun i => pL (ltResName k i)],
   { c with lt := k })

/-! ### Division -/

def dmAccumName (k : Nat) : String := "DivMod_NBit_Accum_" ++ Z k

def dmMulOvName (k : Nat) : String := "DivMode_NBit_MulOverflow_" ++ Z k

def dmAddOvName (k : Nat) : String := "DivMode_NBit_AddOverflow_" ++ Z k

/-- `DivMod_NBit::expand` (core.cpp:877): asserts `in_b·div + mod = in_a`
with both overflows 0 and `mod < in_b`. -/
def DivMod_NBit (in_a in_b div mod : String) (n : Nat) (c : Counters) :
    Cnf × Counters :=
  let k := c.divmod + 1
  let c1 := { c with divmod := k }
  let mul := Mul_NBit in_b div (dmAccumName k) (dmMulOvName k) n c1
  let add := Add_NBit (dmAccumName k) mod in_a (dmAddOvName k) n mul.2
  let lt := LessThan_NBit mod in_b n add.2
  (mul.1 ++ add.1 ++ [[nL (dmMulOvName k)]] ++ [[nL (dmAddOvName k)]] ++ lt.1,
   lt.2)

/-! ### Conditionals and OR gates -/

/-- `If_Cond_A_Else_B_1Bit::expand` (core.cpp:925). -/
def If_Cond_A_Else_B_1Bit (in_a in_b cond result : String) : Cnf :=
  [ [nL cond, nL in_a, pL result],
    [nL cond, pL in_a, nL result],
    [pL cond, nL in_b, pL result],
    [pL cond, pL in_b, nL result] ]

/-- `If_Cond_A_Else_B_NBit::expand` (core.cpp:945). -/
def If_Cond_A_Else_B_NBit (in_a in_b cond result : String) (n : Nat) : Cnf :=
  (List.range n).flatMap fun i =>
    If_Cond_A_Else_B_1Bit (bitName in_a i) (bitName in_b i) cond (bitName result i)

/-- `Or_1Bit::expand` (core.cpp:967). -/
def Or_1Bit (in_a in_b result : String) : Cnf :=
  [ [nL in_a, nL in_b, pL result],
    [nL in_a, pL in_b, pL result],
    [pL in_a, nL in_b, pL result],
    [pL in_a, pL in_b, nL result] ]

/-- `Or_NBit_To_1Bit::expand` (core.cpp:983). -/
def Or_NBit_To_1Bit (in_a result : String) (n : Nat) : Cnf :=
  (nL result :: ((List.range n).map fun i => pL (bitName in_a i))) ::
  ((List.range n).map fun i => [pL result, nL (bitName in_a i)])

/-! ### Exponentiation -/

def powT1Name (k i : Nat) : String := "Pow_NBit_Temp1_" ++ Z k ++ "_" ++ Z i

def powT1OvName (k i : Nat) : String := "Pow_NBit_Temp1Overflow_" ++ Z k ++ "_" ++ Z i

def powT2Name (k i : Nat) : String := "Pow_NBit_Temp2_" ++ Z k ++ "_" ++ Z i

def powAccumName (k i : Nat) : String := "Pow_NBit_PowAccum_" ++ Z k ++ "_" ++ Z i

def powAccOvBase (k : Nat) : String := "Pow_NBit_PowAccumOverflow_" ++ Z k

def powOvAccumName (k i : Nat) : String :=
  "Pow_NBit_PowAccumOverflowAccum_" ++ Z k ++ "_" ++ Z i

def powOvTempBase (k : Nat) : String := "Pow_NBit_OverflowTemp_" ++ Z k

def powAccOvOrName (k : Nat) : String := "Pow_NBit_PowAccumOverflow_OR_" ++ Z k

def powOvTempOrName (k : Nat) : String := "Pow_NBit_OverflowTemp_OR_" ++ Z k

/-- The repeated-squaring chain `Temp1[i+1] = Temp1[i]²` of `Pow_NBit`. -/
def powSquares (k n : Nat) : Nat → Counters → Cnf × Counters :=
  stateLoop fun i c =>
    Mul_NBit (powT1Name k i) (powT1Name k i) (powT1Name k (i + 1))
      (powT1OvName k i) n c

/-- The accumulator chain `PowAccum[i+1] = Temp2[i] · PowAccum[i]` of
`Pow_NBit`. -/
def powAccMuls (k n : Nat) : Nat → Counters → Cnf × Counters :=
  stateLoop fun i c =>
    Mul_NBit (powT2Name k i) (powAccumName k i) (powAccumName k (i + 1))
      (bitName (powAccOvBase k) i) n c

/-- `Pow_NBit::expand` (core.cpp:1009): repeated squaring with overflow
tracking; note the mux over `in_b_(i+1)` reads exponent bit `n` at `i = n-1`. -/
def Pow_NBit (in_a in_b result over_flow : String) (n : Nat) (c : Counters) :
    Cnf × Counters :=
  let k := c.pow + 1
  let c1 := { c with pow := k }
  let squares := powSquares k n n c1
  let accMuls := powAccMuls k n n squares.2
  (Equals_NBit (powT1Name k 0) in_a n ++
   squares.1 ++
   ((List.range n).flatMap fun i =>
     If_Cond_A_Else_B_NBit (powT1Name k i) (oneName n) (bitName in_b i)
       (powT2Name k i) n) ++
   Input_Equals_Number (powAccumName k 0) 1 n ++
   accMuls.1 ++
   Equals_NBit result (powAccumName k n) n ++
   [[nL (powOvAccumName k 0)]] ++
   ((List.range n).flatMap fun i =>
     Or_1Bit (powOvAccumName k i) (powT1OvName k i) (powOvAccumName k (i + 1))) ++
   ((List.range n).flatMap fun i =>
     If_Cond_A_Else_B_1Bit (powOvAccumName k (i + 1)) zeroName
       (bitName in_b (i + 1)) (bitName (powOvTempBase k) i)) ++
   Or_NBit_To_1Bit (powAccOvBase k) (powAccOvOrName k) n ++
   Or_NBit_To_1Bit (powOvTempBase k) (powOvTempOrName k) n ++
   Or_1Bit (powAccOvOrName k) (powOvTempOrName k) over_flow,
   accMuls.2)

/-! ### Modular exponentiation -/

def pmBaseName (k : Nat) : String := "PowMod_NBit_Base_DoubleSize_" ++ Z k

def pmExpName (k : Nat) : String := "PowMod_NBit_Exp_DoubleSize_" ++ Z k

def pmModName (k : Nat) : String := "PowMod_NBit_Mod_DoubleSize_" ++ Z k

def pmPartialName (k i : Nat) : String :=
  "PowMod_NBit_PartialResult_" ++ Z k ++ "_" ++ Z i

def pmCurName (k i : Nat) : String := "PowMod_NBit_CurrentPow_" ++ Z k ++ "_" ++ Z i

def pmBitFactorName (k i : Nat) : String :=
  "PowMod_NBit_BitFactor_" ++ Z k ++ "_" ++ Z i

def pmMultipledName (k i : Nat) : String :=
  "PowMod_NBit_Multipled_" ++ Z k ++ "_" ++ Z i

def pmMultipledOvName (k i : Nat) : String :=
  "PowMod_NBit_MultipledOverflow_" ++ Z k ++ "_" ++ Z i

def pmDiv1Name (k i : Nat) : String := "PowMod_NBit_Div1_" ++ Z k ++ "_" ++ Z i

def pmSquareName (k i : Nat) : String :=
  "PowMod_NBit_SquareBase_" ++ Z k ++ "_" ++ Z i

def pmSquareOvName (k i : Nat) : String :=
  "PowMod_NBit_SquareBaseOverflow_" ++ Z k ++ "_" ++ Z i

def pmDiv2Name (k i : Nat) : String := "PowMod_NBit_Div2_" ++ Z k ++ "_" ++ Z i

/-- `DoubleSize_Assign::expand` (core.cpp:1107): zero-extension to `2n` bits. -/
def DoubleSize_Assign (in_a result : String) (n : Nat) : Cnf :=
  Equals_NBit in_a result n ++
  (List.range' n n).map fun i => [nL (bitName result i)]

/-- The per-exponent-bit loop of `PowMod_NBit::expand`. -/
def pmLoop (k n : Nat) : Nat → Counters → Cnf × Counters :=
  stateLoop fun i c =>
    let mux := If_Cond_A_Else_B_NBit (pmCurName k i) (oneName (n * 2))
      (bitName (pmExpName k) i) (pmBitFactorName k i) (n * 2)
    let mul1 := Mul_NBit (pmPartialName k i) (pmBitFactorName k i)
      (pmMultipledName k i) (pmMultipledOvName k i) (n * 2) c
    let dm1 := DivMod_NBit (pmMultipledName k i) (pmModName k) (pmDiv1Name k i)
      (pmPartialName k (i + 1)) (n * 2) mul1.2
    let mul2 := Mul_NBit (pmCurName k i) (pmCurName k i) (pmSquareName k i)
      (pmSquareOvName k i) (n * 2) dm1.2
    let dm2 := DivMod_NBit (pmSquareName k i) (pmModName k) (pmDiv2Name k i)
      (pmCurName k (i + 1)) (n * 2) mul2.2
    (mux ++ mul1.1 ++ dm1.1 ++ mul2.1 ++ dm2.1, dm2.2)

/-- `PowMod_NBit::expand` (core.cpp:1129): binary exponentiation on
zero-extended `2n`-bit operands with every product reduced mod `mod`. -/
def PowMod_NBit (base exp mod result : String) (n : Nat) (c : Counters) :
    Cnf × Counters :=
  let k := c.powmod + 1
  let c1 := { c with powmod := k }
  let loop := pmLoop k n n c1
  (DoubleSize_Assign base (pmBaseName k) n ++
   DoubleSize_Assign exp (pmExpName k) n ++
   DoubleSize_Assign mod (pmModName k) n ++
   Input_Equals_Number (pmPartialName k 0) 1 (n * 2) ++
   Equals_NBit (pmCurName k 0) (pmBaseName k) (n * 2) ++
   loop.1 ++
   Equals_NBit result (pmPartialName k n) n,
   loop.2)

/-! ### N-ary sum and product -/

def sumAccumName (k i : Nat) : String := "Sum_NBit_Accum_" ++ Z k ++ "_" ++ Z i

def sumOvBase (k : Nat) : String := "Sum_NBit_Overflow_" ++ Z k

/-- `Sum_NBit::expand` (core.cpp:1284). -/
def Sum_NBit (input output overflow : String) (data_count bits : Nat)
    (c : Counters) : Cnf × Counters :=
  let k := c.sum + 1
  let c1 := { c with sum := k }
  let adds := stateLoop (fun i c' =>
    Add_NBit (bitName input i) (sumAccumName k i) (sumAccumName k (i + 1))
      (bitName (sumOvBase k) i) bits c') data_count c1
  (Input_Equals_Number (sumAccumName k 0) 0 bits ++
   adds.1 ++
   Equals_NBit output (sumAccumName k data_count) bits ++
   Or_NBit_To_1Bit (sumOvBase k) overflow data_count,
   adds.2)

def prodAccumName (k i : Nat) : String :=
  "Product_NBit_Accum_" ++ Z k ++ "_" ++ Z i

def prodOvBase (k : Nat) : String := "Product_NBit_Overflow_" ++ Z k

/-- `Product_NBit::expand` (core.cpp:1340). -/
def Product_NBit (input output overflow : String) (data_count bits : Nat)
    (c : Counters) : Cnf × Counters :=
  let k := c.prod + 1
  let c1 := { c with prod := k }
  let muls := stateLoop (fun i c' =>
    Mul_NBit (bitName input i) (prodAccumName k i) (prodAccumName k (i + 1))
      (bitName (prodOvBase k) i) bits c') data_count c1
  (Input_Equals_Number (prodAccumName k 0) 1 bits ++
   muls.1 ++
   Equals_NBit output (prodAccumName k data_count) bits ++
   Or_NBit_To_1Bit (prodOvBase k) overflow data_count,
   muls.2)

/-! ### Fermat tests -/

def ftResName (k : Nat) : String := "FermatTest_" ++ Z k

/-- `FermatTest::expand` (core.cpp:1396): `generator ∉ {0,1}` and
`generator^pow mod mod = 1`. -/
def FermatTest (generator pow mod : String) (n : Nat) (c : Counters) :
    Cnf × Counters :=
  let k := c.fermat + 1
  let c1 := { c with fermat := k }
  let pm := PowMod_NBit generator pow mod (ftResName k) n c1
  (Input_Not_Equals_Number generator 0 n ++
   Input_Not_Equals_Number generator 1 n ++
   pm.1 ++
   Input_Equals_Number (ftResName k) 1 n,
   pm.2)

def ft2PM1Name (k : Nat) : String := "FermatTest2_Prime_Minus1_" ++ Z k

def ft2OvName (k : Nat) : String := "FermatTest2_Prime_Minus1_Overflow_" ++ Z k

/-- `FermatTest2::expand` (core.cpp:1432): computes `prime - 1` with the
adder trick and delegates to `FermatTest`. -/
def FermatTest2 (generator prime : String) (n : Nat) (c : Counters) :
    Cnf × Counters :=
  let k := c.fermat2 + 1
  let c1 := { c with fermat2 := k }
  let add := Add_NBit (ft2PM1Name k) (oneName n) prime (ft2OvName k) n c1
  let ft := FermatTest generator (ft2PM1Name k) prime n add.2
  (add.1 ++ [[nL (ft2OvName k)]] ++ ft.1, ft.2)

def ft3ResName (k : Nat) : String := "FermatTest3_" ++ Z k

/-- `FermatTest3::expand` (core.cpp:1472): `generator ∉ {0,1}` and
`generator^pow mod mod ≠ 1`. -/
def FermatTest3 (generator pow mod : String) (n : Nat) (c : Counters) :
    Cnf × Counters :=
  let k := c.fermat3 + 1
  let c1 := { c with fermat3 := k }
  let pm := PowMod_NBit generator pow mod (ft3ResName k) n c1
  (Input_Not_Equals_Number generator 0 n ++
   Input_Not_Equals_Number generator 1 n ++
   pm.1 ++
   Input_Not_Equals_Number (ft3ResName k) 1 n,
   pm.2)

/-! ### IsPrime -/

def ipPrimeName (k i : Nat) : String := "IsPrime_Prime_" ++ Z k ++ "_" ++ Z i

def ipPowBase (k i : Nat) : String := "IsPrime_Pow_" ++ Z k ++ "_" ++ Z i

def ipPowName (k i j : Nat) : String :=
  "IsPrime_Pow_" ++ Z k ++ "_" ++ Z i ++ "_" ++ Z j

def ipPowTempName (k i : Nat) : String := "IsPrime_PowTemp_" ++ Z k ++ "_" ++ Z i

def ipPowTempOvName (k i j : Nat) : String :=
  "IsPrime_PowTemp_Overflow_" ++ Z k ++ "_" ++ Z i ++ "_" ++ Z j

def ipProductName (k i : Nat) : String := "IsPrime_Product_" ++ Z k ++ "_" ++ Z i

def ipProductOvName (k i : Nat) : String :=
  "IsPrime_Product_Overflow_" ++ Z k ++ "_" ++ Z i

def ipProdPlus1Name (k i : Nat) : String :=
  "IsPrime_Product_Plus1_" ++ Z k ++ "_" ++ Z i

def ipProdPlus1OvName (k i : Nat) : String :=
  "IsPrime_Product_Plus1_Overflow_" ++ Z k ++ "_" ++ Z i

def ipSumPowName (k i : Nat) : String := "IsPrime_SumPow_" ++ Z k ++ "_" ++ Z i

def ipSumPowOvName (k i : Nat) : String :=
  "IsPrime_SumPow_Overflow_" ++ Z k ++ "_" ++ Z i

def ipPM1Name (k i : Nat) : String :=
  "IsPrime_Prime_Minus1_" ++ Z k ++ "_" ++ Z i

def ipPM1OvName (k i : Nat) : String :=
  "IsPrime_Prime_Minus1_Overflow_" ++ Z k ++ "_" ++ Z i

def ipDivName (k i j : Nat) : String :=
  "IsPrime_Div_" ++ Z k ++ "_" ++ Z i ++ "_" ++ Z j

def ipModName (k i j : Nat) : String :=
  "IsPrime_Mod_" ++ Z k ++ "_" ++ Z i ++ "_" ++ Z j

def ipGenName (k i : Nat) : String := "IsPrime_Generator_" ++ Z k ++ "_" ++ Z i

/-- The base-case-or-recursion disjunction of `IsPrime` for slot `i`
(core.cpp:550-571): `(Prime[i] = 2 ∨ Prime[i] = 3) ∨ (1 < SumPow[i] ∧
Product_Plus1[i] = Prime[i])`, Tseitin-encoded. -/
def ipBaseOrRec (k : Nat) (n : Nat) (i : Nat) (c : Counters) : Cnf × Counters :=
  let lt := LessThan_NBit (oneName n) (ipSumPowName k i) n c
  let eqs := Equals_NBit (ipProdPlus1Name k i) (ipPrimeName k i) n
  let inner := Or_Condition (Input_Equals_Number (ipPrimeName k i) 2 n)
    (Input_Equals_Number (ipPrimeName k i) 3 n) lt.2
  let outer := Or_Condition inner.1 (And_Condition lt.1 eqs) inner.2
  (outer.1, outer.2)

/-- The per-factor Fermat disjunction of `IsPrime` (core.cpp:603-627):
`FermatTest3(g_i, Div[i][j], Prime[i]) ∨ Pow[i][j] = 0 ∨ Prime[i] ∈ {2,3}`. -/
def ipFermat3Block (k n : Nat) (i j : Nat) (c : Counters) : Cnf × Counters :=
  let f3 := FermatTest3 (ipGenName k i) (ipDivName k i j) (ipPrimeName k i) n c
  let or1 := Or_Condition f3.1 (Input_Equals_Number (ipPowName k i j) 0 n) f3.2
  let or2 := Or_Condition (Input_Equals_Number (ipPrimeName k i) 2 n)
    (Input_Equals_Number (ipPrimeName k i) 3 n) or1.2
  let outer := Or_Condition or1.1 or2.1 or2.2
  (outer.1, outer.2)

/-- The full-Fermat disjunction of `IsPrime` (core.cpp:630-647):
`FermatTest2(g_i, Prime[i]) ∨ Prime[i] ∈ {2,3}`. -/
def ipFermat2Block (k n : Nat) (i : Nat) (c : Counters) : Cnf × Counters :=
  let f2 := FermatTest2 (ipGenName k i) (ipPrimeName k i) n c
  let inner := Or_Condition (Input_Equals_Number (ipPrimeName k i) 2 n)
    (Input_Equals_Number (ipPrimeName k i) 3 n) f2.2
  let outer := Or_Condition f2.1 inner.1 inner.2
  (outer.1, outer.2)

/-- `IsPrime::expand` (core.cpp:463): the flattened Pratt-certificate
encoding with `num_prime` candidate-prime slots at width `n`. -/
def IsPrime (target : String) (n num_prime : Nat) (c : Counters) :
    Cnf × Counters :=
  let k := c.isprime + 1
  let c1 := { c with isprime := k }
  let notZero := (List.range num_prime).flatMap fun i =>
    Input_Not_Equals_Number (ipPrimeName k i) 0 n
  let notOne := (List.range num_prime).flatMap fun i =>
    Input_Not_Equals_Number (ipPrimeName k i) 1 n
  let pows := stateLoop (fun i ci =>
    stateLoop (fun j cj =>
      Pow_NBit (ipPrimeName k j) (ipPowName k i j)
        (bitName (ipPowTempName k i) j) (ipPowTempOvName k i j) n cj)
      num_prime ci) num_prime c1
  let powOvZero := (List.range num_prime).flatMap fun i =>
    (List.range num_prime).map fun j => [nL (ipPowTempOvName k i j)]
  let products := stateLoop (fun i ci =>
    Product_NBit (ipPowTempName k i) (ipProductName k i) (ipProductOvName k i)
      num_prime n ci) num_prime pows.2
  let productOvZero := (List.range num_prime).map fun i =>
    [nL (ipProductOvName k i)]
  let plus1 := stateLoop (fun i ci =>
    Add_NBit (ipProductName k i) (oneName n) (ipProdPlus1Name k i)
      (ipProdPlus1OvName k i) n ci) num_prime products.2
  let plus1OvZero := (List.range num_prime).map fun i =>
    [nL (ipProdPlus1OvName k i)]
  let sums := stateLoop (fun i ci =>
    Sum_NBit (ipPowBase k i) (ipSumPowName k i) (ipSumPowOvName k i)
      num_prime n ci) num_prime plus1.2
  let sumOvZero := (List.range num_prime).map fun i =>
    [nL (ipSumPowOvName k i)]
  let baseOrRec := stateLoop (ipBaseOrRec k n) num_prime sums.2
  let minus1 := stateLoop (fun i ci =>
    Add_NBit (ipPM1Name k i) (oneName n) (ipPrimeName k i)
      (ipPM1OvName k i) n ci) num_prime baseOrRec.2
  let minus1OvZero := (List.range num_prime).map fun i =>
    [nL (ipPM1OvName k i)]
  let divmods := stateLoop (fun i ci =>
    stateLoop (fun j cj =>
      DivMod_NBit (ipPM1Name k i) (ipPrimeName k j) (ipDivName k i j)
        (ipModName k i j) n cj) num_prime ci) num_prime minus1.2
  let fermat3s := stateLoop (fun i ci =>
    stateLoop (fun j cj => ipFermat3Block k n i j cj) num_prime ci)
    num_prime divmods.2
  let fermat2s := stateLoop (fun i ci => ipFermat2Block k n i ci)
    num_prime fermat3s.2
  (notZero ++ notOne ++ pows.1 ++ powOvZero ++ products.1 ++ productOvZero ++
   plus1.1 ++ plus1OvZero ++ sums.1 ++ sumOvZero ++ baseOrRec.1 ++ minus1.1 ++
   minus1OvZero ++ divmods.1 ++ fermat3s.1 ++ fermat2s.1 ++
   Equals_NBit target (ipPrimeName k 0) n,
   fermat2s.2)

/-! ### Finaliser (generate_cnf, core.cpp:339) and front-end model -/

/-- The bracketed form `<name>` in which the finaliser sees every variable
(the regex `<[a-zA-Z0-9_]+>` collects these tokens). -/
def bracketName (s : String) : String := "<" ++ s ++ ">"

/-- The uppercase-initial test `a[1] >= 'A' && a[1] <= 'Z'` of the sort
comparator (core.cpp:377), reading the character after `<`. -/
def sortKeyUpper (s : String) : Bool :=
  match s.data with
  | _ :: ch :: _ => decide (65 ≤ ch.toNat ∧ ch.toNat ≤ 90)
  | _ => false

/-- Lowercase-initial test (`'a'..'z'` is 97..122), used to state the claim. -/
def lowerInitBr (s : String) : Bool :=
  match s.data with
  | _ :: ch :: _ => decide (97 ≤ ch.toNat ∧ ch.toNat ≤ 122)
  | _ => false

/-- Structural lexicographic comparison of character lists by code point
(the `std::string` byte order used by `operator<` in the comparator). -/
def listLtb : List Char → List Char → Bool
  | _, [] => false
  | [], _ :: _ => true
  | a :: as, b :: bs =>
    if a.toNat < b.toNat then true
    else if b.toNat < a.toNat then false
    else listLtb as bs

/-- Structural string comparison (agrees with `<` on `String`). -/
def strLtb (a b : String) : Bool := listLtb a.data b.data

/-- The sort comparator of core.cpp:376: both-upper or both-lower compare
lexicographically; otherwise lower-initial sorts first. -/
def cnfLitLt (a b : String) : Bool :=
  let au := sortKeyUpper a
  let bu := sortKeyUpper b
  if au && bu then strLtb a b
  else if !au && !bu then strLtb a b
  else if au && !bu then false
  else true

/-- Non-strict version of the comparator, used to run the sort. -/
def cnfLitLe (a b : String) : Prop := cnfLitLt b a = false

instance : DecidableRel cnfLitLe := fun a b =>
  inferInstanceAs (Decidable (cnfLitLt b a = false))

/-- Plain-string non-strict order (the `std::map` key order of the `cv`
lines). -/
def strLe (a b : String) : Prop := strLtb b a = false

instance : DecidableRel strLe := fun a b =>
  inferInstanceAs (Decidable (strLtb b a = false))

/-- The distinct bracketed names occurring in the clause list (the
`std::set` of core.cpp:357). -/
def gatheredLits (L : Cnf) : List String :=
  ((cnfVars L).map bracketName).dedup

/-- The name list after the comparator sort of core.cpp:376. -/
def sortedLits (L : Cnf) : List String :=
  List.insertionSort cnfLitLe (gatheredLits L)

/-- The 1-based variable ID assigned to a bracketed name (core.cpp:393). -/
def litId (L : Cnf) (s : String) : Nat := (sortedLits L).indexOf s + 1

/-- The `cv` comment lines, in `std::map` (plain string) key order
(core.cpp:436). -/
def cvLinePairs (L : Cnf) : List (String × Nat) :=
  (List.insertionSort strLe (sortedLits L)).map fun s => (s, litId L s)

/-- The emitted DIMACS file, token level: three `c` comment lines, the `cv`
name-to-ID lines, the `p cnf N M` header, and the clause lines. -/
structure DimacsOutput where
  commentLines : Nat
  cvLines : List (String × Nat)
  headerVars : Nat
  headerClauses : Nat
  clauseLines : List (List Int)
deriving Repr, DecidableEq

/-- A literal rendered into the output: the ID with the `-` sign preserved
(core.cpp:414-421 replaces `<name>` by the ID inside the clause string). -/
def renderLit (L : Cnf) (l : Lit) : Int :=
  if l.1 then (litId L (bracketName l.2) : Int)
  else -(litId L (bracketName l.2) : Int)

/-- The successful output of `generate_cnf` (core.cpp:432-447). -/
def emitDimacs (L : Cnf) : DimacsOutput :=
  { commentLines := 3
    cvLines := cvLinePairs L
    headerVars := (sortedLits L).length
    headerClauses := L.length
    clauseLines := L.map fun cl => cl.map (renderLit L) }

/-- The one fatal runtime fault `generate_cnf` can hit before writing:
`i % (size/20)` with a zero divisor (undefined behaviour in the C++). -/
inductive GenError where
  | modByZero
deriving Repr, DecidableEq

/-- The progress-report divisor `size / 20` (core.cpp:361, 400, 443). -/
def progressDivisor (len : Nat) : Nat := len / 20

/-- One progress-reporting loop: the body (and hence the modulo) only runs
when the list is nonempty, and faults iff the divisor is zero. -/
def progressStage (len : Nat) : Except GenError Unit :=
  if len = 0 then .ok ()
  else if progressDivisor len = 0 then .error .modByZero
  else .ok ()

/-- `generate_cnf` (core.cpp:339): the expansion while-loop is an identity
copy; then gather (with progress modulo), sort, replace (with progress
modulo), open the output file — on failure print a diagnostic and return
normally with nothing written — then write (with progress modulo). -/
def generate_cnf (conditions : Cnf) (openOk : Bool) :
    Except GenError (Option DimacsOutput) :=
  let expanded := conditions
  match progressStage expanded.length with
  | .error e => .error e
  | .ok _ =>
    match progressStage expanded.length with
    | .error e => .error e
    | .ok _ =>
      if openOk then
        match progressStage expanded.length with
        | .error e => .error e
        | .ok _ => .ok (some (emitDimacs expanded))
      else .ok none

/-- Bit length via `while (t > 0) { ++len; t >>= 1; }` (add_cnf.cpp:30). -/
def bitLenCore : Nat → Nat → Nat
  | 0, _ => 0
  | f + 1, n => if n = 0 then 0 else bitLenCore f (n / 2) + 1

def bitLen (n : Nat) : Nat := bitLenCore n n

/-- The condition list assembled by the `add_cnf` front-end
(add_cnf.cpp:46-77). -/
def addCnfConditions (num1 num2 : Nat) : Cnf :=
  let len := bitLen (max num1 num2)
  let result_len := bitLen (num1 + num2)
  let final_len := max (len + 1) result_len
  (Add_NBit "input1" "input2" "result" "overflow" final_len {}).1 ++
  Input_Equals_Number "input1" num1 final_len ++
  Input_Equals_Number "input2" num2 final_len ++
  [[nL "overflow"]] ++
  Input_Equals_Number (oneName final_len) 1 final_len ++
  [[nL zeroName]]

/-- `add_cnf` front-end `main` on valid numeric arguments: builds the
conditions, calls `generate_cnf`, and returns exit code 0 regardless of the
outcome (add_cnf.cpp:79-85). -/
def addCnfMain (num1 num2 : Nat) (openOk : Bool) :
    Nat × Except GenError (Option DimacsOutput) :=
  (0, generate_cnf (addCnfConditions num1 num2) openOk)

/-- The full interning/emission property of the finaliser (the conclusion
of claim C7, with lexicographic order amended to the bracketed forms). -/
def FinaliserSpec (L : Cnf) (out : DimacsOutput) : Prop :=
  out = emitDimacs L ∧
  out.commentLines = 3 ∧
  out.headerClauses = L.length ∧
  out.headerVars = (sortedLits L).length ∧
  out.clauseLines = L.map (fun cl => cl.map (renderLit L)) ∧
  List.Perm (sortedLits L) (((cnfVars L).map bracketName).dedup) ∧
  (∀ i (hi : i < (sortedLits L).length),
    litId L ((sortedLits L).get ⟨i, hi⟩) = i + 1) ∧
  (∀ s t, s ∈ sortedLits L → t ∈ sortedLits L → lowerInitBr s = true →
    sortKeyUpper t = true → litId L s < litId L t) ∧
  (∀ s t, s ∈ sortedLits L → t ∈ sortedLits L →
    sortKeyUpper s = sortKeyUpper t → (s < t ↔ litId L s < litId L t)) ∧
  List.Perm out.cvLines ((sortedLits L).map fun s => (s, litId L s))

/-- Concrete input showing the sort is lexicographic on the bracketed forms,
not on the names: `"x0"` sorts before `"x"` because `'0' < '>'`. -/
def C7cexInput : Cnf := List.replicate 20 [pL "x", pL "x0"]

/-- Concrete well-behaved input for the C7 witness. -/
def C7wInput : Cnf := List.replicate 20 [pL "x", nL "Ab", pL "y"]

/-- Decidable equality for the finaliser result type. -/
instance : DecidableEq (Except GenError (Option DimacsOutput)) := fun x y =>
  match x, y with
  | .error a, .error b =>
    if h : a = b then isTrue (by rw [h])
    else isFalse (by intro he; cases he; exact h rfl)
  | .error _, .ok _ => isFalse (fun h => Except.noConfusion h)
  | .ok _, .error _ => isFalse (fun h => Except.noConfusion h)
  | .ok a, .ok b =>
    if h : a = b then isTrue (by rw [h])
    else isFalse (by intro he; cases he; exact h rfl)

/-! ### Section 2: theorems. -/

theorem sat_nil (σ : String → Bool) : Sat σ [] := rfl

theorem sat_append {σ : String → Bool} {L₁ L₂ : Cnf} :
    Sat σ (L₁ ++ L₂) ↔ Sat σ L₁ ∧ Sat σ L₂ := by
  simp [Sat, cnfVal]

theorem sat_cons {σ : String → Bool} {cl : Clause} {L : Cnf} :
    Sat σ (cl :: L) ↔ clauseVal σ cl = true ∧ Sat σ L := by
  simp [Sat, cnfVal]

theorem sat_of_mem {σ : String → Bool} {L : Cnf} (h : Sat σ L) {cl : Clause}
    (hm : cl ∈ L) : clauseVal σ cl = true := by
  simp only [Sat, cnfVal, List.all_eq_true] at h
  exact h cl hm

/-! Arithmetic facts about `natOfBits`. -/

theorem natOfBits_lt (φ : Nat → Bool) (n : Nat) : natOfBits φ n < 2 ^ n := by
  induction n with
  | zero => simp [natOfBits]
  | succ m ih =>
    have h2 : (2:Nat) ^ (m + 1) = 2 ^ m * 2 := pow_succ 2 m
    cases hb : φ m <;>
      simp only [natOfBits, hb, Bool.toNat_true, Bool.toNat_false, mul_one,
        mul_zero, add_zero] <;> omega

theorem natOfBits_congr {φ ψ : Nat → Bool} (n : Nat)
    (h : ∀ i < n, φ i = ψ i) : natOfBits φ n = natOfBits ψ n := by
  induction n with
  | zero => rfl
  | succ m ih =>
    simp only [natOfBits]
    rw [ih fun i hi => h i (Nat.lt_succ_of_lt hi), h m (Nat.lt_succ_self m)]

theorem natOfBits_testBit (φ : Nat → Bool) {n : Nat} {i : Nat} (h : i < n) :
    (natOfBits φ n).testBit i = φ i := by
  induction n with
  | zero => omega
  | succ m ih =>
    rcases Nat.lt_succ_iff_lt_or_eq.mp h with h' | h'
    · have hpow : (2:Nat) ^ m = 2 ^ i * (2 * 2 ^ (m - i - 1)) := by
        rw [← pow_succ', ← pow_add]
        congr 1
        omega
      simp only [natOfBits, Nat.testBit_to_div_mod] at *
      have hdiv : (natOfBits φ m + 2 ^ m * (φ m).toNat) / 2 ^ i =
          natOfBits φ m / 2 ^ i + 2 * (2 ^ (m - i - 1) * (φ m).toNat) := by
        rw [hpow, mul_assoc]
        rw [Nat.add_mul_div_left _ _ (Nat.pos_pow_of_pos i (by norm_num))]
        ring_nf
      rw [hdiv]
      have hmod : (natOfBits φ m / 2 ^ i + 2 * (2 ^ (m - i - 1) * (φ m).toNat)) % 2 =
          natOfBits φ m / 2 ^ i % 2 := by omega
      rw [hmod]
      exact ih h'
    · subst h'
      have hlt : natOfBits φ i < 2 ^ i := natOfBits_lt φ i
      simp only [natOfBits, Nat.testBit_to_div_mod]
      have hdiv : (natOfBits φ i + 2 ^ i * (φ i).toNat) / 2 ^ i = (φ i).toNat := by
        rw [Nat.add_mul_div_left _ _ (Nat.pos_pow_of_pos i (by norm_num)),
          Nat.div_eq_of_lt hlt, Nat.zero_add]
      rw [hdiv]
      cases φ i <;> simp

theorem natOfBits_of_testBit (v n : Nat) :
    natOfBits v.testBit n = v % 2 ^ n := by
  induction n with
  | zero => simp [natOfBits, Nat.mod_one]
  | succ m ih =>
    have h1 : v % 2 ^ (m + 1) = v % 2 ^ m + 2 ^ m * (v / 2 ^ m % 2) := by
      rw [pow_succ, Nat.mod_mul]
    have h2 : (v.testBit m).toNat = v / 2 ^ m % 2 := by
      rw [Nat.testBit_to_div_mod]
      rcases Nat.mod_two_eq_zero_or_one (v / 2 ^ m) with h | h <;> simp [h]
    simp only [natOfBits, ih, h1, h2]

theorem bitsVal_zero (σ : String → Bool) (x : String) : bitsVal σ x 0 = 0 := rfl

theorem bitsVal_succ (σ : String → Bool) (x : String) (m : Nat) :
    bitsVal σ x (m + 1) = bitsVal σ x m + 2 ^ m * (σ (bitName x m)).toNat := rfl

theorem bitsVal_lt (σ : String → Bool) (x : String) (n : Nat) :
    bitsVal σ x n < 2 ^ n := natOfBits_lt _ n

/-! Soundness of the 1-bit adder gates: any satisfying assignment forces the
output wire to the boolean function of the inputs. -/

theorem carryOut_sound {σ : String → Bool} {a b ci co : String}
    (h : Sat σ (CarryOut_Equal_POPCNT_GREATER_THAN_2 a b ci co)) :
    σ co = maj3 (σ a) (σ b) (σ ci) := by
  simp only [CarryOut_Equal_POPCNT_GREATER_THAN_2, Sat, cnfVal, clauseVal, litVal,
    List.all_cons, List.all_nil, List.any_cons, List.any_nil, pL, nL,
    Bool.cond_true, Bool.cond_false, Bool.and_eq_true, Bool.or_eq_true] at h
  cases hx : σ a <;> cases hy : σ b <;> cases hz : σ ci <;>
    simp_all [maj3]

theorem xorResult_sound {σ : String → Bool} {a b ci r : String}
    (h : Sat σ (Result_Equal_A_XOR_B_XOR_CarryIn a b ci r)) :
    σ r = xor3 (σ a) (σ b) (σ ci) := by
  simp only [Result_Equal_A_XOR_B_XOR_CarryIn, Sat, cnfVal, clauseVal, litVal,
    List.all_cons, List.all_nil, List.any_cons, List.any_nil, pL, nL,
    Bool.cond_true, Bool.cond_false, Bool.and_eq_true, Bool.or_eq_true] at h
  cases hx : σ a <;> cases hy : σ b <;> cases hz : σ ci <;>
    simp_all [xor3]

theorem add1Bit_sound {σ : String → Bool} {a b ci r co : String}
    (h : Sat σ (Add_1Bit a b ci r co)) :
    σ r = xor3 (σ a) (σ b) (σ ci) ∧ σ co = maj3 (σ a) (σ b) (σ ci) := by
  rw [Add_1Bit, sat_append] at h
  exact ⟨xorResult_sound h.2, carryOut_sound h.1⟩

/-- Full-adder arithmetic: sum and carry recombine the three input bits. -/
theorem adder_arith (x y z : Bool) :
    (xor3 x y z).toNat + 2 * (maj3 x y z).toNat = x.toNat + y.toNat + z.toNat := by
  cases x <;> cases y <;> cases z <;> decide

/-- Value identity of the ripple-carry chain. -/
theorem addChain_sound {σ : String → Bool} {k : Nat} {a b r : String} (n : Nat)
    (h : Sat σ (addChain k a b r n)) :
    bitsVal σ r n + 2 ^ n * (σ (addCarryName k n)).toNat =
      bitsVal σ a n + bitsVal σ b n + (σ (addCarryName k 0)).toNat := by
  induction n with
  | zero => simp [bitsVal_zero]
  | succ m ih =>
    rw [addChain, sat_append] at h
    obtain ⟨hr, hc⟩ := add1Bit_sound h.2
    have hih := ih h.1
    simp only [bitsVal_succ, hr, hc, pow_succ]
    cases ha : σ (bitName a m) <;> cases hb : σ (bitName b m) <;>
      cases hcm : σ (addCarryName k m) <;>
      simp only [maj3, xor3, ha, hb, hcm, Bool.toNat_true, Bool.toNat_false,
        Bool.and_self, Bool.and_true, Bool.and_false, Bool.true_and,
        Bool.false_and, Bool.or_self, Bool.or_true, Bool.true_or,
        Bool.or_false, Bool.false_or, Bool.xor_false, Bool.false_xor,
        Bool.xor_true, Bool.true_xor, Bool.not_true, Bool.not_false,
        mul_one, mul_zero, add_zero] at hih ⊢ <;> omega

/-- Two clauses `(-x ∨ y)`, `(x ∨ -y)` force `x = y`. -/
theorem iff_clauses_sound {σ : String → Bool} {x y : String}
    (h : Sat σ [[nL x, pL y], [pL x, nL y]]) : σ x = σ y := by
  simp only [Sat, cnfVal, clauseVal, litVal, List.all_cons, List.all_nil,
    List.any_cons, List.any_nil, pL, nL, Bool.cond_true, Bool.cond_false,
    Bool.and_eq_true, Bool.or_eq_true] at h
  cases hx : σ x <;> cases hy : σ y <;> simp_all

/-- A single unit clause `(-x)` forces `x = false`. -/
theorem unit_neg_sound {σ : String → Bool} {x : String}
    (h : Sat σ [[nL x]]) : σ x = false := by
  simp only [Sat, cnfVal, clauseVal, litVal, List.all_cons, List.all_nil,
    List.any_cons, List.any_nil, pL, nL, Bool.cond_true, Bool.cond_false,
    Bool.and_eq_true, Bool.or_eq_true] at h
  cases hx : σ x <;> simp_all

/-- A single unit clause `(x)` forces `x = true`. -/
theorem unit_pos_sound {σ : String → Bool} {x : String}
    (h : Sat σ [[pL x]]) : σ x = true := by
  simp only [Sat, cnfVal, clauseVal, litVal, List.all_cons, List.all_nil,
    List.any_cons, List.any_nil, pL, nL, Bool.cond_true, Bool.cond_false,
    Bool.and_eq_true, Bool.or_eq_true] at h
  cases hx : σ x <;> simp_all

/-- Soundness of `Add_NBit::expand`: any satisfying assignment computes the
sum modulo `2^n` and the carry-out as the overflow bit. -/
theorem Add_NBit_sound {σ : String → Bool} {a b r ov : String} {n : Nat}
    {c : Counters} (h : Sat σ (Add_NBit a b r ov n c).1) :
    bitsVal σ r n = (bitsVal σ a n + bitsVal σ b n) % 2 ^ n ∧
      (σ ov).toNat = (bitsVal σ a n + bitsVal σ b n) / 2 ^ n := by
  rw [Add_NBit] at h
  simp only at h
  rw [sat_append, sat_append] at h
  obtain ⟨⟨h0, hchain⟩, hov⟩ := h
  have hc0 : σ (addCarryName (c.add + 1) 0) = false := unit_neg_sound h0
  have hovcn : σ ov = σ (addCarryName (c.add + 1) n) := iff_clauses_sound hov
  have hval := addChain_sound n hchain
  rw [hc0] at hval
  simp only [Bool.toNat_false, add_zero] at hval
  have hrlt : bitsVal σ r n < 2 ^ n := bitsVal_lt σ r n
  rw [hovcn]
  constructor
  · rw [← hval, Nat.add_mul_mod_self_left, Nat.mod_eq_of_lt hrlt]
  · rw [← hval, Nat.add_mul_div_left _ _ (Nat.pos_pow_of_pos n (by norm_num)),
      Nat.div_eq_of_lt hrlt, Nat.zero_add]

/-- Satisfying the pin clauses of `Input_Equals_Number` forces each bit. -/
theorem pin_sound {σ : String → Bool} {x : String} {v n : Nat}
    (h : Sat σ (Input_Equals_Number x v n)) :
    ∀ i < n, σ (bitName x i) = v.testBit i := by
  intro i hi
  have hm : (if v.testBit i then [pL (bitName x i)] else [nL (bitName x i)]) ∈
      Input_Equals_Number x v n := by
    rw [Input_Equals_Number]
    exact List.mem_map.mpr ⟨i, List.mem_range.mpr hi, rfl⟩
  have hcl := sat_of_mem h hm
  cases hv : v.testBit i <;> rw [hv] at hcl <;>
    simp only [if_true, if_false, clauseVal, litVal, List.any_cons,
      List.any_nil, pL, nL, Bool.cond_true, Bool.cond_false,
      Bool.or_false] at hcl
  · cases hσ : σ (bitName x i) <;> simp_all [litVal, nL]
  · exact hcl

/-- Pinned operands take the pinned value. -/
theorem pin_val {σ : String → Bool} {x : String} {v n : Nat}
    (h : Sat σ (Input_Equals_Number x v n)) (hv : v < 2 ^ n) :
    bitsVal σ x n = v := by
  have : bitsVal σ x n = natOfBits v.testBit n :=
    natOfBits_congr n fun i hi => pin_sound h i hi
  rw [this, natOfBits_of_testBit, Nat.mod_eq_of_lt hv]

/-- C5: Adder correctness.  For every width `n` and all `a, b ∈ [0, 2^n)`,
every satisfying assignment of the clause list of `Add_NBit(a,b,r,ov,n)` in
which the bits of `a` and `b` are pinned to their integer values has
`r = (a+b) mod 2^n` and `ov = ⌊(a+b)/2^n⌋`. -/
theorem C5_adder_correct (n A B : Nat) (a b r ov : String)
    (σ : String → Bool) (c : Counters) (hA : A < 2 ^ n) (hB : B < 2 ^ n)
    (h : Sat σ ((Add_NBit a b r ov n c).1 ++
      Input_Equals_Number a A n ++ Input_Equals_Number b B n)) :
    bitsVal σ r n = (A + B) % 2 ^ n ∧ (σ ov).toNat = (A + B) / 2 ^ n := by
  rw [sat_append, sat_append] at h
  obtain ⟨⟨hadd, hpa⟩, hpb⟩ := h
  have := Add_NBit_sound hadd
  rwa [pin_val hpa hA, pin_val hpb hB] at this

/-- Witness for C5 at `n = 1`, `a = b = 1`: the hypotheses are discharged
concretely and the conclusion gives `r = 0`, `ov = 1`. -/
theorem C5_adder_correct_witness :
    (1 : Nat) < 2 ^ 1 ∧
      (bitsVal σC5w "r" 1 = (1 + 1) % 2 ^ 1 ∧
        (σC5w "ov").toNat = (1 + 1) / 2 ^ 1) :=
  ⟨by decide, C5_adder_correct 1 1 1 "a" "b" "r" "ov" σC5w {} (by decide)
    (by decide) (by decide)⟩


/-! Satisfaction lemmas for the Tseitin `Or_Condition` combinator. -/

theorem sat_addLit_elim {σ : String → Bool} {l : Lit} {L : Cnf}
    (h : Sat σ (AddLiteralToCondition l L)) (hl : litVal σ l = false) :
    Sat σ L := by
  simp only [Sat, AddLiteralToCondition, cnfVal, List.all_map, List.all_eq_true] at h ⊢
  intro cl hcl
  have := h cl hcl
  simp only [Function.comp, clauseVal, List.any_cons, hl, Bool.false_or] at this
  exact this

theorem sat_addLit_of_sat {σ : String → Bool} {l : Lit} {L : Cnf}
    (h : Sat σ L) : Sat σ (AddLiteralToCondition l L) := by
  simp only [Sat, AddLiteralToCondition, cnfVal, List.all_map, List.all_eq_true] at h ⊢
  intro cl hcl
  have hthis := h cl hcl
  simp only [clauseVal] at hthis
  simp only [Function.comp, clauseVal, List.any_cons, hthis, Bool.or_true]

theorem sat_addLit_of_lit {σ : String → Bool} {l : Lit} {L : Cnf}
    (hl : litVal σ l = true) : Sat σ (AddLiteralToCondition l L) := by
  simp only [Sat, AddLiteralToCondition, cnfVal, List.all_map, List.all_eq_true]
  intro cl _
  simp only [Function.comp, clauseVal, List.any_cons, hl, Bool.true_or]

/-- Any model of the combined list is a model of one disjunct. -/
theorem orCondition_sound {σ : String → Bool} {C₁ C₂ : Cnf} {c : Counters}
    (h : Sat σ (Or_Condition C₁ C₂ c).1) : Sat σ C₁ ∨ Sat σ C₂ := by
  rw [Or_Condition] at h
  simp only at h
  rw [sat_append] at h
  cases ht : σ (orCondName (c.orc + 1))
  · exact Or.inl (sat_addLit_elim h.1 (by simp [litVal, pL, ht]))
  · exact Or.inr (sat_addLit_elim h.2 (by simp [litVal, nL, ht]))

/-- Clause-list evaluation only looks at the mentioned variables. -/
theorem clauseVal_congr {σ σ' : String → Bool} {cl : Clause}
    (h : ∀ nm ∈ clauseVars cl, σ nm = σ' nm) :
    clauseVal σ cl = clauseVal σ' cl := by
  induction cl with
  | nil => rfl
  | cons l tl ih =>
    simp only [clauseVal, List.any_cons]
    have hl : litVal σ l = litVal σ' l := by
      have : σ l.2 = σ' l.2 := h l.2 (by simp [clauseVars])
      simp [litVal, this]
    have ih' := ih fun nm hnm => h nm (by simp [clauseVars] at hnm ⊢; exact Or.inr hnm)
    simp only [clauseVal] at ih'
    rw [hl, ih']

theorem cnfVal_congr {σ σ' : String → Bool} {L : Cnf}
    (h : ∀ nm ∈ cnfVars L, σ nm = σ' nm) :
    cnfVal σ L = cnfVal σ' L := by
  induction L with
  | nil => rfl
  | cons cl tl ih =>
    simp only [cnfVal, List.all_cons]
    have ih' := ih fun nm hnm => h nm (by simp [cnfVars] at hnm ⊢; exact Or.inr hnm)
    simp only [cnfVal] at ih'
    rw [clauseVal_congr fun nm hnm => h nm (by simp [cnfVars] at hnm ⊢; exact Or.inl hnm),
      ih']

/-- C6: Or_Condition Tseitin equivalence.  For clause lists `C₁`, `C₂` that do
not mention the freshly allocated selector variable, the list produced by
`Or_Condition(C₁,C₂).expand()` is satisfiable iff `C₁` is satisfiable or `C₂`
is satisfiable. -/
theorem C6_or_condition_equisat (C₁ C₂ : Cnf) (c : Counters)
    (h1 : orCondName (c.orc + 1) ∉ cnfVars C₁)
    (h2 : orCondName (c.orc + 1) ∉ cnfVars C₂) :
    Satisfiable (Or_Condition C₁ C₂ c).1 ↔ Satisfiable C₁ ∨ Satisfiable C₂ := by
  constructor
  · rintro ⟨σ, hσ⟩
    rcases orCondition_sound hσ with h | h
    · exact Or.inl ⟨σ, h⟩
    · exact Or.inr ⟨σ, h⟩
  · intro h
    set t := orCondName (c.orc + 1) with ht
    rcases h with ⟨σ, hσ⟩ | ⟨σ, hσ⟩
    · refine ⟨fun nm => if nm = t then false else σ nm, ?_⟩
      rw [Or_Condition]
      simp only
      rw [sat_append]
      constructor
      · refine sat_addLit_of_sat ?_
        have : cnfVal (fun nm => if nm = t then false else σ nm) C₁ = cnfVal σ C₁ :=
          cnfVal_congr fun nm hnm => by
            have : nm ≠ t := fun he => h1 (he ▸ hnm)
            simp [this]
        rw [Sat, this]
        exact hσ
      · exact sat_addLit_of_lit (by simp [litVal, nL])
    · refine ⟨fun nm => if nm = t then true else σ nm, ?_⟩
      rw [Or_Condition]
      simp only
      rw [sat_append]
      constructor
      · exact sat_addLit_of_lit (by simp [litVal, pL])
      · refine sat_addLit_of_sat ?_
        have : cnfVal (fun nm => if nm = t then true else σ nm) C₂ = cnfVal σ C₂ :=
          cnfVal_congr fun nm hnm => by
            have : nm ≠ t := fun he => h2 (he ▸ hnm)
            simp [this]
        rw [Sat, this]
        exact hσ

/-- Witness for C6 on the concrete lists `[[x]]` and `[[-x]]`. -/
theorem C6_or_condition_equisat_witness :
    Satisfiable (Or_Condition [[pL "x"]] [[nL "x"]] {}).1 ↔
      Satisfiable [[pL "x"]] ∨ Satisfiable [[nL "x"]] :=
  C6_or_condition_equisat [[pL "x"]] [[nL "x"]] {} (by decide) (by decide)

/-! Order properties of the core.cpp:376 comparator. -/

theorem listLtb_iff : ∀ as bs : List Char,
    listLtb as bs = true ↔ List.Lex (fun x y : Char => x < y) as bs := by
  intro as
  induction as with
  | nil =>
    intro bs
    cases bs with
    | nil => simp [listLtb]
    | cons b bs =>
      simp only [listLtb]
      exact ⟨fun _ => List.Lex.nil, fun _ => trivial⟩
  | cons a as ih =>
    intro bs
    cases bs with
    | nil =>
      simp only [listLtb]
      constructor
      · intro h
        exact absurd h (by simp)
      · intro h
        cases h
    | cons b bs =>
      simp only [listLtb]
      by_cases h1 : a.toNat < b.toNat
      · simp only [h1, if_true]
        exact ⟨fun _ => List.Lex.rel h1, fun _ => trivial⟩
      · by_cases h2 : b.toNat < a.toNat
        · simp only [h1, h2, if_false, if_true]
          constructor
          · intro h
            exact absurd h (by simp)
          · intro h
            cases h with
            | rel h' => exact absurd h' h1
            | cons h' => exact absurd h2 (lt_irrefl _)
        · have hab : a = b := by
            rcases lt_trichotomy a b with h | h | h
            · exact absurd h h1
            · exact h
            · exact absurd h h2
          subst hab
          simp only [h1, h2, if_false]
          rw [ih bs]
          exact (List.Lex.cons_iff (r := fun x y : Char => x < y)).symm

theorem strLtb_iff (a b : String) : strLtb a b = true ↔ a < b := by
  rw [String.lt_iff_toList_lt]
  exact listLtb_iff a.data b.data

theorem cnfLitLt_true_iff (a b : String) :
    cnfLitLt a b = true ↔
      ((sortKeyUpper a = sortKeyUpper b ∧ a < b) ∨
        (sortKeyUpper a = false ∧ sortKeyUpper b = true)) := by
  simp only [cnfLitLt]
  cases hau : sortKeyUpper a <;> cases hbu : sortKeyUpper b <;>
    simp [strLtb_iff]

theorem cnfLitLe_iff (a b : String) :
    cnfLitLe a b ↔
      ¬((sortKeyUpper b = sortKeyUpper a ∧ b < a) ∨
        (sortKeyUpper b = false ∧ sortKeyUpper a = true)) := by
  rw [cnfLitLe, ← Bool.not_eq_true, not_iff_not]
  exact cnfLitLt_true_iff b a

instance : IsTotal String cnfLitLe where
  total a b := by
    rw [cnfLitLe_iff, cnfLitLe_iff]
    by_contra hcon
    push_neg at hcon
    obtain ⟨h1, h2⟩ := hcon
    rcases h1 with ⟨hk1, hba⟩ | ⟨hb1, ha1⟩ <;>
      rcases h2 with ⟨hk2, hab⟩ | ⟨hb2, ha2⟩
    · exact lt_asymm hba hab
    · simp_all
    · simp_all
    · simp_all

instance : IsTrans String cnfLitLe where
  trans a b c hab hbc := by
    rw [cnfLitLe_iff] at hab hbc ⊢
    rintro (⟨hkca, hca⟩ | ⟨hkc, hka⟩)
    · cases hkb : sortKeyUpper b
      · cases hka : sortKeyUpper a
        · have h1 : ¬ b < a := fun h => hab (Or.inl ⟨by rw [hkb, hka], h⟩)
          have h2 : ¬ c < b := fun h =>
            hbc (Or.inl ⟨by rw [hkb]; rw [hka] at hkca; exact hkca, h⟩)
          exact absurd hca (not_lt.mpr (le_trans (le_of_not_lt h1) (le_of_not_lt h2)))
        · exact hab (Or.inr ⟨hkb, hka⟩)
      · cases hkc2 : sortKeyUpper c
        · exact hbc (Or.inr ⟨hkc2, hkb⟩)
        · have hka : sortKeyUpper a = true := by rw [← hkca, hkc2]
          have h1 : ¬ b < a := fun h => hab (Or.inl ⟨by rw [hkb, hka], h⟩)
          have h2 : ¬ c < b := fun h => hbc (Or.inl ⟨by rw [hkc2, hkb], h⟩)
          exact absurd hca (not_lt.mpr (le_trans (le_of_not_lt h1) (le_of_not_lt h2)))
    · cases hkb : sortKeyUpper b
      · exact hab (Or.inr ⟨hkb, hka⟩)
      · exact hbc (Or.inr ⟨hkc, hkb⟩)

theorem sortedLits_nodup (L : Cnf) : (sortedLits L).Nodup :=
  ((List.perm_insertionSort cnfLitLe _).nodup_iff).mpr (List.nodup_dedup _)

theorem sortedLits_sorted (L : Cnf) : List.Sorted cnfLitLe (sortedLits L) :=
  List.sorted_insertionSort _ _

theorem litId_get (L : Cnf) (i : Nat) (hi : i < (sortedLits L).length) :
    litId L ((sortedLits L).get ⟨i, hi⟩) = i + 1 := by
  rw [litId, List.get_indexOf (sortedLits_nodup L) ⟨i, hi⟩]

/-- A lowercase-initial bracketed name is not uppercase-initial. -/
theorem lowerInitBr_not_upper {s : String} (h : lowerInitBr s = true) :
    sortKeyUpper s = false := by
  rw [lowerInitBr] at h
  rw [sortKeyUpper]
  rcases hd : s.data with _ | ⟨c1, _ | ⟨c2, rest⟩⟩ <;> rw [hd] at h <;>
    simp_all <;> omega

theorem litId_lower_lt_upper {L : Cnf} {s t : String}
    (hs : s ∈ sortedLits L) (ht : t ∈ sortedLits L)
    (hls : lowerInitBr s = true) (hut : sortKeyUpper t = true) :
    litId L s < litId L t := by
  have hks : sortKeyUpper s = false := lowerInitBr_not_upper hls
  have hil : (sortedLits L).indexOf s < (sortedLits L).length :=
    List.indexOf_lt_length.mpr hs
  have hjl : (sortedLits L).indexOf t < (sortedLits L).length :=
    List.indexOf_lt_length.mpr ht
  rw [litId, litId]
  have hne : (sortedLits L).indexOf s ≠ (sortedLits L).indexOf t := by
    intro he
    have heq : s = t := (List.indexOf_inj hs ht).mp he
    rw [heq, hut] at hks
    exact Bool.noConfusion hks
  rcases Nat.lt_or_ge ((sortedLits L).indexOf s) ((sortedLits L).indexOf t) with h | h
  · omega
  · exfalso
    have hlt : (sortedLits L).indexOf t < (sortedLits L).indexOf s := by omega
    have hrel := (sortedLits_sorted L).rel_get_of_lt
      (a := ⟨(sortedLits L).indexOf t, hjl⟩) (b := ⟨(sortedLits L).indexOf s, hil⟩) hlt
    rw [List.indexOf_get hjl, List.indexOf_get hil] at hrel
    rw [cnfLitLe_iff] at hrel
    exact hrel (Or.inr ⟨hks, hut⟩)

theorem litId_lt_of_lt {L : Cnf} {s t : String}
    (hs : s ∈ sortedLits L) (ht : t ∈ sortedLits L)
    (hk : sortKeyUpper s = sortKeyUpper t) (hst : s < t) :
    litId L s < litId L t := by
  have hil : (sortedLits L).indexOf s < (sortedLits L).length :=
    List.indexOf_lt_length.mpr hs
  have hjl : (sortedLits L).indexOf t < (sortedLits L).length :=
    List.indexOf_lt_length.mpr ht
  rw [litId, litId]
  have hne : (sortedLits L).indexOf s ≠ (sortedLits L).indexOf t := by
    intro he
    exact absurd ((List.indexOf_inj hs ht).mp he) (ne_of_lt hst)
  rcases Nat.lt_or_ge ((sortedLits L).indexOf s) ((sortedLits L).indexOf t) with h | h
  · omega
  · exfalso
    have hlt : (sortedLits L).indexOf t < (sortedLits L).indexOf s := by omega
    have hrel := (sortedLits_sorted L).rel_get_of_lt
      (a := ⟨(sortedLits L).indexOf t, hjl⟩) (b := ⟨(sortedLits L).indexOf s, hil⟩) hlt
    rw [List.indexOf_get hjl, List.indexOf_get hil] at hrel
    rw [cnfLitLe_iff] at hrel
    exact hrel (Or.inl ⟨hk, hst⟩)

theorem litId_lex {L : Cnf} {s t : String}
    (hs : s ∈ sortedLits L) (ht : t ∈ sortedLits L)
    (hk : sortKeyUpper s = sortKeyUpper t) :
    s < t ↔ litId L s < litId L t := by
  constructor
  · exact litId_lt_of_lt hs ht hk
  · intro hid
    rcases lt_trichotomy s t with h | h | h
    · exact h
    · rw [h] at hid
      exact absurd hid (lt_irrefl _)
    · exact absurd (litId_lt_of_lt ht hs hk.symm h) (by omega)

theorem finaliserSpec_emitDimacs (L : Cnf) : FinaliserSpec L (emitDimacs L) := by
  refine ⟨rfl, rfl, rfl, rfl, rfl, List.perm_insertionSort _ _, litId_get L,
    ?_, ?_, ?_⟩
  · exact fun s t hs ht hls hut => litId_lower_lt_upper hs ht hls hut
  · exact fun s t hs ht hk => litId_lex hs ht hk
  · exact (List.perm_insertionSort _ _).map _

/-- C7: Finaliser interning and header (with the within-group order read on
the bracketed forms `<name>`, which is what the code compares): a successful
`generate_cnf` run emits three comment lines, one `cv` line per distinct
bracketed name, the header `p cnf N M` with `N` the distinct-name count and
`M` the input clause count, clause lines in input order with names replaced
by their 1-based IDs and signs preserved, and IDs assigned in sorted order:
lowercase-initial names before uppercase-initial ones, bracketed-form
lexicographic within each group. -/
theorem C7_finaliser_interning (L : Cnf) (out : DimacsOutput) (openOk : Bool)
    (h : generate_cnf L openOk = Except.ok (some out)) : FinaliserSpec L out := by
  have hout : out = emitDimacs L := by
    simp only [generate_cnf] at h
    cases hp : progressStage L.length
    case error e =>
      rw [hp] at h
      exact absurd h (by simp)
    case ok u =>
      rw [hp] at h
      cases openOk
      case false => simp at h
      case true =>
        simp at h
        exact h.symm
  rw [hout]
  exact finaliserSpec_emitDimacs L

/-- Witness for C7 on a concrete 20-clause input with names `x`, `y`, `Ab`. -/
theorem C7_finaliser_interning_witness :
    FinaliserSpec C7wInput (emitDimacs C7wInput) :=
  C7_finaliser_interning C7wInput (emitDimacs C7wInput) true (by decide)

/-- Counterexample to C7 as literally stated: with names `x` and `x0` (both
lowercase-initial), the code sorts `x0` first because it compares the
bracketed strings and `'0' < '>'`, although `"x" < "x0"` lexicographically;
so IDs are not assigned in name-lexicographic order within the group. -/
theorem C7_counterexample :
    "x" < "x0" ∧
    lowerInitBr (bracketName "x") = true ∧
    lowerInitBr (bracketName "x0") = true ∧
    litId C7cexInput (bracketName "x0") = 1 ∧
    litId C7cexInput (bracketName "x") = 2 ∧
    generate_cnf C7cexInput true = Except.ok (some (emitDimacs C7cexInput)) := by
  refine ⟨(strLtb_iff _ _).mp (by decide), by decide, by decide, by decide,
    by decide, by decide⟩

/-! Clause-count lemmas for the add_cnf front-end. -/

theorem Add_1Bit_length (a b ci r co : String) :
    (Add_1Bit a b ci r co).length = 16 := rfl

theorem addChain_length (k : Nat) (a b r : String) (n : Nat) :
    (addChain k a b r n).length = 16 * n := by
  induction n with
  | zero => rfl
  | succ m ih =>
    rw [addChain, List.length_append, ih, Add_1Bit_length]
    omega

theorem Add_NBit_length (a b r ov : String) (n : Nat) (c : Counters) :
    ((Add_NBit a b r ov n c).1).length = 16 * n + 3 := by
  simp only [Add_NBit, List.length_append, addChain_length, List.length_cons,
    List.length_nil]
  omega

theorem Input_Equals_Number_length (x : String) (v n : Nat) :
    (Input_Equals_Number x v n).length = n := by
  simp [Input_Equals_Number]

theorem addCnfConditions_length_ge (num1 num2 : Nat) :
    20 ≤ (addCnfConditions num1 num2).length := by
  rw [addCnfConditions]
  simp only [List.length_append, Add_NBit_length, Input_Equals_Number_length,
    List.length_cons, List.length_nil]
  have h1 : 1 ≤ max (bitLen (max num1 num2) + 1) (bitLen (num1 + num2)) := by
    have := Nat.le_max_left (bitLen (max num1 num2) + 1) (bitLen (num1 + num2))
    omega
  omega

theorem generate_cnf_open_failure (L : Cnf) (h : 20 ≤ L.length) :
    generate_cnf L false = Except.ok none := by
  have h0 : ¬ L.length = 0 := by omega
  have h1 : ¬ progressDivisor L.length = 0 := by
    rw [progressDivisor]
    omega
  simp [generate_cnf, progressStage, h0, h1]

/-- C8 (amended): when the output file cannot be opened, `generate_cnf`
prints a diagnostic and returns normally with nothing written; the failure
is not surfaced to the caller — the `add_cnf` front-end cannot observe it
and exits 0. -/
theorem C8_open_failure_not_surfaced (num1 num2 : Nat) (openOk : Bool) :
    (addCnfMain num1 num2 openOk).1 = 0 ∧
    (addCnfMain num1 num2 false).2 = Except.ok none :=
  ⟨rfl, generate_cnf_open_failure _ (addCnfConditions_length_ge num1 num2)⟩

/-- Counterexample to C8 as stated: on input `5 3` the front-end's
caller-visible result (the exit code) is identical whether or not the
output file could be opened, and on failure nothing is written — so the
failure is not reported to the caller as a non-recoverable error. -/
theorem C8_counterexample :
    (addCnfMain 5 3 false).1 = (addCnfMain 5 3 true).1 ∧
    (addCnfMain 5 3 false).2 = Except.ok none := by
  decide

/-- C10 (amended): the progress divisor `size/20` is nonzero iff the clause
list has at least 20 clauses; `generate_cnf` runs without a modulo-by-zero
iff the list is empty (no loop iteration evaluates the modulo) or has at
least 20 clauses. -/
theorem C10_progress_modulo (L : Cnf) (openOk : Bool) :
    (progressDivisor L.length ≠ 0 ↔ 20 ≤ L.length) ∧
    ((∀ e, generate_cnf L openOk ≠ Except.error e) ↔
      (L.length = 0 ∨ 20 ≤ L.length)) := by
  constructor
  · rw [progressDivisor]
    omega
  · by_cases h0 : L.length = 0
    · have hgen : generate_cnf L openOk =
          if openOk then Except.ok (some (emitDimacs L)) else Except.ok none := by
        simp [generate_cnf, progressStage, h0]
      constructor
      · intro _
        exact Or.inl h0
      · intro _ e
        rw [hgen]
        cases openOk <;> simp
    · by_cases h20 : 20 ≤ L.length
      · have hd : ¬ progressDivisor L.length = 0 := by
          rw [progressDivisor]
          omega
        have hgen : generate_cnf L openOk =
            if openOk then Except.ok (some (emitDimacs L)) else Except.ok none := by
          simp [generate_cnf, progressStage, h0, hd]
        constructor
        · intro _
          exact Or.inr h20
        · intro _ e
          rw [hgen]
          cases openOk <;> simp
      · have hd : progressDivisor L.length = 0 := by
          rw [progressDivisor]
          omega
        have hs : progressStage L.length = Except.error GenError.modByZero := by
          simp [progressStage, h0, hd]
        have hgen : generate_cnf L openOk = Except.error GenError.modByZero := by
          simp [generate_cnf, hs]
        constructor
        · intro hne
          exact absurd hgen (hne _)
        · intro hor
          rcases hor with h | h <;> omega

/-- Counterexample to C10 as stated: on the empty clause list the divisor is
zero and there are fewer than 20 clauses, yet `generate_cnf` reaches the
file-writing stage without evaluating any modulo (the loops have no
iterations). -/
theorem C10_counterexample :
    progressDivisor ([] : Cnf).length = 0 ∧
    ¬ (20 ≤ ([] : Cnf).length) ∧
    generate_cnf ([] : Cnf) true = Except.ok (some (emitDimacs [])) := by
  decide

set_option maxRecDepth 40000 in
/-- C9: the width-consistency invariant fails in `Pow_NBit::expand`: at
width `n = 2` the emitted clauses reference bit `2` (= `n`, out of the
declared range `0..n-1`) of the exponent operand, via the overflow-temp mux
over `in_b_(i+1)` (core.cpp:1074). -/
theorem C9_pow_reads_exponent_bit_n :
    bitName "e" 2 ∈ cnfVars (Pow_NBit "a" "e" "r" "ov" 2 {}).1 := by
  decide

/-! ### Generic satisfaction helpers for the arithmetic stack -/

theorem stateLoop_sat {σ : String → Bool} {f : Nat → Counters → Cnf × Counters}
    {m : Nat} {c : Counters} (h : Sat σ (stateLoop f m c).1) {i : Nat}
    (hi : i < m) : Sat σ (f i (stateLoop f i c).2).1 := by
  induction m with
  | zero => omega
  | succ m' ih =>
    simp only [stateLoop] at h
    rw [sat_append] at h
    rcases Nat.lt_succ_iff_lt_or_eq.mp hi with h' | h'
    · exact ih h.1 h'
    · subst h'
      exact h.2

theorem sat_flatMap_range {σ : String → Bool} {g : Nat → Cnf} {n : Nat}
    (h : Sat σ ((List.range n).flatMap g)) : ∀ i < n, Sat σ (g i) := by
  intro i hi
  simp only [Sat, cnfVal, List.all_eq_true] at h ⊢
  intro cl hcl
  exact h cl (List.mem_flatMap.mpr ⟨i, List.mem_range.mpr hi, hcl⟩)

theorem sat_map_range {σ : String → Bool} {g : Nat → Clause} {n : Nat}
    (h : Sat σ ((List.range n).map g)) : ∀ i < n, clauseVal σ (g i) = true := by
  intro i hi
  exact sat_of_mem h (List.mem_map.mpr ⟨i, List.mem_range.mpr hi, rfl⟩)

/-! More arithmetic on `natOfBits`. -/

theorem natOfBits_eq_zero {φ : Nat → Bool} {n : Nat}
    (h : ∀ i < n, φ i = false) : natOfBits φ n = 0 := by
  induction n with
  | zero => rfl
  | succ m ih =>
    simp only [natOfBits, ih fun i hi => h i (Nat.lt_succ_of_lt hi),
      h m (Nat.lt_succ_self m), Bool.toNat_false, mul_zero, add_zero]

theorem natOfBits_split (φ : Nat → Bool) (a b : Nat) :
    natOfBits φ (a + b) = natOfBits φ a + 2 ^ a * natOfBits (fun j => φ (a + j)) b := by
  induction b with
  | zero => simp [natOfBits]
  | succ m ih =>
    have : a + (m + 1) = (a + m) + 1 := by omega
    rw [this]
    simp only [natOfBits, ih, pow_add]
    ring

/-- A number whose bits above `n` (up to `N`) vanish equals its low part. -/
theorem natOfBits_high_zero {φ : Nat → Bool} {n N : Nat} (hn : n ≤ N)
    (h : ∀ j, n ≤ j → j < N → φ j = false) :
    natOfBits φ N = natOfBits φ n := by
  have hsplit := natOfBits_split φ n (N - n)
  rw [show n + (N - n) = N by omega] at hsplit
  rw [hsplit, natOfBits_eq_zero (n := N - n) fun j hj => h (n + j) (by omega) (by omega)]
  simp

/-- Bitwise comparison: if the bits agree above `i` and differ favourably at
`i`, the first word is smaller. -/
theorem natOfBits_lt_of_window {φ ψ : Nat → Bool} {n i : Nat} (hi : i < n)
    (hagree : ∀ j, i < j → j < n → φ j = ψ j)
    (hφ : φ i = false) (hψ : ψ i = true) :
    natOfBits φ n < natOfBits ψ n := by
  induction n with
  | zero => omega
  | succ m ih =>
    rcases Nat.lt_succ_iff_lt_or_eq.mp hi with h' | h'
    · have hm : φ m = ψ m := hagree m (by omega) (by omega)
      simp only [natOfBits, hm]
      have := ih h' fun j hj1 hj2 => hagree j hj1 (by omega)
      omega
    · subst h'
      simp only [natOfBits, hφ, hψ, Bool.toNat_false, Bool.toNat_true,
        mul_zero, add_zero, mul_one]
      have h1 : natOfBits φ i < 2 ^ i := natOfBits_lt φ i
      omega

theorem testBit_ge_of_true {v i : Nat} (h : v.testBit i = true) : 2 ^ i ≤ v := by
  by_contra hlt
  rw [Nat.testBit_lt_two_pow (by omega)] at h
  exact Bool.noConfusion h

/-- For `v < 2^(2n)`: some bit in `[n, 2n)` is set iff `2^n ≤ v`. -/
theorem high_bit_iff {v n : Nat} (hv : v < 2 ^ (n * 2)) :
    (∃ j < n, v.testBit (j + n) = true) ↔ 2 ^ n ≤ v := by
  constructor
  · rintro ⟨j, _, hbit⟩
    calc 2 ^ n ≤ 2 ^ (j + n) := Nat.pow_le_pow_right (by norm_num) (by omega)
    _ ≤ v := testBit_ge_of_true hbit
  · intro hge
    by_contra hnone
    push_neg at hnone
    have hlow : v = natOfBits v.testBit n := by
      have h2n : natOfBits v.testBit (n * 2) = v := by
        rw [natOfBits_of_testBit, Nat.mod_eq_of_lt hv]
      have := natOfBits_high_zero (φ := v.testBit) (n := n) (N := n * 2)
        (by omega) (fun j hj1 hj2 => by
          have := hnone (j - n) (by omega)
          rw [show j - n + n = j by omega] at this
          exact Bool.eq_false_iff.mpr (by
            intro hT
            exact this hT))
      omega
    have := natOfBits_lt v.testBit n
    omega

/-! Soundness of the small gates. -/

theorem and1_sound {σ : String → Bool} {a b r : String}
    (h : Sat σ (And_1Bit a b r)) : σ r = (σ a && σ b) := by
  simp only [And_1Bit, Sat, cnfVal, clauseVal, litVal, List.all_cons,
    List.all_nil, List.any_cons, List.any_nil, pL, nL, Bool.cond_true,
    Bool.cond_false, Bool.and_eq_true, Bool.or_eq_true] at h
  cases hx : σ a <;> cases hy : σ b <;> simp_all

theorem or1_sound {σ : String → Bool} {a b r : String}
    (h : Sat σ (Or_1Bit a b r)) : σ r = (σ a || σ b) := by
  simp only [Or_1Bit, Sat, cnfVal, clauseVal, litVal, List.all_cons,
    List.all_nil, List.any_cons, List.any_nil, pL, nL, Bool.cond_true,
    Bool.cond_false, Bool.and_eq_true, Bool.or_eq_true] at h
  cases hx : σ a <;> cases hy : σ b <;> simp_all

theorem eq1_sound {σ : String → Bool} {a b r : String}
    (h : Sat σ (Equals_1Bit a b r)) : σ r = (σ a == σ b) := by
  simp only [Equals_1Bit, Sat, cnfVal, clauseVal, litVal, List.all_cons,
    List.all_nil, List.any_cons, List.any_nil, pL, nL, Bool.cond_true,
    Bool.cond_false, Bool.and_eq_true, Bool.or_eq_true] at h
  cases hx : σ a <;> cases hy : σ b <;> simp_all

theorem lt1_sound {σ : String → Bool} {a b r : String}
    (h : Sat σ (LessThan_1Bit a b r)) : σ r = (!σ a && σ b) := by
  simp only [LessThan_1Bit, Sat, cnfVal, clauseVal, litVal, List.all_cons,
    List.all_nil, List.any_cons, List.any_nil, pL, nL, Bool.cond_true,
    Bool.cond_false, Bool.and_eq_true, Bool.or_eq_true] at h
  cases hx : σ a <;> cases hy : σ b <;> simp_all

theorem if1_sound {σ : String → Bool} {a b cnd r : String}
    (h : Sat σ (If_Cond_A_Else_B_1Bit a b cnd r)) :
    σ r = (if σ cnd then σ a else σ b) := by
  simp only [If_Cond_A_Else_B_1Bit, Sat, cnfVal, clauseVal, litVal, List.all_cons,
    List.all_nil, List.any_cons, List.any_nil, pL, nL, Bool.cond_true,
    Bool.cond_false, Bool.and_eq_true, Bool.or_eq_true] at h
  cases hc : σ cnd <;> cases hx : σ a <;> cases hy : σ b <;> simp_all

theorem ifN_sound {σ : String → Bool} {a b cnd r : String} {n : Nat}
    (h : Sat σ (If_Cond_A_Else_B_NBit a b cnd r n)) :
    bitsVal σ r n = (if σ cnd then bitsVal σ a n else bitsVal σ b n) := by
  rw [If_Cond_A_Else_B_NBit] at h
  have hb := sat_flatMap_range h
  have hbit : ∀ i < n, σ (bitName r i) =
      (if σ cnd then σ (bitName a i) else σ (bitName b i)) :=
    fun i hi => if1_sound (hb i hi)
  cases hc : σ cnd <;> [skip; skip] <;>
    · rw [bitsVal, bitsVal]
      refine natOfBits_congr n fun i hi => ?_
      rw [hbit i hi, hc]
      simp

theorem equalsN_sound_bits {σ : String → Bool} {a b : String} {n : Nat}
    (h : Sat σ (Equals_NBit a b n)) :
    ∀ i < n, σ (bitName a i) = σ (bitName b i) := by
  rw [Equals_NBit] at h
  have hb := sat_flatMap_range h
  intro i hi
  have := iff_clauses_sound (hb i hi)
  exact this

theorem equalsN_sound {σ : String → Bool} {a b : String} {n : Nat}
    (h : Sat σ (Equals_NBit a b n)) : bitsVal σ a n = bitsVal σ b n :=
  natOfBits_congr n (equalsN_sound_bits h)

theorem orN1_sound {σ : String → Bool} {a r : String} {n : Nat}
    (h : Sat σ (Or_NBit_To_1Bit a r n)) :
    σ r = true ↔ ∃ i < n, σ (bitName a i) = true := by
  rw [Or_NBit_To_1Bit, sat_cons] at h
  obtain ⟨hbig, hunits⟩ := h
  constructor
  · intro hr
    simp only [clauseVal, List.any_cons, litVal, nL, Bool.cond_false, hr,
      Bool.not_true, Bool.false_or, List.any_eq_true] at hbig
    obtain ⟨l, hl, hval⟩ := hbig
    obtain ⟨i, hi, rfl⟩ := List.mem_map.mp hl
    refine ⟨i, List.mem_range.mp hi, ?_⟩
    simpa [litVal, pL] using hval
  · rintro ⟨i, hi, hbit⟩
    have hcl := sat_map_range hunits i hi
    simp only [clauseVal, List.any_cons, List.any_nil, litVal, pL, nL,
      Bool.cond_true, Bool.cond_false, hbit, Bool.not_true, Bool.or_false] at hcl
    exact hcl

/-- The single clause of `Input_Not_Equals_Number` rules out the value. -/
theorem notEquals_sound {σ : String → Bool} {x : String} {v n : Nat}
    (h : Sat σ (Input_Not_Equals_Number x v n)) (hv : v < 2 ^ n) :
    bitsVal σ x n ≠ v := by
  intro heq
  rw [Input_Not_Equals_Number, sat_cons] at h
  have hcl := h.1
  simp only [clauseVal, List.any_eq_true] at hcl
  obtain ⟨l, hl, hval⟩ := hcl
  obtain ⟨i, hi, rfl⟩ := List.mem_map.mp hl
  rw [List.mem_range] at hi
  have hbit : σ (bitName x i) = (bitsVal σ x n).testBit i := by
    rw [bitsVal]
    exact (natOfBits_testBit (fun j => σ (bitName x j)) hi).symm
  rw [heq] at hbit
  cases htb : v.testBit i <;> rw [htb] at hval hbit <;>
    simp only [if_true, if_false, litVal, pL, nL, Bool.cond_true,
      Bool.cond_false] at hval <;> simp_all

theorem bitsVal_testBit {σ : String → Bool} {x : String} {n i : Nat}
    (hi : i < n) : (bitsVal σ x n).testBit i = σ (bitName x i) := by
  rw [bitsVal]
  exact natOfBits_testBit (fun j => σ (bitName x j)) hi

/-! Soundness of `LessThan_NBit`. -/

theorem LessThan_NBit_sound {σ : String → Bool} {a b : String} {n : Nat}
    {c : Counters} (h : Sat σ (LessThan_NBit a b n c).1) :
    bitsVal σ a n < bitsVal σ b n := by
  simp only [LessThan_NBit] at h
  obtain ⟨h, hfin⟩ := sat_append.mp h
  obtain ⟨h, hres⟩ := sat_append.mp h
  obtain ⟨h, hacc⟩ := sat_append.mp h
  obtain ⟨h, hinit⟩ := sat_append.mp h
  obtain ⟨heq, hlt⟩ := sat_append.mp h
  set k := c.lt + 1 with hk
  have hAn : σ (ltAccumName k n) = true := unit_pos_sound hinit
  -- pick the witness index from the final disjunction
  rw [sat_cons] at hfin
  have hfin1 := hfin.1
  simp only [clauseVal, List.any_eq_true] at hfin1
  obtain ⟨l, hl, hval⟩ := hfin1
  obtain ⟨i, hi, rfl⟩ := List.mem_map.mp hl
  rw [List.mem_range] at hi
  have hRi : σ (ltResName k i) = true := by simpa [litVal, pL] using hval
  have hRdef : σ (ltResName k i) =
      (σ (ltAccumName k (i + 1)) && σ (ltLessName k i)) :=
    and1_sound (sat_flatMap_range hres i hi)
  rw [hRi] at hRdef
  have hRdef' := hRdef.symm
  rw [Bool.and_eq_true] at hRdef'
  obtain ⟨hAi1, hLi⟩ := hRdef' 
  have hLdef : σ (ltLessName k i) = (!σ (bitName a i) && σ (bitName b i)) :=
    lt1_sound (sat_flatMap_range hlt i hi)
  rw [hLi] at hLdef
  have hLdef' := hLdef.symm
  rw [Bool.and_eq_true] at hLdef'
  obtain ⟨hna, hb⟩ := hLdef' 
  have hai : σ (bitName a i) = false := by
    cases hx : σ (bitName a i)
    · rfl
    · rw [hx] at hna
      exact Bool.noConfusion hna
  -- the prefix-equality chain pins all higher bits equal
  have chain : ∀ d j, j + d = n → σ (ltAccumName k j) = true →
      ∀ l, j ≤ l → l < n → σ (bitName a l) = σ (bitName b l) := by
    intro d
    induction d with
    | zero =>
      intro j hj _ l hl1 hl2
      omega
    | succ d' ih =>
      intro j hj hA l hl1 hl2
      have hAdef : σ (ltAccumName k j) =
          (σ (ltAccumName k (j + 1)) && σ (ltEqName k j)) :=
        and1_sound (sat_flatMap_range hacc j (by omega))
      rw [hA] at hAdef
      have hAdef' := hAdef.symm
      rw [Bool.and_eq_true] at hAdef'
      obtain ⟨hA1, hEj⟩ := hAdef' 
      rcases Nat.eq_or_lt_of_le hl1 with he | hlt'
      · have hEdef : σ (ltEqName k j) =
            (σ (bitName a j) == σ (bitName b j)) :=
          eq1_sound (sat_flatMap_range heq j (by omega))
        rw [hEj] at hEdef
        rw [← he]
        exact beq_iff_eq.mp hEdef.symm
      · exact ih (j + 1) (by omega) hA1 l (by omega) hl2
  have hwindow : ∀ l, i < l → l < n → σ (bitName a l) = σ (bitName b l) :=
    fun l hl1 hl2 => chain (n - (i + 1)) (i + 1) (by omega) hAi1 l (by omega) hl2
  exact natOfBits_lt_of_window hi hwindow hai hb

/-! Soundness of the multiplier. -/

theorem mulShift_sound {σ : String → Bool} {a bbit res : String} {s n : Nat}
    (hs : s ≤ n) (h : Sat σ (Mul_NBit_1Bit_Shift a bbit res s n)) :
    bitsVal σ res (n * 2) = if σ bbit then 2 ^ s * bitsVal σ a n else 0 := by
  rw [Mul_NBit_1Bit_Shift] at h
  obtain ⟨h, hhigh⟩ := sat_append.mp h
  obtain ⟨hlow, hmid⟩ := sat_append.mp h
  have hlowb : ∀ j < s, σ (bitName res j) = false := by
    intro j hj
    have hcl := sat_map_range hlow j hj
    simp only [clauseVal, List.any_cons, List.any_nil, litVal, nL,
      Bool.cond_false, Bool.or_false] at hcl
    cases hx : σ (bitName res j)
    · rfl
    · rw [hx] at hcl
      exact Bool.noConfusion hcl
  have hmidb : ∀ j < n, σ (bitName res (j + s)) = (σ (bitName a j) && σ bbit) := by
    intro j hj
    have h4 := sat_flatMap_range hmid j hj
    simp only [Sat, cnfVal, clauseVal, litVal, List.all_cons, List.all_nil,
      List.any_cons, List.any_nil, pL, nL, Bool.cond_true, Bool.cond_false,
      Bool.and_eq_true, Bool.or_eq_true] at h4
    cases hx : σ (bitName a j) <;> cases hy : σ bbit <;> simp_all
  have hhighb : ∀ j, s + n ≤ j → j < n * 2 → σ (bitName res j) = false := by
    intro j hj1 hj2
    have hmem : [nL (bitName res j)] ∈
        (List.range' (s + n) (n * 2 - (s + n))).map fun i => [nL (bitName res i)] :=
      List.mem_map.mpr ⟨j, List.mem_range'_1.mpr ⟨hj1, by omega⟩, rfl⟩
    have hcl := sat_of_mem hhigh hmem
    simp only [clauseVal, List.any_cons, List.any_nil, litVal, nL,
      Bool.cond_false, Bool.or_false] at hcl
    cases hx : σ (bitName res j)
    · rfl
    · rw [hx] at hcl
      exact Bool.noConfusion hcl
  cases hbb : σ bbit
  · rw [if_neg (by simp)]
    rw [bitsVal]
    refine natOfBits_eq_zero fun j hj => ?_
    by_cases h1 : j < s
    · exact hlowb j h1
    · by_cases h2 : j < s + n
      · have := hmidb (j - s) (by omega)
        rw [show j - s + s = j by omega] at this
        rw [this, hbb]
        simp
      · exact hhighb j (by omega) hj
  · rw [if_pos rfl]
    rw [bitsVal]
    have hz : natOfBits (fun i => σ (bitName res i)) (n * 2) =
        natOfBits (fun i => σ (bitName res i)) (s + n) :=
      natOfBits_high_zero (by omega) fun j hj1 hj2 => hhighb j hj1 hj2
    rw [hz, natOfBits_split]
    have hlow0 : natOfBits (fun i => σ (bitName res i)) s = 0 :=
      natOfBits_eq_zero fun j hj => hlowb j hj
    rw [hlow0, Nat.zero_add]
    congr 1
    refine natOfBits_congr n fun j hj => ?_
    have := hmidb j hj
    rw [show j + s = s + j by omega] at this
    rw [this, hbb]
    simp

theorem Mul_NBit_sound {σ : String → Bool} {a b r ov : String} {n : Nat}
    {c : Counters} (h : Sat σ (Mul_NBit a b r ov n c).1) :
    bitsVal σ r n = (bitsVal σ a n * bitsVal σ b n) % 2 ^ n ∧
      σ ov = decide (2 ^ n ≤ bitsVal σ a n * bitsVal σ b n) := by
  simp only [Mul_NBit] at h
  obtain ⟨h, hovU⟩ := sat_append.mp h
  obtain ⟨h, hovB⟩ := sat_append.mp h
  obtain ⟨h, hres⟩ := sat_append.mp h
  obtain ⟨h, hadds⟩ := sat_append.mp h
  obtain ⟨hpart, hinit⟩ := sat_append.mp h
  set k := c.mul + 1 with hk
  have haccum : ∀ i ≤ n,
      bitsVal σ (mulAccum2Name k i) (n * 2) = bitsVal σ a n * bitsVal σ b i := by
    intro i
    induction i with
    | zero =>
      intro _
      have hz : ∀ j < n * 2, σ (bitName (mulAccum2Name k 0) j) = false := by
        intro j hj
        have hcl := sat_map_range hinit j hj
        simp only [clauseVal, List.any_cons, List.any_nil, litVal, nL,
          Bool.cond_false, Bool.or_false] at hcl
        cases hx : σ (bitName (mulAccum2Name k 0) j)
        · rfl
        · rw [hx] at hcl
          exact Bool.noConfusion hcl
      rw [bitsVal, natOfBits_eq_zero hz, bitsVal_zero]
      simp [natOfBits]
    | succ m ih =>
      intro hm1
      have hm : m < n := by omega
      have hstep := stateLoop_sat hadds hm
      have hAddS := Add_NBit_sound hstep
      have hp := sat_flatMap_range hpart m hm
      have hPval := mulShift_sound (le_of_lt hm) hp
      have hIH := ih (by omega)
      have hA := bitsVal_lt σ a n
      have hBm1 := natOfBits_lt (fun j => σ (bitName b j)) (m + 1)
      have hpow : (2:Nat) ^ (n * 2) = 2 ^ n * 2 ^ n := by
        rw [← pow_add]
        congr 1
        omega
      have hBsucc : bitsVal σ b (m + 1) =
          bitsVal σ b m + 2 ^ m * (σ (bitName b m)).toNat := bitsVal_succ σ b m
      have hsum : bitsVal σ (mulAccum1Name k m) (n * 2) +
          bitsVal σ (mulAccum2Name k m) (n * 2) =
          bitsVal σ a n * bitsVal σ b (m + 1) := by
        rw [hPval, hIH, hBsucc]
        cases hbm : σ (bitName b m) <;> simp <;> ring
      have hbound : bitsVal σ a n * bitsVal σ b (m + 1) < 2 ^ (n * 2) := by
        have hb2 : bitsVal σ b (m + 1) < 2 ^ n := by
          have : (2:Nat) ^ (m + 1) ≤ 2 ^ n := Nat.pow_le_pow_right (by norm_num) (by omega)
          have := bitsVal_lt σ b (m + 1)
          omega
        calc bitsVal σ a n * bitsVal σ b (m + 1) < 2 ^ n * 2 ^ n := by
              apply Nat.mul_lt_mul_of_lt_of_le hA (le_of_lt hb2)
              exact Nat.pos_pow_of_pos n (by norm_num)
        _ = 2 ^ (n * 2) := hpow.symm
      rw [hAddS.1, hsum, Nat.mod_eq_of_lt hbound]
  have haccN := haccum n (le_refl n)
  have hABlt : bitsVal σ a n * bitsVal σ b n < 2 ^ (n * 2) := by
    rw [← haccN]
    exact bitsVal_lt σ _ _
  have hhighbit : ∀ j < n, σ (bitName (mulAccum2Name k n) (j + n)) =
      (bitsVal σ a n * bitsVal σ b n).testBit (j + n) := by
    intro j hj
    rw [← haccN]
    exact (bitsVal_testBit (by omega)).symm
  constructor
  · have hbits : ∀ i < n, σ (bitName r i) = σ (bitName (mulAccum2Name k n) i) := by
      intro i hi
      exact iff_clauses_sound (sat_flatMap_range hres i hi)
    have : bitsVal σ r n = natOfBits (bitsVal σ a n * bitsVal σ b n).testBit n := by
      rw [bitsVal]
      refine natOfBits_congr n fun i hi => ?_
      rw [hbits i hi, ← haccN]
      exact (bitsVal_testBit (by omega)).symm
    rw [this, natOfBits_of_testBit]
  · cases hov : σ ov
    · have hnone : ∀ j < n, σ (bitName (mulAccum2Name k n) (j + n)) = false := by
        intro j hj
        have hcl := sat_map_range hovU j hj
        simp only [clauseVal, List.any_cons, List.any_nil, litVal, pL, nL,
          Bool.cond_true, Bool.cond_false, hov, Bool.or_false, Bool.false_or] at hcl
        cases hx : σ (bitName (mulAccum2Name k n) (j + n))
        · rfl
        · rw [hx] at hcl
          exact Bool.noConfusion hcl
      have hlt2 : ¬ 2 ^ n ≤ bitsVal σ a n * bitsVal σ b n := by
        intro hge
        obtain ⟨j, hj, hbit⟩ := (high_bit_iff hABlt).mpr hge
        rw [← hhighbit j hj] at hbit
        rw [hnone j hj] at hbit
        exact Bool.noConfusion hbit
      simp [hlt2]
    · rw [sat_cons] at hovB
      have hbig := hovB.1
      simp only [clauseVal, List.any_cons, litVal, nL, Bool.cond_false, hov,
        Bool.not_true, Bool.false_or, List.any_eq_true] at hbig
      obtain ⟨l, hl, hval⟩ := hbig
      obtain ⟨j, hjmem, rfl⟩ := List.mem_map.mp hl
      rw [List.mem_range] at hjmem
      have hbit : σ (bitName (mulAccum2Name k n) (j + n)) = true := by
        simpa [litVal, pL] using hval
      rw [hhighbit j hjmem] at hbit
      have hge : 2 ^ n ≤ bitsVal σ a n * bitsVal σ b n :=
        (high_bit_iff hABlt).mp ⟨j, hjmem, hbit⟩
      simp [hge]

theorem DivMod_NBit_sound {σ : String → Bool} {a b d m : String} {n : Nat}
    {c : Counters} (h : Sat σ (DivMod_NBit a b d m n c).1) :
    0 < bitsVal σ b n ∧
      bitsVal σ d n = bitsVal σ a n / bitsVal σ b n ∧
      bitsVal σ m n = bitsVal σ a n % bitsVal σ b n := by
  simp only [DivMod_NBit] at h
  obtain ⟨h, hlt⟩ := sat_append.mp h
  obtain ⟨h, haddov⟩ := sat_append.mp h
  obtain ⟨h, hmulov⟩ := sat_append.mp h
  obtain ⟨hmul, hadd⟩ := sat_append.mp h
  set k := c.divmod + 1 with hk
  have hM := Mul_NBit_sound hmul
  have hA := Add_NBit_sound hadd
  have hMlt : bitsVal σ m n < bitsVal σ b n := LessThan_NBit_sound hlt
  have hBpos : 0 < bitsVal σ b n := by omega
  have hmulov0 : σ (dmMulOvName k) = false := unit_neg_sound hmulov
  have haddov0 : σ (dmAddOvName k) = false := unit_neg_sound haddov
  have hBD : bitsVal σ b n * bitsVal σ d n < 2 ^ n := by
    rw [hmulov0] at hM
    have := hM.2.symm
    rw [decide_eq_false_iff_not] at this
    omega
  have haccum : bitsVal σ (dmAccumName k) n = bitsVal σ b n * bitsVal σ d n := by
    rw [hM.1, Nat.mod_eq_of_lt hBD]
  have hsumlt : bitsVal σ (dmAccumName k) n + bitsVal σ m n < 2 ^ n := by
    rw [haddov0] at hA
    have hdiv := hA.2.symm
    simp only [Bool.toNat_false] at hdiv
    have hpos : 0 < (2:Nat) ^ n := Nat.pos_pow_of_pos n (by norm_num)
    have := (Nat.div_eq_zero_iff hpos).mp hdiv
    omega
  have hAval : bitsVal σ a n =
      bitsVal σ m n + bitsVal σ d n * bitsVal σ b n := by
    rw [hA.1, Nat.mod_eq_of_lt hsumlt, haccum]
    ring
  refine ⟨hBpos, ?_, ?_⟩
  · rw [hAval, Nat.add_mul_div_right _ _ hBpos, Nat.div_eq_of_lt hMlt, Nat.zero_add]
  · rw [hAval, Nat.add_mul_mod_self_right, Nat.mod_eq_of_lt hMlt]

/-- Bit-split of a remainder: `v % 2^(i+1)` adds bit `i` on top of `v % 2^i`. -/
theorem mod_pow_succ_testBit (v i : Nat) :
    v % 2 ^ (i + 1) = v % 2 ^ i + 2 ^ i * (v.testBit i).toNat := by
  rw [← natOfBits_of_testBit v (i + 1), ← natOfBits_of_testBit v i]
  rfl

theorem Pow_NBit_sound {σ : String → Bool} {a b r ov : String} {n : Nat}
    {c : Counters} (h : Sat σ (Pow_NBit a b r ov n c).1)
    (hOne : Sat σ (Input_Equals_Number (oneName n) 1 n))
    (hZero : σ zeroName = false) (hn : 1 ≤ n) (hov : σ ov = false) :
    bitsVal σ r n = bitsVal σ a n ^ bitsVal σ b n ∧
      bitsVal σ a n ^ bitsVal σ b n < 2 ^ n := by
  simp only [Pow_NBit] at h
  obtain ⟨h, hfinalOr⟩ := sat_append.mp h
  obtain ⟨h, hor2⟩ := sat_append.mp h
  obtain ⟨h, hor1⟩ := sat_append.mp h
  obtain ⟨h, hovMux⟩ := sat_append.mp h
  obtain ⟨h, hovOrs⟩ := sat_append.mp h
  obtain ⟨h, hovInit⟩ := sat_append.mp h
  obtain ⟨h, hresEq⟩ := sat_append.mp h
  obtain ⟨h, haccMuls⟩ := sat_append.mp h
  obtain ⟨h, hinit⟩ := sat_append.mp h
  obtain ⟨h, hmuxes⟩ := sat_append.mp h
  obtain ⟨heq0, hsquares⟩ := sat_append.mp h
  set k := c.pow + 1 with hk
  have h2n : (1:Nat) < 2 ^ n := by
    have : (2:Nat) ^ 1 ≤ 2 ^ n := Nat.pow_le_pow_right (by norm_num) hn
    omega
  have hOneV : bitsVal σ (oneName n) n = 1 := pin_val hOne h2n
  have hfin : σ ov = (σ (powAccOvOrName k) || σ (powOvTempOrName k)) :=
    or1_sound hfinalOr
  rw [hov] at hfin
  have hfin' := hfin.symm
  rw [Bool.or_eq_false_iff] at hfin'
  obtain ⟨hAccOr0, hTempOr0⟩ := hfin'
  have haccov0 : ∀ i < n, σ (bitName (powAccOvBase k) i) = false := by
    intro i hi
    cases hx : σ (bitName (powAccOvBase k) i)
    · rfl
    · have := (orN1_sound hor1).mpr ⟨i, hi, hx⟩
      rw [hAccOr0] at this
      exact Bool.noConfusion this
  have hovtemp0 : ∀ i < n, σ (bitName (powOvTempBase k) i) = false := by
    intro i hi
    cases hx : σ (bitName (powOvTempBase k) i)
    · rfl
    · have := (orN1_sound hor2).mpr ⟨i, hi, hx⟩
      rw [hTempOr0] at this
      exact Bool.noConfusion this
  -- exact accumulator products
  have haccStep : ∀ i < n,
      bitsVal σ (powAccumName k (i + 1)) n =
        (bitsVal σ (powT2Name k i) n * bitsVal σ (powAccumName k i) n) % 2 ^ n ∧
      σ (bitName (powAccOvBase k) i) =
        decide (2 ^ n ≤ bitsVal σ (powT2Name k i) n * bitsVal σ (powAccumName k i) n) :=
    fun i hi => Mul_NBit_sound (stateLoop_sat haccMuls hi)
  have haccExact : ∀ i < n,
      bitsVal σ (powAccumName k (i + 1)) n =
        bitsVal σ (powT2Name k i) n * bitsVal σ (powAccumName k i) n := by
    intro i hi
    have hd := (haccStep i hi).2
    rw [haccov0 i hi] at hd
    have := hd.symm
    rw [decide_eq_false_iff_not] at this
    rw [(haccStep i hi).1, Nat.mod_eq_of_lt (by omega)]
  -- squaring chain
  have hsqStep : ∀ i < n,
      bitsVal σ (powT1Name k (i + 1)) n =
        (bitsVal σ (powT1Name k i) n * bitsVal σ (powT1Name k i) n) % 2 ^ n ∧
      σ (powT1OvName k i) =
        decide (2 ^ n ≤ bitsVal σ (powT1Name k i) n * bitsVal σ (powT1Name k i) n) :=
    fun i hi => Mul_NBit_sound (stateLoop_sat hsquares hi)
  -- overflow accumulation chain
  have hOA0 : σ (powOvAccumName k 0) = false := unit_neg_sound hovInit
  have hOAor : ∀ i < n, σ (powOvAccumName k (i + 1)) =
      (σ (powOvAccumName k i) || σ (powT1OvName k i)) :=
    fun i hi => or1_sound (sat_flatMap_range hovOrs i hi)
  have hOAchar : ∀ j ≤ n, σ (powOvAccumName k j) = false →
      ∀ l < j, σ (powT1OvName k l) = false := by
    intro j
    induction j with
    | zero =>
      intro _ _ l hl
      omega
    | succ j' ih =>
      intro hj hOA l hl
      have horj := hOAor j' (by omega)
      rw [hOA] at horj
      have horj' := horj.symm
      rw [Bool.or_eq_false_iff] at horj'
      rcases Nat.lt_succ_iff_lt_or_eq.mp hl with h' | h'
      · exact ih (by omega) horj'.1 l h'
      · subst h'
        exact horj'.2
  -- masking: a set exponent bit above i forces no squaring overflow below
  have hmask : ∀ i < n, σ (bitName b (i + 1)) = true →
      σ (powOvAccumName k (i + 1)) = false := by
    intro i hi hbit
    have hm := if1_sound (sat_flatMap_range hovMux i hi)
    rw [hbit, if_pos rfl] at hm
    rw [← hm]
    exact hovtemp0 i hi
  -- Temp1 exactness where the exponent bit is set
  have hT10 : bitsVal σ (powT1Name k 0) n = bitsVal σ a n := equalsN_sound heq0
  have hT1 : ∀ i < n, σ (bitName b i) = true →
      bitsVal σ (powT1Name k i) n = bitsVal σ a n ^ 2 ^ i := by
    intro i hi hbit
    cases i with
    | zero =>
      rw [hT10]
      norm_num
    | succ i' =>
      have hOAi : σ (powOvAccumName k (i' + 1)) = false := hmask i' (by omega) hbit
      have hT1O : ∀ l < i' + 1, σ (powT1OvName k l) = false :=
        hOAchar (i' + 1) (by omega) hOAi
      have hexact : ∀ j ≤ i' + 1, bitsVal σ (powT1Name k j) n = bitsVal σ a n ^ 2 ^ j := by
        intro j
        induction j with
        | zero =>
          intro _
          rw [hT10]
          norm_num
        | succ j' ihj =>
          intro hj
          have hsq := hsqStep j' (by omega)
          have hT1Oj := hT1O j' (by omega)
          rw [hT1Oj] at hsq
          have hlt2 := hsq.2.symm
          rw [decide_eq_false_iff_not] at hlt2
          rw [hsq.1, Nat.mod_eq_of_lt (by omega), ihj (by omega)]
          rw [← pow_add]
          congr 1
          omega
      exact hexact (i' + 1) (le_refl _)
  -- Temp2 mux values
  have hT2 : ∀ i < n, bitsVal σ (powT2Name k i) n =
      (if σ (bitName b i) then bitsVal σ (powT1Name k i) n else 1) := by
    intro i hi
    have := ifN_sound (sat_flatMap_range hmuxes i hi)
    rw [this, hOneV]
  -- accumulator carries the running power
  have hPA0 : bitsVal σ (powAccumName k 0) n = 1 := pin_val hinit h2n
  have hPA : ∀ i ≤ n, bitsVal σ (powAccumName k i) n =
      bitsVal σ a n ^ (bitsVal σ b n % 2 ^ i) := by
    intro i
    induction i with
    | zero =>
      intro _
      rw [hPA0]
      simp [Nat.mod_one]
    | succ i' ih =>
      intro hi
      have hi' : i' < n := by omega
      rw [haccExact i' hi', hT2 i' hi', ih (by omega)]
      have hbiteq : (bitsVal σ b n).testBit i' = σ (bitName b i') :=
        bitsVal_testBit hi'
      rw [mod_pow_succ_testBit]
      cases hbit : σ (bitName b i')
      · rw [if_neg (by simp), hbiteq, hbit]
        simp
      · rw [if_pos rfl, hT1 i' hi' hbit, hbiteq, hbit]
        rw [← pow_add]
        simp only [Bool.toNat_true, mul_one]
        ring
  have hrval : bitsVal σ r n = bitsVal σ (powAccumName k n) n := equalsN_sound hresEq
  have hEmod : bitsVal σ b n % 2 ^ n = bitsVal σ b n :=
    Nat.mod_eq_of_lt (bitsVal_lt σ b n)
  constructor
  · rw [hrval, hPA n (le_refl n), hEmod]
  · rw [← hEmod, ← hPA n (le_refl n)]
    exact bitsVal_lt σ _ _

/-- The low `n` bits carry the whole value when the `N`-bit value is `< 2^n`. -/
theorem bitsVal_low_of_lt {σ : String → Bool} {x : String} {n N : Nat}
    (hnN : n ≤ N) (h : bitsVal σ x N < 2 ^ n) :
    bitsVal σ x n = bitsVal σ x N := by
  simp only [bitsVal] at h ⊢
  have hfull := natOfBits_split (fun i => σ (bitName x i)) n (N - n)
  rw [show n + (N - n) = N by omega] at hfull
  have hr : natOfBits (fun j => σ (bitName x (n + j))) (N - n) = 0 := by
    rcases Nat.eq_zero_or_pos (natOfBits (fun j => σ (bitName x (n + j))) (N - n))
      with h0 | h0
    · exact h0
    · exfalso
      have := Nat.le_mul_of_pos_right (2 ^ n) h0
      omega
  rw [hr, Nat.mul_zero, Nat.add_zero] at hfull
  omega

/-- `DoubleSize_Assign` zero-extends: the `2n`-bit result equals the `n`-bit
input, bit for bit on the low half. -/
theorem doubleSize_sound {σ : String → Bool} {a r : String} {n : Nat}
    (h : Sat σ (DoubleSize_Assign a r n)) :
    bitsVal σ r (n * 2) = bitsVal σ a n ∧
      ∀ i < n, σ (bitName r i) = σ (bitName a i) := by
  rw [DoubleSize_Assign] at h
  obtain ⟨heq, hhi⟩ := sat_append.mp h
  have hbits := equalsN_sound_bits heq
  have hz : ∀ j, n ≤ j → j < n * 2 → σ (bitName r j) = false := by
    intro j hj1 hj2
    have hm : [nL (bitName r j)] ∈ (List.range' n n).map fun i => [nL (bitName r i)] :=
      List.mem_map.mpr ⟨j, List.mem_range'_1.mpr ⟨hj1, by omega⟩, rfl⟩
    have hcl := sat_of_mem hhi hm
    simp only [clauseVal, List.any_cons, List.any_nil, litVal, nL,
      Bool.cond_false, Bool.or_false, Bool.not_eq_true'] at hcl
    exact hcl
  constructor
  · have h1 : bitsVal σ r (n * 2) = bitsVal σ r n :=
      natOfBits_high_zero (by omega) hz
    rw [h1]
    exact (natOfBits_congr n hbits).symm
  · exact fun i hi => (hbits i hi).symm

/-- `Sum_NBit` soundness: with the overflow wire false, the output is the exact
sum of the `data_count` inputs. -/
theorem Sum_NBit_sound {σ : String → Bool} {input output overflow : String}
    {dc bits : Nat} {c : Counters}
    (h : Sat σ (Sum_NBit input output overflow dc bits c).1)
    (hov : σ overflow = false) :
    bitsVal σ output bits =
      ∑ i ∈ Finset.range dc, bitsVal σ (bitName input i) bits := by
  simp only [Sum_NBit] at h
  obtain ⟨h, horN⟩ := sat_append.mp h
  obtain ⟨h, hres⟩ := sat_append.mp h
  obtain ⟨hinit, hadds⟩ := sat_append.mp h
  set k := c.sum + 1 with hk
  have hA0 : bitsVal σ (sumAccumName k 0) bits = 0 :=
    pin_val hinit (by positivity)
  have hovbits : ∀ i < dc, σ (bitName (sumOvBase k) i) = false := by
    intro i hi
    cases hx : σ (bitName (sumOvBase k) i)
    · rfl
    · have := (orN1_sound horN).mpr ⟨i, hi, hx⟩
      rw [hov] at this
      exact Bool.noConfusion this
  have hstep : ∀ i < dc,
      bitsVal σ (sumAccumName k (i + 1)) bits =
        bitsVal σ (bitName input i) bits + bitsVal σ (sumAccumName k i) bits := by
    intro i hi
    have hs := Add_NBit_sound (stateLoop_sat hadds hi)
    have hq := hs.2
    rw [hovbits i hi] at hq
    simp only [Bool.toNat_false] at hq
    have hlt := (Nat.div_eq_zero_iff (by positivity)).mp hq.symm
    rw [hs.1, Nat.mod_eq_of_lt hlt]
  have hacc : ∀ i ≤ dc, bitsVal σ (sumAccumName k i) bits =
      ∑ j ∈ Finset.range i, bitsVal σ (bitName input j) bits := by
    intro i
    induction i with
    | zero =>
      intro _
      simpa using hA0
    | succ i' ih =>
      intro hi
      rw [hstep i' (by omega), ih (by omega), Finset.sum_range_succ]
      omega
  rw [equalsN_sound hres, hacc dc (le_refl _)]

/-- `Product_NBit` soundness: with the overflow wire false, the output is the
exact product of the `data_count` inputs. -/
theorem Product_NBit_sound {σ : String → Bool} {input output overflow : String}
    {dc bits : Nat} {c : Counters}
    (h : Sat σ (Product_NBit input output overflow dc bits c).1)
    (hov : σ overflow = false) (hb : 1 ≤ bits) :
    bitsVal σ output bits =
      ∏ i ∈ Finset.range dc, bitsVal σ (bitName input i) bits := by
  simp only [Product_NBit] at h
  obtain ⟨h, horN⟩ := sat_append.mp h
  obtain ⟨h, hres⟩ := sat_append.mp h
  obtain ⟨hinit, hmuls⟩ := sat_append.mp h
  set k := c.prod + 1 with hk
  have h2b : (1:Nat) < 2 ^ bits := by
    have : (2:Nat) ^ 1 ≤ 2 ^ bits := Nat.pow_le_pow_right (by norm_num) hb
    omega
  have hA0 : bitsVal σ (prodAccumName k 0) bits = 1 := pin_val hinit h2b
  have hovbits : ∀ i < dc, σ (bitName (prodOvBase k) i) = false := by
    intro i hi
    cases hx : σ (bitName (prodOvBase k) i)
    · rfl
    · have := (orN1_sound horN).mpr ⟨i, hi, hx⟩
      rw [hov] at this
      exact Bool.noConfusion this
  have hstep : ∀ i < dc,
      bitsVal σ (prodAccumName k (i + 1)) bits =
        bitsVal σ (bitName input i) bits * bitsVal σ (prodAccumName k i) bits := by
    intro i hi
    have hs := Mul_NBit_sound (stateLoop_sat hmuls hi)
    have hq := hs.2
    rw [hovbits i hi] at hq
    have hlt := decide_eq_false_iff_not.mp hq.symm
    rw [hs.1, Nat.mod_eq_of_lt (by omega)]
  have hacc : ∀ i ≤ dc, bitsVal σ (prodAccumName k i) bits =
      ∏ j ∈ Finset.range i, bitsVal σ (bitName input j) bits := by
    intro i
    induction i with
    | zero =>
      intro _
      simpa using hA0
    | succ i' ih =>
      intro hi
      rw [hstep i' (by omega), ih (by omega), Finset.prod_range_succ]
      ring
  rw [equalsN_sound hres, hacc dc (le_refl _)]

/-- `PowMod_NBit` soundness: any satisfying assignment (with the width-`2n`
one-constant pinned) has a nonzero modulus and computes
`base ^ exp % mod` in `result`. -/
theorem PowMod_NBit_sound {σ : String → Bool} {base exp mod result : String}
    {n : Nat} {c : Counters}
    (h : Sat σ (PowMod_NBit base exp mod result n c).1)
    (hOne : Sat σ (Input_Equals_Number (oneName (n * 2)) 1 (n * 2)))
    (hn : 1 ≤ n) :
    0 < bitsVal σ mod n ∧
      bitsVal σ result n =
        bitsVal σ base n ^ bitsVal σ exp n % bitsVal σ mod n := by
  simp only [PowMod_NBit] at h
  obtain ⟨h, hresEq⟩ := sat_append.mp h
  obtain ⟨h, hloop⟩ := sat_append.mp h
  obtain ⟨h, hcur0⟩ := sat_append.mp h
  obtain ⟨h, hpart0⟩ := sat_append.mp h
  obtain ⟨h, hDSmod⟩ := sat_append.mp h
  obtain ⟨hDSbase, hDSexp⟩ := sat_append.mp h
  set k := c.powmod + 1 with hk
  set B := bitsVal σ base n with hB
  set E := bitsVal σ exp n with hE
  set M := bitsVal σ mod n with hM
  have h2n : (1:Nat) < 2 ^ n := by
    have : (2:Nat) ^ 1 ≤ 2 ^ n := Nat.pow_le_pow_right (by norm_num) hn
    omega
  have h22n : (1:Nat) < 2 ^ (n * 2) := by
    have : (2:Nat) ^ 1 ≤ 2 ^ (n * 2) := Nat.pow_le_pow_right (by norm_num) (by omega)
    omega
  have hpow2 : (2:Nat) ^ (n * 2) = 2 ^ n * 2 ^ n := by
    rw [show n * 2 = n + n by omega, pow_add]
  have hOneV : bitsVal σ (oneName (n * 2)) (n * 2) = 1 := pin_val hOne h22n
  have hMval : bitsVal σ (pmModName k) (n * 2) = M := (doubleSize_sound hDSmod).1
  have hBval : bitsVal σ (pmBaseName k) (n * 2) = B := (doubleSize_sound hDSbase).1
  have hEbits : ∀ i < n, σ (bitName (pmExpName k) i) = σ (bitName exp i) :=
    (doubleSize_sound hDSexp).2
  have hMlt : M < 2 ^ n := bitsVal_lt σ mod n
  -- peel one loop body
  have hbody : ∀ i < n,
      Sat σ (If_Cond_A_Else_B_NBit (pmCurName k i) (oneName (n * 2))
        (bitName (pmExpName k) i) (pmBitFactorName k i) (n * 2)) ∧
      Sat σ (Mul_NBit (pmPartialName k i) (pmBitFactorName k i)
        (pmMultipledName k i) (pmMultipledOvName k i) (n * 2)
        ((pmLoop k n i { c with powmod := k }).2)).1 ∧
      (∃ c1, Sat σ (DivMod_NBit (pmMultipledName k i) (pmModName k)
        (pmDiv1Name k i) (pmPartialName k (i + 1)) (n * 2) c1).1) ∧
      (∃ c2, Sat σ (Mul_NBit (pmCurName k i) (pmCurName k i) (pmSquareName k i)
        (pmSquareOvName k i) (n * 2) c2).1) ∧
      (∃ c3, Sat σ (DivMod_NBit (pmSquareName k i) (pmModName k)
        (pmDiv2Name k i) (pmCurName k (i + 1)) (n * 2) c3).1) := by
    intro i hi
    have hb := stateLoop_sat hloop hi
    simp only at hb
    obtain ⟨hb, hdm2⟩ := sat_append.mp hb
    obtain ⟨hb, hmul2⟩ := sat_append.mp hb
    obtain ⟨hb, hdm1⟩ := sat_append.mp hb
    obtain ⟨hmux, hmul1⟩ := sat_append.mp hb
    exact ⟨hmux, hmul1, ⟨_, hdm1⟩, ⟨_, hmul2⟩, ⟨_, hdm2⟩⟩
  -- the modulus is nonzero (first division forces it)
  obtain ⟨_, _, ⟨c1, hdm0⟩, _, _⟩ := hbody 0 (by omega)
  have hMpos : 0 < M := by
    have := (DivMod_NBit_sound hdm0).1
    rw [hMval] at this
    exact this
  -- main invariant over the loop
  have hInv : ∀ i ≤ n,
      (bitsVal σ (pmPartialName k i) (n * 2) % M = B ^ (E % 2 ^ i) % M ∧
        bitsVal σ (pmPartialName k i) (n * 2) < 2 ^ n) ∧
      (bitsVal σ (pmCurName k i) (n * 2) % M = B ^ 2 ^ i % M ∧
        bitsVal σ (pmCurName k i) (n * 2) < 2 ^ n) := by
    intro i
    induction i with
    | zero =>
      intro _
      have hp0 : bitsVal σ (pmPartialName k 0) (n * 2) = 1 := pin_val hpart0 h22n
      have hc0 : bitsVal σ (pmCurName k 0) (n * 2) = B := by
        rw [equalsN_sound hcur0, hBval]
      refine ⟨⟨?_, ?_⟩, ?_, ?_⟩
      · rw [hp0]
        simp [Nat.mod_one]
      · rw [hp0]
        omega
      · rw [hc0]
        norm_num
      · rw [hc0, hB]
        exact bitsVal_lt σ base n
    | succ i' ih =>
      intro hi
      have hi' : i' < n := by omega
      obtain ⟨⟨hpmod, hplt⟩, hcmod, hclt⟩ := ih (by omega)
      obtain ⟨hmux, hmul1, ⟨c1', hdm1⟩, ⟨c2', hmul2⟩, ⟨c3', hdm2⟩⟩ := hbody i' hi'
      -- bit factor value
      have hbf : bitsVal σ (pmBitFactorName k i') (n * 2) =
          (if σ (bitName exp i') then bitsVal σ (pmCurName k i') (n * 2) else 1) := by
        rw [ifN_sound hmux, hOneV, hEbits i' hi']
      have hbflt : bitsVal σ (pmBitFactorName k i') (n * 2) < 2 ^ n := by
        rw [hbf]
        cases hx : σ (bitName exp i')
        · rw [if_neg (by simp)]
          omega
        · rw [if_pos rfl]
          exact hclt
      -- first multiply is exact
      have hm1 := Mul_NBit_sound hmul1
      have hm1exact : bitsVal σ (pmMultipledName k i') (n * 2) =
          bitsVal σ (pmPartialName k i') (n * 2) *
            bitsVal σ (pmBitFactorName k i') (n * 2) := by
        rw [hm1.1, Nat.mod_eq_of_lt]
        calc bitsVal σ (pmPartialName k i') (n * 2) *
              bitsVal σ (pmBitFactorName k i') (n * 2)
            < 2 ^ n * 2 ^ n :=
              mul_lt_mul' (le_of_lt hplt) hbflt (Nat.zero_le _) (by positivity)
          _ = 2 ^ (n * 2) := hpow2.symm
      -- first division: new partial
      have hd1 := DivMod_NBit_sound hdm1
      have hpnew : bitsVal σ (pmPartialName k (i' + 1)) (n * 2) =
          bitsVal σ (pmMultipledName k i') (n * 2) % M := by
        rw [hd1.2.2, hMval]
      have hpnewlt : bitsVal σ (pmPartialName k (i' + 1)) (n * 2) < 2 ^ n := by
        rw [hpnew]
        exact lt_trans (Nat.mod_lt _ hMpos) hMlt
      -- second multiply (square) is exact
      have hm2 := Mul_NBit_sound hmul2
      have hm2exact : bitsVal σ (pmSquareName k i') (n * 2) =
          bitsVal σ (pmCurName k i') (n * 2) *
            bitsVal σ (pmCurName k i') (n * 2) := by
        rw [hm2.1, Nat.mod_eq_of_lt]
        calc bitsVal σ (pmCurName k i') (n * 2) *
              bitsVal σ (pmCurName k i') (n * 2)
            < 2 ^ n * 2 ^ n :=
              mul_lt_mul' (le_of_lt hclt) hclt (Nat.zero_le _) (by positivity)
          _ = 2 ^ (n * 2) := hpow2.symm
      -- second division: new cur
      have hd2 := DivMod_NBit_sound hdm2
      have hcnew : bitsVal σ (pmCurName k (i' + 1)) (n * 2) =
          bitsVal σ (pmSquareName k i') (n * 2) % M := by
        rw [hd2.2.2, hMval]
      have hcnewlt : bitsVal σ (pmCurName k (i' + 1)) (n * 2) < 2 ^ n := by
        rw [hcnew]
        exact lt_trans (Nat.mod_lt _ hMpos) hMlt
      have hbiteq : E.testBit i' = σ (bitName exp i') := bitsVal_testBit hi'
      refine ⟨⟨?_, hpnewlt⟩, ?_, hcnewlt⟩
      · rw [hpnew, hm1exact, Nat.mod_mod_of_dvd _ (dvd_refl M)]
        rw [Nat.mul_mod, hpmod, hbf, mod_pow_succ_testBit, hbiteq]
        cases hx : σ (bitName exp i')
        · rw [if_neg (by simp)]
          simp [← Nat.mul_mod, pow_add]
        · rw [if_pos rfl, hcmod]
          rw [← Nat.mul_mod, ← pow_add]
          simp only [Bool.toNat_true, mul_one]
        -- exponent arithmetic handled by pow_add rewriting above
      · rw [hcnew, hm2exact, Nat.mod_mod_of_dvd _ (dvd_refl M)]
        rw [Nat.mul_mod, hcmod, ← Nat.mul_mod, ← pow_add]
        congr 2
        omega
  -- conclude
  obtain ⟨⟨hpn, hpnlt⟩, _⟩ := hInv n (le_refl n)
  -- the final partial is already reduced below M
  have hlast : bitsVal σ (pmPartialName k n) (n * 2) < M := by
    obtain ⟨_, _, ⟨c1', hdm1⟩, _, _⟩ := hbody (n - 1) (by omega)
    have hd1 := DivMod_NBit_sound hdm1
    have := hd1.2.2
    rw [hMval, show n - 1 + 1 = n by omega] at this
    rw [this]
    exact Nat.mod_lt _ hMpos
  have hEmod : E % 2 ^ n = E := Nat.mod_eq_of_lt (bitsVal_lt σ exp n)
  have hres : bitsVal σ result n = bitsVal σ (pmPartialName k n) (n * 2) := by
    rw [equalsN_sound hresEq]
    exact bitsVal_low_of_lt (by omega) hpnlt
  refine ⟨hMpos, ?_⟩
  rw [hres, ← Nat.mod_eq_of_lt hlast, hpn, hEmod]

/-- `FermatTest` soundness: generator at least 2, modulus nonzero, and
`generator ^ pow % mod = 1`. -/
theorem FermatTest_sound {σ : String → Bool} {generator pow mod : String}
    {n : Nat} {c : Counters} (h : Sat σ (FermatTest generator pow mod n c).1)
    (hOne : Sat σ (Input_Equals_Number (oneName (n * 2)) 1 (n * 2)))
    (hn : 1 ≤ n) :
    2 ≤ bitsVal σ generator n ∧ 0 < bitsVal σ mod n ∧
      bitsVal σ generator n ^ bitsVal σ pow n % bitsVal σ mod n = 1 := by
  simp only [FermatTest] at h
  obtain ⟨h, hres1⟩ := sat_append.mp h
  obtain ⟨h, hpm⟩ := sat_append.mp h
  obtain ⟨hne0, hne1⟩ := sat_append.mp h
  have h2n : (1:Nat) < 2 ^ n := by
    have : (2:Nat) ^ 1 ≤ 2 ^ n := Nat.pow_le_pow_right (by norm_num) hn
    omega
  have hg0 := notEquals_sound hne0 (by omega)
  have hg1 := notEquals_sound hne1 h2n
  have hpms := PowMod_NBit_sound hpm hOne hn
  have hresv : bitsVal σ (ftResName (c.fermat + 1)) n = 1 := pin_val hres1 h2n
  refine ⟨by omega, hpms.1, ?_⟩
  rw [← hpms.2, hresv]

/-- `FermatTest2` soundness: `prime` is positive and some generator `≥ 2`
satisfies `g ^ (prime - 1) % prime = 1`. -/
theorem FermatTest2_sound {σ : String → Bool} {generator prime : String}
    {n : Nat} {c : Counters} (h : Sat σ (FermatTest2 generator prime n c).1)
    (hOne2 : Sat σ (Input_Equals_Number (oneName (n * 2)) 1 (n * 2)))
    (hOne1 : Sat σ (Input_Equals_Number (oneName n) 1 n))
    (hn : 1 ≤ n) :
    2 ≤ bitsVal σ generator n ∧ 0 < bitsVal σ prime n ∧
      bitsVal σ generator n ^ (bitsVal σ prime n - 1) % bitsVal σ prime n = 1 := by
  simp only [FermatTest2] at h
  obtain ⟨h, hft⟩ := sat_append.mp h
  obtain ⟨hadd, hovpin⟩ := sat_append.mp h
  have h2n : (1:Nat) < 2 ^ n := by
    have : (2:Nat) ^ 1 ≤ 2 ^ n := Nat.pow_le_pow_right (by norm_num) hn
    omega
  set k := c.fermat2 + 1 with hk
  have hadds := Add_NBit_sound hadd
  have hov0 : σ (ft2OvName k) = false := unit_neg_sound hovpin
  have hq := hadds.2
  rw [hov0] at hq
  simp only [Bool.toNat_false] at hq
  have hOneV : bitsVal σ (oneName n) n = 1 := pin_val hOne1 h2n
  have hsumlt := (Nat.div_eq_zero_iff (by positivity)).mp hq.symm
  have hprval : bitsVal σ prime n = bitsVal σ (ft2PM1Name k) n + 1 := by
    rw [hadds.1, hOneV] at *
    rw [Nat.mod_eq_of_lt]
    rw [hOneV] at hsumlt
    exact hsumlt
  have hfts := FermatTest_sound hft hOne2 hn
  refine ⟨hfts.1, by omega, ?_⟩
  have : bitsVal σ (ft2PM1Name k) n = bitsVal σ prime n - 1 := by omega
  rw [← this]
  exact hfts.2.2

/-- `FermatTest3` soundness: generator at least 2, modulus nonzero, and
`generator ^ pow % mod ≠ 1`. -/
theorem FermatTest3_sound {σ : String → Bool} {generator pow mod : String}
    {n : Nat} {c : Counters} (h : Sat σ (FermatTest3 generator pow mod n c).1)
    (hOne : Sat σ (Input_Equals_Number (oneName (n * 2)) 1 (n * 2)))
    (hn : 1 ≤ n) :
    2 ≤ bitsVal σ generator n ∧ 0 < bitsVal σ mod n ∧
      bitsVal σ generator n ^ bitsVal σ pow n % bitsVal σ mod n ≠ 1 := by
  simp only [FermatTest3] at h
  obtain ⟨h, hres1⟩ := sat_append.mp h
  obtain ⟨h, hpm⟩ := sat_append.mp h
  obtain ⟨hne0, hne1⟩ := sat_append.mp h
  have h2n : (1:Nat) < 2 ^ n := by
    have : (2:Nat) ^ 1 ≤ 2 ^ n := Nat.pow_le_pow_right (by norm_num) hn
    omega
  have hg0 := notEquals_sound hne0 (by omega)
  have hg1 := notEquals_sound hne1 h2n
  have hpms := PowMod_NBit_sound hpm hOne hn
  have hresv : bitsVal σ (ft3ResName (c.fermat3 + 1)) n ≠ 1 :=
    notEquals_sound hres1 h2n
  refine ⟨by omega, hpms.1, ?_⟩
  rw [← hpms.2]
  exact hresv

set_option maxHeartbeats 1000000 in
/-- C4: Modular-exponentiation correctness.  For every `n` and all
`b, e, m < 2^n` with `m ≥ 2`, every satisfying assignment of the clause list
of `PowMod_NBit("b","e","m","r",n)` in which the bits of `b, e, m` are pinned
to their integer values and the well-known constants `One_NBit_<2n> = 1` and
`Zero_1Bit_<1> = false` are asserted has `r = b ^ e mod m`. -/
theorem C4_powmod_correct {σ : String → Bool} {n b e m : Nat} {c : Counters}
    (hb : b < 2 ^ n) (he : e < 2 ^ n) (hm : 2 ≤ m) (hmn : m < 2 ^ n)
    (h : Sat σ ((PowMod_NBit "b" "e" "m" "r" n c).1 ++
      Input_Equals_Number "b" b n ++ Input_Equals_Number "e" e n ++
      Input_Equals_Number "m" m n ++
      Input_Equals_Number (oneName (n * 2)) 1 (n * 2) ++ [[nL zeroName]])) :
    bitsVal σ "r" n = b ^ e % m := by
  obtain ⟨h, hz⟩ := sat_append.mp h
  obtain ⟨h, hOne⟩ := sat_append.mp h
  obtain ⟨h, hpinm⟩ := sat_append.mp h
  obtain ⟨h, hpine⟩ := sat_append.mp h
  obtain ⟨hpm, hpinb⟩ := sat_append.mp h
  have hn : 1 ≤ n := by
    rcases Nat.eq_zero_or_pos n with h0 | h0
    · subst h0
      simp at hmn
      omega
    · exact h0
  have hs := PowMod_NBit_sound hpm hOne hn
  rw [pin_val hpinb hb, pin_val hpine he, pin_val hpinm (by omega)] at hs
  exact hs.2

/-! ### Completeness layer: building satisfying assignments.

For each generator we prove the converse of the soundness lemma: whenever
every wire carries the value the circuit computes, the clause list is
satisfied. -/

theorem carryOut_complete {σ : String → Bool} {a b ci co : String}
    (h : σ co = maj3 (σ a) (σ b) (σ ci)) :
    Sat σ (CarryOut_Equal_POPCNT_GREATER_THAN_2 a b ci co) := by
  simp only [CarryOut_Equal_POPCNT_GREATER_THAN_2, Sat, cnfVal, clauseVal,
    litVal, List.all_cons, List.all_nil, List.any_cons, List.any_nil, pL, nL,
    Bool.cond_true, Bool.cond_false, Bool.and_eq_true, Bool.or_eq_true]
  cases hx : σ a <;> cases hy : σ b <;> cases hz : σ ci <;>
    simp_all [maj3]

theorem xorResult_complete {σ : String → Bool} {a b ci r : String}
    (h : σ r = xor3 (σ a) (σ b) (σ ci)) :
    Sat σ (Result_Equal_A_XOR_B_XOR_CarryIn a b ci r) := by
  simp only [Result_Equal_A_XOR_B_XOR_CarryIn, Sat, cnfVal, clauseVal,
    litVal, List.all_cons, List.all_nil, List.any_cons, List.any_nil, pL, nL,
    Bool.cond_true, Bool.cond_false, Bool.and_eq_true, Bool.or_eq_true]
  cases hx : σ a <;> cases hy : σ b <;> cases hz : σ ci <;>
    simp_all [xor3]

theorem and1_complete {σ : String → Bool} {a b r : String}
    (h : σ r = (σ a && σ b)) : Sat σ (And_1Bit a b r) := by
  simp only [And_1Bit, Sat, cnfVal, clauseVal, litVal, List.all_cons,
    List.all_nil, List.any_cons, List.any_nil, pL, nL, Bool.cond_true,
    Bool.cond_false, Bool.and_eq_true, Bool.or_eq_true]
  cases hx : σ a <;> cases hy : σ b <;> simp_all

theorem or1_complete {σ : String → Bool} {a b r : String}
    (h : σ r = (σ a || σ b)) : Sat σ (Or_1Bit a b r) := by
  simp only [Or_1Bit, Sat, cnfVal, clauseVal, litVal, List.all_cons,
    List.all_nil, List.any_cons, List.any_nil, pL, nL, Bool.cond_true,
    Bool.cond_false, Bool.and_eq_true, Bool.or_eq_true]
  cases hx : σ a <;> cases hy : σ b <;> simp_all

theorem eq1_complete {σ : String → Bool} {a b r : String}
    (h : σ r = (σ a == σ b)) : Sat σ (Equals_1Bit a b r) := by
  simp only [Equals_1Bit, Sat, cnfVal, clauseVal, litVal, List.all_cons,
    List.all_nil, List.any_cons, List.any_nil, pL, nL, Bool.cond_true,
    Bool.cond_false, Bool.and_eq_true, Bool.or_eq_true]
  cases hx : σ a <;> cases hy : σ b <;> simp_all

theorem lt1_complete {σ : String → Bool} {a b r : String}
    (h : σ r = (!σ a && σ b)) : Sat σ (LessThan_1Bit a b r) := by
  simp only [LessThan_1Bit, Sat, cnfVal, clauseVal, litVal, List.all_cons,
    List.all_nil, List.any_cons, List.any_nil, pL, nL, Bool.cond_true,
    Bool.cond_false, Bool.and_eq_true, Bool.or_eq_true]
  cases hx : σ a <;> cases hy : σ b <;> simp_all

theorem if1_complete {σ : String → Bool} {a b cnd r : String}
    (h : σ r = (if σ cnd then σ a else σ b)) :
    Sat σ (If_Cond_A_Else_B_1Bit a b cnd r) := by
  simp only [If_Cond_A_Else_B_1Bit, Sat, cnfVal, clauseVal, litVal,
    List.all_cons, List.all_nil, List.any_cons, List.any_nil, pL, nL,
    Bool.cond_true, Bool.cond_false, Bool.and_eq_true, Bool.or_eq_true]
  cases hc : σ cnd <;> cases hx : σ a <;> cases hy : σ b <;> simp_all

theorem unit_neg_complete {σ : String → Bool} {x : String}
    (h : σ x = false) : Sat σ [[nL x]] := by
  simp [Sat, cnfVal, clauseVal, litVal, nL, h]

theorem unit_pos_complete {σ : String → Bool} {x : String}
    (h : σ x = true) : Sat σ [[pL x]] := by
  simp [Sat, cnfVal, clauseVal, litVal, pL, h]

/-- Satisfaction of a flatMap over a range, component by component. -/
theorem sat_flatMap_range_of {σ : String → Bool} {g : Nat → Cnf} {n : Nat}
    (h : ∀ i < n, Sat σ (g i)) : Sat σ ((List.range n).flatMap g) := by
  simp only [Sat, cnfVal, List.all_eq_true]
  intro cl hcl
  obtain ⟨i, hi, hmem⟩ := List.mem_flatMap.mp hcl
  have := h i (List.mem_range.mp hi)
  simp only [Sat, cnfVal, List.all_eq_true] at this
  exact this cl hmem

/-- Satisfaction of a map over a range, clause by clause. -/
theorem sat_map_range_of {σ : String → Bool} {g : Nat → Clause} {n : Nat}
    (h : ∀ i < n, clauseVal σ (g i) = true) :
    Sat σ ((List.range n).map g) := by
  simp only [Sat, cnfVal, List.all_eq_true]
  intro cl hcl
  obtain ⟨i, hi, rfl⟩ := List.mem_map.mp hcl
  exact h i (List.mem_range.mp hi)

theorem equalsN_complete {σ : String → Bool} {a b : String} {n : Nat}
    (h : ∀ i < n, σ (bitName a i) = σ (bitName b i)) :
    Sat σ (Equals_NBit a b n) := by
  rw [Equals_NBit]
  apply sat_flatMap_range_of
  intro i hi
  simp only [Sat, cnfVal, clauseVal, litVal, List.all_cons, List.all_nil,
    List.any_cons, List.any_nil, pL, nL, Bool.cond_true, Bool.cond_false,
    Bool.and_eq_true, Bool.or_eq_true]
  rw [h i hi]
  cases σ (bitName b i) <;> simp

theorem ifN_complete {σ : String → Bool} {a b cnd r : String} {n : Nat}
    (h : ∀ i < n, σ (bitName r i) =
      (if σ cnd then σ (bitName a i) else σ (bitName b i))) :
    Sat σ (If_Cond_A_Else_B_NBit a b cnd r n) := by
  rw [If_Cond_A_Else_B_NBit]
  exact sat_flatMap_range_of fun i hi => if1_complete (h i hi)

theorem orN1_complete {σ : String → Bool} {a r : String} {n : Nat}
    (h : σ r = (List.range n).any fun i => σ (bitName a i)) :
    Sat σ (Or_NBit_To_1Bit a r n) := by
  rw [Or_NBit_To_1Bit, sat_cons]
  constructor
  · cases hr : σ r
    · simp only [clauseVal, List.any_cons, litVal, nL, Bool.cond_false, hr,
        Bool.not_false, Bool.true_or]
    · rw [hr] at h
      obtain ⟨i, hi, hbit⟩ := List.any_eq_true.mp h.symm
      simp only [clauseVal, List.any_cons, Bool.or_eq_true, List.any_eq_true]
      refine Or.inr ⟨pL (bitName a i), List.mem_map.mpr ⟨i, hi, rfl⟩, ?_⟩
      simp [litVal, pL, hbit]
  · apply sat_map_range_of
    intro i hi
    simp only [clauseVal, List.any_cons, List.any_nil, litVal, pL, nL,
      Bool.cond_true, Bool.cond_false, Bool.or_false]
    cases hbit : σ (bitName a i)
    · simp
    · have : σ r = true := by
        rw [h, List.any_eq_true]
        exact ⟨i, List.mem_range.mpr hi, hbit⟩
      simp [this]

theorem pin_complete {σ : String → Bool} {x : String} {v n : Nat}
    (h : ∀ i < n, σ (bitName x i) = v.testBit i) :
    Sat σ (Input_Equals_Number x v n) := by
  rw [Input_Equals_Number]
  apply sat_map_range_of
  intro i hi
  cases hb : v.testBit i
  · rw [if_neg (by simp)]
    simp [clauseVal, litVal, nL, h i hi, hb]
  · rw [if_pos rfl]
    simp [clauseVal, litVal, pL, h i hi, hb]

theorem notEquals_complete {σ : String → Bool} {x : String} {v n : Nat}
    {i : Nat} (hi : i < n) (h : σ (bitName x i) = !v.testBit i) :
    Sat σ (Input_Not_Equals_Number x v n) := by
  rw [Input_Not_Equals_Number]
  simp only [Sat, cnfVal, List.all_cons, List.all_nil, Bool.and_true,
    clauseVal, List.any_eq_true]
  refine ⟨if v.testBit i then nL (bitName x i) else pL (bitName x i),
    List.mem_map.mpr ⟨i, List.mem_range.mpr hi, rfl⟩, ?_⟩
  cases hb : v.testBit i
  · rw [if_neg (by simp)]
    rw [hb] at h
    simp [litVal, pL, h]
  · rw [if_pos rfl]
    rw [hb] at h
    simp [litVal, nL, h]

/-- Reference carry chain of binary addition: `carryB A B i` is the carry
into bit `i` when adding `A` and `B`. -/
def carryB (A B i : Nat) : Bool := decide (2 ^ i ≤ A % 2 ^ i + B % 2 ^ i)

theorem carryB_zero (A B : Nat) : carryB A B 0 = false := by
  simp [carryB, Nat.mod_one]

theorem carryB_succ (A B i : Nat) :
    carryB A B (i + 1) =
      maj3 (A.testBit i) (B.testBit i) (carryB A B i) := by
  have hA := mod_pow_succ_testBit A i
  have hB := mod_pow_succ_testBit B i
  have hAlt : A % 2 ^ i < 2 ^ i := Nat.mod_lt _ (by positivity)
  have hBlt : B % 2 ^ i < 2 ^ i := Nat.mod_lt _ (by positivity)
  have hp : (2:Nat) ^ (i + 1) = 2 ^ i + 2 ^ i := by
    rw [pow_succ]
    omega
  simp only [carryB, maj3]
  cases ha : A.testBit i <;> cases hb : B.testBit i <;>
    cases hc : decide (2 ^ i ≤ A % 2 ^ i + B % 2 ^ i) <;>
    simp_all [decide_eq_true_iff, decide_eq_false_iff_not] <;> omega

/-- The `/ 2^i % 2` view of a sum with a split-off multiple of `2^i`. -/
theorem div_pow_mod_two (s m i : Nat) (hs : s < 2 ^ i) :
    (s + 2 ^ i * m) / 2 ^ i % 2 = m % 2 := by
  rw [Nat.mul_comm, Nat.add_mul_div_right _ _ (by positivity : (0:Nat) < 2 ^ i),
    Nat.div_eq_of_lt hs, Nat.zero_add]

/-- Full-adder correctness at the bit level: bit `i` of `A + B` is the
three-way xor of the operand bits and the reference carry. -/
theorem add_testBit (A B i : Nat) :
    (A + B).testBit i = xor3 (A.testBit i) (B.testBit i) (carryB A B i) := by
  have hA := Nat.mod_add_div A (2 ^ (i + 1))
  have hB := Nat.mod_add_div B (2 ^ (i + 1))
  rw [mod_pow_succ_testBit] at hA hB
  have hAlt : A % 2 ^ i < 2 ^ i := Nat.mod_lt _ (by positivity)
  have hBlt : B % 2 ^ i < 2 ^ i := Nat.mod_lt _ (by positivity)
  have hsum : A % 2 ^ i + B % 2 ^ i =
      (A % 2 ^ i + B % 2 ^ i) % 2 ^ i + 2 ^ i * (carryB A B i).toNat := by
    cases hc : carryB A B i
    · have hlt := of_decide_eq_false hc
      simp only [Bool.toNat_false, Nat.mul_zero, Nat.add_zero]
      rw [Nat.mod_eq_of_lt (show A % 2 ^ i + B % 2 ^ i < 2 ^ i by omega)]
    · have hge := of_decide_eq_true hc
      simp only [Bool.toNat_true, Nat.mul_one]
      have h1 : (A % 2 ^ i + B % 2 ^ i) % 2 ^ i =
          (A % 2 ^ i + B % 2 ^ i - 2 ^ i) % 2 ^ i := Nat.mod_eq_sub_mod hge
      have h2 : (A % 2 ^ i + B % 2 ^ i - 2 ^ i) % 2 ^ i =
          A % 2 ^ i + B % 2 ^ i - 2 ^ i := Nat.mod_eq_of_lt (by omega)
      omega
  have hpow : (2:Nat) ^ (i + 1) = 2 ^ i * 2 := pow_succ 2 i
  have hAB : A + B = (A % 2 ^ i + B % 2 ^ i) % 2 ^ i +
      2 ^ i * ((carryB A B i).toNat + (A.testBit i).toNat + (B.testBit i).toNat +
        2 * (A / 2 ^ (i + 1) + B / 2 ^ (i + 1))) := by
    have h1 : A + B = A % 2 ^ i + B % 2 ^ i +
        (2 ^ i * (A.testBit i).toNat + 2 ^ i * (B.testBit i).toNat) +
        (2 ^ (i + 1) * (A / 2 ^ (i + 1)) + 2 ^ (i + 1) * (B / 2 ^ (i + 1))) := by
      omega
    have hexp : 2 ^ i * ((carryB A B i).toNat + (A.testBit i).toNat +
        (B.testBit i).toNat + 2 * (A / 2 ^ (i + 1) + B / 2 ^ (i + 1))) =
        2 ^ i * (carryB A B i).toNat + 2 ^ i * (A.testBit i).toNat +
        2 ^ i * (B.testBit i).toNat + (2 ^ (i + 1) * (A / 2 ^ (i + 1)) +
          2 ^ (i + 1) * (B / 2 ^ (i + 1))) := by
      rw [hpow]
      ring
    omega
  rw [Nat.testBit_to_div_mod, hAB,
    div_pow_mod_two _ _ _ (Nat.mod_lt _ (by positivity))]
  cases ha : A.testBit i <;> cases hb : B.testBit i <;> cases hc : carryB A B i <;>
    simp [xor3, Nat.add_mul_mod_self_left, Nat.add_mod]

/-- `Add_NBit` completeness at the gate level: if every carry, result bit and
the overflow wire carry the full-adder values, the adder clauses are satisfied. -/
theorem Add_NBit_complete {σ : String → Bool} {a b r ov : String} {n : Nat}
    {c : Counters}
    (hc0 : σ (addCarryName (c.add + 1) 0) = false)
    (hcs : ∀ i < n, σ (addCarryName (c.add + 1) (i + 1)) =
      maj3 (σ (bitName a i)) (σ (bitName b i)) (σ (addCarryName (c.add + 1) i)))
    (hr : ∀ i < n, σ (bitName r i) =
      xor3 (σ (bitName a i)) (σ (bitName b i)) (σ (addCarryName (c.add + 1) i)))
    (hov : σ ov = σ (addCarryName (c.add + 1) n)) :
    Sat σ (Add_NBit a b r ov n c).1 := by
  rw [Add_NBit]
  simp only
  rw [sat_append, sat_append]
  refine ⟨⟨unit_neg_complete hc0, ?_⟩, ?_⟩
  · have : ∀ m ≤ n, Sat σ (addChain (c.add + 1) a b r m) := by
      intro m
      induction m with
      | zero =>
        intro _
        exact sat_nil σ
      | succ m' ih =>
        intro hm
        rw [addChain, sat_append]
        refine ⟨ih (by omega), ?_⟩
        rw [Add_1Bit, sat_append]
        exact ⟨carryOut_complete (hcs m' (by omega)),
          xorResult_complete (hr m' (by omega))⟩
    exact this n (le_refl n)
  · simp only [Sat, cnfVal, clauseVal, litVal, List.all_cons, List.all_nil,
      List.any_cons, List.any_nil, pL, nL, Bool.cond_true, Bool.cond_false,
      Bool.and_eq_true, Bool.or_eq_true]
    rw [hov]
    cases σ (addCarryName (c.add + 1) n) <;> simp

/-- `Add_NBit` completeness at the value level: wire values derived from the
operand values `A` and `B` satisfy the adder. -/
theorem Add_NBit_complete_vals {σ : String → Bool} {a b r ov : String}
    {n : Nat} {c : Counters} {A B : Nat}
    (hA : ∀ i < n, σ (bitName a i) = A.testBit i)
    (hB : ∀ i < n, σ (bitName b i) = B.testBit i)
    (hc : ∀ i ≤ n, σ (addCarryName (c.add + 1) i) = carryB A B i)
    (hr : ∀ i < n, σ (bitName r i) = (A + B).testBit i)
    (hov : σ ov = carryB A B n) :
    Sat σ (Add_NBit a b r ov n c).1 := by
  apply Add_NBit_complete
  · rw [hc 0 (by omega)]
    exact carryB_zero A B
  · intro i hi
    rw [hc (i + 1) (by omega), hc i (by omega), hA i hi, hB i hi]
    exact carryB_succ A B i
  · intro i hi
    rw [hr i hi, hA i hi, hB i hi, hc i (by omega)]
    exact add_testBit A B i
  · rw [hov, hc n (le_refl n)]

/-- Satisfaction of a counter-threading loop from satisfaction of each block. -/
theorem stateLoop_sat_of {σ : String → Bool}
    {f : Nat → Counters → Cnf × Counters} {m : Nat} {c : Counters}
    (h : ∀ i < m, Sat σ (f i (stateLoop f i c).2).1) :
    Sat σ (stateLoop f m c).1 := by
  induction m with
  | zero => exact sat_nil σ
  | succ m' ih =>
    simp only [stateLoop]
    rw [sat_append]
    exact ⟨ih fun i hi => h i (by omega), h m' (by omega)⟩

/-- Counter evolution of the addition chain inside `Mul_NBit`. -/
theorem mulAdds_counters (k n : Nat) :
    ∀ (m : Nat) (c : Counters), (mulAdds k n m c).2 = { c with add := c.add + m } := by
  intro m
  induction m with
  | zero =>
    intro c
    rfl
  | succ m' ih =>
    intro c
    simp only [mulAdds, stateLoop] at *
    rw [Add_NBit]
    simp only [ih c]
    have : c.add + m' + 1 = c.add + (m' + 1) := by omega
    rw [this]

theorem testBit_mul_pow_lo {a s j : Nat} (h : j < s) :
    (a * 2 ^ s).testBit j = false := by
  rw [Nat.testBit_to_div_mod]
  have h1 : a * 2 ^ s = a * 2 ^ (s - j) * 2 ^ j := by
    rw [Nat.mul_assoc, ← pow_add]
    congr 2
    omega
  rw [h1, Nat.mul_div_assoc _ (dvd_refl (2 ^ j)),
    Nat.div_self (by positivity : (0:Nat) < 2 ^ j), Nat.mul_one,
    show s - j = (s - j - 1) + 1 by omega, pow_succ, ← Nat.mul_assoc]
  simp [Nat.mul_mod_left]

theorem testBit_mul_pow_hi (a s j : Nat) :
    (a * 2 ^ s).testBit (j + s) = a.testBit j := by
  rw [Nat.testBit_to_div_mod, Nat.testBit_to_div_mod, pow_add,
    Nat.mul_div_mul_right _ _ (by positivity : (0:Nat) < 2 ^ s)]

/-- Completeness of the shifted 1-bit partial product. -/
theorem mulShift_complete {σ : String → Bool} {a b r : String} {shift n : Nat}
    (hlow : ∀ j < shift, σ (bitName r j) = false)
    (hmid : ∀ j < n, σ (bitName r (j + shift)) = (σ (bitName a j) && σ b))
    (hhigh : ∀ j, shift + n ≤ j → j < n * 2 → σ (bitName r j) = false) :
    Sat σ (Mul_NBit_1Bit_Shift a b r shift n) := by
  rw [Mul_NBit_1Bit_Shift, sat_append, sat_append]
  refine ⟨⟨?_, ?_⟩, ?_⟩
  · apply sat_map_range_of
    intro j hj
    simp [clauseVal, litVal, nL, hlow j hj]
  · apply sat_flatMap_range_of
    intro j hj
    simp only [Sat, cnfVal, clauseVal, litVal, List.all_cons, List.all_nil,
      List.any_cons, List.any_nil, pL, nL, Bool.cond_true, Bool.cond_false,
      Bool.and_eq_true, Bool.or_eq_true]
    rw [hmid j hj]
    cases σ (bitName a j) <;> cases σ b <;> simp
  · simp only [Sat, cnfVal, List.all_eq_true]
    intro cl hcl
    obtain ⟨j, hj, rfl⟩ := List.mem_map.mp hcl
    have hj' := List.mem_range'_1.mp hj
    simp [clauseVal, litVal, nL, hhigh j (by omega) (by omega)]

/-- `Mul_NBit` completeness at the value level: shift-and-add wire values
derived from the operand values `A` and `B` satisfy the multiplier. -/
theorem Mul_NBit_complete_vals {σ : String → Bool} {a b r ov : String}
    {n : Nat} {c : Counters} {A B : Nat}
    (hAlt : A < 2 ^ n) (hBlt : B < 2 ^ n)
    (hA : ∀ i < n, σ (bitName a i) = A.testBit i)
    (hB : ∀ i < n, σ (bitName b i) = B.testBit i)
    (hacc1 : ∀ i < n, ∀ j < n * 2, σ (bitName (mulAccum1Name (c.mul + 1) i) j) =
      (A * (B.testBit i).toNat * 2 ^ i).testBit j)
    (hacc2 : ∀ i ≤ n, ∀ j < n * 2, σ (bitName (mulAccum2Name (c.mul + 1) i) j) =
      (A * (B % 2 ^ i)).testBit j)
    (hcarry : ∀ i < n, ∀ t ≤ n * 2, σ (addCarryName (c.add + i + 1) t) =
      carryB (A * (B.testBit i).toNat * 2 ^ i) (A * (B % 2 ^ i)) t)
    (hmc : ∀ i < n, σ (mulCarryName (c.mul + 1) i) =
      carryB (A * (B.testBit i).toNat * 2 ^ i) (A * (B % 2 ^ i)) (n * 2))
    (hres : ∀ i < n, σ (bitName r i) = (A * B).testBit i)
    (hov : σ ov = decide (2 ^ n ≤ A * B)) :
    Sat σ (Mul_NBit a b r ov n c).1 := by
  have hABlt : A * B < 2 ^ (n * 2) := by
    rcases Nat.eq_zero_or_pos A with h0 | h0
    · subst h0
      simp only [Nat.zero_mul]
      positivity
    · calc A * B < 2 ^ n * 2 ^ n :=
          mul_lt_mul' (le_of_lt hAlt) hBlt (Nat.zero_le _) (by positivity)
      _ = 2 ^ (n * 2) := by
          rw [← pow_add]
          congr 1
          omega
  rw [Mul_NBit]
  simp only
  rw [sat_append, sat_append, sat_append, sat_append, sat_append]
  refine ⟨⟨⟨⟨⟨?_, ?_⟩, ?_⟩, ?_⟩, ?_⟩, ?_⟩
  · -- partial products
    apply sat_flatMap_range_of
    intro i hi
    apply mulShift_complete
    · intro j hj
      rw [hacc1 i hi j (by omega)]
      exact testBit_mul_pow_lo hj
    · intro j hj
      rw [hacc1 i hi (j + i) (by omega), testBit_mul_pow_hi, hA j hj, hB i hi]
      cases hbit : B.testBit i
      · simp [Nat.zero_testBit]
      · simp
    · intro j hj1 hj2
      rw [hacc1 i hi j hj2]
      apply Nat.testBit_eq_false_of_lt
      calc A * (B.testBit i).toNat * 2 ^ i < 2 ^ n * 2 ^ i := by
            have hb1 : (B.testBit i).toNat ≤ 1 := Bool.toNat_le _
            have : A * (B.testBit i).toNat ≤ A * 1 := Nat.mul_le_mul_left A hb1
            have hAp : A * (B.testBit i).toNat < 2 ^ n := by omega
            exact Nat.mul_lt_mul_of_lt_of_le hAp (le_refl _) (by positivity)
      _ = 2 ^ (n + i) := by rw [pow_add]
      _ ≤ 2 ^ j := Nat.pow_le_pow_right (by norm_num) (by omega)
  · -- accumulator 0 is zero
    apply sat_map_range_of
    intro j hj
    have := hacc2 0 (Nat.zero_le n) j hj
    simp only [pow_zero, Nat.mod_one, Nat.mul_zero, Nat.zero_testBit] at this
    simp [clauseVal, litVal, nL, this]
  · -- the addition chain
    apply stateLoop_sat_of
    intro i hi
    have hctr := mulAdds_counters (c.mul + 1) n i { c with mul := c.mul + 1 }
    rw [mulAdds] at hctr
    rw [hctr]
    have hstep : A * (B % 2 ^ i) + A * (B.testBit i).toNat * 2 ^ i =
        A * (B % 2 ^ (i + 1)) := by
      rw [mod_pow_succ_testBit B i]
      ring
    apply Add_NBit_complete_vals
      (A := A * (B.testBit i).toNat * 2 ^ i) (B := A * (B % 2 ^ i))
    · intro j hj
      exact hacc1 i hi j hj
    · intro j hj
      exact hacc2 i (le_of_lt hi) j hj
    · intro t ht
      have := hcarry i hi t ht
      simpa using this
    · intro j hj
      rw [hacc2 (i + 1) (by omega) j hj, ← hstep, Nat.add_comm (A * (B % 2 ^ i))]
    · have := hmc i hi
      simpa using this
  · -- result connection
    apply sat_flatMap_range_of
    intro i hi
    have h1 := hres i hi
    have h2 := hacc2 n (le_refl n) i (by omega)
    rw [Nat.mod_eq_of_lt hBlt] at h2
    simp only [Sat, cnfVal, clauseVal, litVal, List.all_cons, List.all_nil,
      List.any_cons, List.any_nil, pL, nL, Bool.cond_true, Bool.cond_false,
      Bool.and_eq_true, Bool.or_eq_true]
    rw [h1, h2]
    cases (A * B).testBit i <;> simp
  · -- the big overflow clause
    cases hd : decide (2 ^ n ≤ A * B)
    · rw [hd] at hov
      simp only [Sat, cnfVal, List.all_cons, List.all_nil, Bool.and_true,
        clauseVal, List.any_cons, Bool.or_eq_true, litVal, nL, Bool.cond_false]
      left
      simp [hov]
    · have hge := of_decide_eq_true hd
      obtain ⟨j, hj, hbit⟩ := (high_bit_iff hABlt).mpr hge
      simp only [Sat, cnfVal, List.all_cons, List.all_nil, Bool.and_true,
        clauseVal, List.any_cons, Bool.or_eq_true, List.any_eq_true]
      right
      refine ⟨pL (bitName (mulAccum2Name (c.mul + 1) n) (j + n)),
        List.mem_map.mpr ⟨j, List.mem_range.mpr hj, rfl⟩, ?_⟩
      have h2 := hacc2 n (le_refl n) (j + n) (by omega)
      rw [Nat.mod_eq_of_lt hBlt] at h2
      simp [litVal, pL, h2, hbit]
  · -- the overflow unit clauses
    apply sat_map_range_of
    intro i hi
    have h2 := hacc2 n (le_refl n) (i + n) (by omega)
    rw [Nat.mod_eq_of_lt hBlt] at h2
    simp only [clauseVal, List.any_cons, List.any_nil, litVal, pL, nL,
      Bool.cond_true, Bool.cond_false, Bool.or_false, Bool.or_eq_true]
    cases hbit : (A * B).testBit (i + n)
    · right
      simp [h2, hbit]
    · left
      rw [hov]
      have : 2 ^ n ≤ A * B := by
        calc 2 ^ n ≤ 2 ^ (i + n) := Nat.pow_le_pow_right (by norm_num) (by omega)
        _ ≤ A * B := testBit_ge_of_true hbit
      simp [this]

/-- Division shifts one bit at a time. -/
theorem div_pow_succ_bit (A i : Nat) :
    A / 2 ^ i = 2 * (A / 2 ^ (i + 1)) + (A.testBit i).toNat := by
  have h1 : A / 2 ^ i / 2 = A / 2 ^ (i + 1) := by
    rw [Nat.div_div_eq_div_mul, ← pow_succ]
  have h2 : A / 2 ^ i % 2 = (A.testBit i).toNat := by
    rw [Nat.testBit_to_div_mod]
    cases hd : decide (A / 2 ^ i % 2 = 1)
    · have := of_decide_eq_false hd
      simp only [Bool.toNat_false]
      omega
    · simpa using of_decide_eq_true hd
  omega

/-- A boolean step function that starts false and ends true crosses over. -/
theorem bool_boundary (f : Nat → Bool) :
    ∀ n, f 0 = false → f n = true → ∃ i < n, f i = false ∧ f (i + 1) = true := by
  intro n
  induction n with
  | zero =>
    intro h0 h1
    rw [h0] at h1
    exact absurd h1 Bool.noConfusion
  | succ m ih =>
    intro h0 h1
    cases hm : f m
    · exact ⟨m, by omega, hm, h1⟩
    · obtain ⟨i, hi, h⟩ := ih h0 hm
      exact ⟨i, by omega, h⟩

/-- `LessThan_NBit` completeness: with the comparison wires carrying the
prefix-equality chain values and `A < B`, the clause list is satisfied. -/
theorem LessThan_NBit_complete {σ : String → Bool} {a b : String} {n : Nat}
    {c : Counters} {A B : Nat} (hAlt : A < 2 ^ n) (hBlt : B < 2 ^ n)
    (hAB : A < B)
    (hA : ∀ i < n, σ (bitName a i) = A.testBit i)
    (hB : ∀ i < n, σ (bitName b i) = B.testBit i)
    (heq : ∀ i < n, σ (ltEqName (c.lt + 1) i) = (A.testBit i == B.testBit i))
    (hless : ∀ i < n, σ (ltLessName (c.lt + 1) i) = (!A.testBit i && B.testBit i))
    (hacc : ∀ i ≤ n, σ (ltAccumName (c.lt + 1) i) = decide (A / 2 ^ i = B / 2 ^ i))
    (hres : ∀ i < n, σ (ltResName (c.lt + 1) i) =
      (decide (A / 2 ^ (i + 1) = B / 2 ^ (i + 1)) && (!A.testBit i && B.testBit i))) :
    Sat σ (LessThan_NBit a b n c).1 := by
  rw [LessThan_NBit]
  simp only
  rw [sat_append, sat_append, sat_append, sat_append, sat_append]
  refine ⟨⟨⟨⟨⟨?_, ?_⟩, ?_⟩, ?_⟩, ?_⟩, ?_⟩
  · apply sat_flatMap_range_of
    intro i hi
    apply eq1_complete
    rw [heq i hi, hA i hi, hB i hi]
  · apply sat_flatMap_range_of
    intro i hi
    apply lt1_complete
    rw [hless i hi, hA i hi, hB i hi]
  · apply unit_pos_complete
    rw [hacc n (le_refl n), Nat.div_eq_of_lt hAlt, Nat.div_eq_of_lt hBlt]
    rfl
  · apply sat_flatMap_range_of
    intro i hi
    apply and1_complete
    rw [hacc i (by omega), hacc (i + 1) (by omega), heq i hi]
    have eA := div_pow_succ_bit A i
    have eB := div_pow_succ_bit B i
    cases hd : decide (A / 2 ^ (i + 1) = B / 2 ^ (i + 1)) <;>
      cases ha : A.testBit i <;> cases hb : B.testBit i <;>
      simp_all [decide_eq_true_iff, decide_eq_false_iff_not] <;> omega
  · apply sat_flatMap_range_of
    intro i hi
    apply and1_complete
    rw [hres i hi, hacc (i + 1) (by omega), hless i hi]
  · have hf0 : decide (A / 2 ^ 0 = B / 2 ^ 0) = false := by
      simp only [pow_zero, Nat.div_one]
      exact decide_eq_false (by omega)
    have hfn : decide (A / 2 ^ n = B / 2 ^ n) = true := by
      rw [Nat.div_eq_of_lt hAlt, Nat.div_eq_of_lt hBlt]
      exact decide_eq_true rfl
    obtain ⟨i, hi, hfi, hfi1⟩ :=
      bool_boundary (fun j => decide (A / 2 ^ j = B / 2 ^ j)) n hf0 hfn
    have hdiv := of_decide_eq_true hfi1
    have hne := of_decide_eq_false hfi
    have eA := div_pow_succ_bit A i
    have eB := div_pow_succ_bit B i
    have hmono : A / 2 ^ i ≤ B / 2 ^ i := Nat.div_le_div_right (le_of_lt hAB)
    have hbits : A.testBit i = false ∧ B.testBit i = true := by
      cases ha : A.testBit i <;> cases hb : B.testBit i <;>
        simp_all <;> omega
    simp only [Sat, cnfVal, List.all_cons, List.all_nil, Bool.and_true,
      clauseVal, List.any_eq_true]
    refine ⟨pL (ltResName (c.lt + 1) i),
      List.mem_map.mpr ⟨i, List.mem_range.mpr hi, rfl⟩, ?_⟩
    simp only [litVal, pL, Bool.cond_true]
    rw [hres i hi, hbits.1, hbits.2, hfi1]
    rfl

/-- Counter evolution of `Mul_NBit`. -/
theorem Mul_NBit_counters (a b r ov : String) (n : Nat) (c : Counters) :
    (Mul_NBit a b r ov n c).2 = { c with mul := c.mul + 1, add := c.add + n } := by
  rw [Mul_NBit]
  simp only [mulAdds_counters]

/-- Counter evolution of `Add_NBit`. -/
theorem Add_NBit_counters (a b r ov : String) (n : Nat) (c : Counters) :
    (Add_NBit a b r ov n c).2 = { c with add := c.add + 1 } := rfl

/-- Counter evolution of `LessThan_NBit`. -/
theorem LessThan_NBit_counters (a b : String) (n : Nat) (c : Counters) :
    (LessThan_NBit a b n c).2 = { c with lt := c.lt + 1 } := rfl

/-- `DivMod_NBit` completeness: wire values derived from `A`, `B` (with
`0 < B`) satisfy the divider. -/
theorem DivMod_NBit_complete_vals {σ : String → Bool} {a b d m : String}
    {n : Nat} {c : Counters} {A B : Nat}
    (hAlt : A < 2 ^ n) (hBlt : B < 2 ^ n) (hBpos : 0 < B)
    (hA : ∀ i < n, σ (bitName a i) = A.testBit i)
    (hB : ∀ i < n, σ (bitName b i) = B.testBit i)
    (hD : ∀ i < n, σ (bitName d i) = (A / B).testBit i)
    (hM : ∀ i < n, σ (bitName m i) = (A % B).testBit i)
    (hacc1 : ∀ i < n, ∀ j < n * 2,
      σ (bitName (mulAccum1Name (c.mul + 1) i) j) =
        (B * ((A / B).testBit i).toNat * 2 ^ i).testBit j)
    (hacc2 : ∀ i ≤ n, ∀ j < n * 2,
      σ (bitName (mulAccum2Name (c.mul + 1) i) j) =
        (B * (A / B % 2 ^ i)).testBit j)
    (hcarryM : ∀ i < n, ∀ t ≤ n * 2, σ (addCarryName (c.add + i + 1) t) =
      carryB (B * ((A / B).testBit i).toNat * 2 ^ i) (B * (A / B % 2 ^ i)) t)
    (hmc : ∀ i < n, σ (mulCarryName (c.mul + 1) i) =
      carryB (B * ((A / B).testBit i).toNat * 2 ^ i) (B * (A / B % 2 ^ i)) (n * 2))
    (haccb : ∀ i < n, σ (bitName (dmAccumName (c.divmod + 1)) i) =
      (B * (A / B)).testBit i)
    (hmulov : σ (dmMulOvName (c.divmod + 1)) = false)
    (haddov : σ (dmAddOvName (c.divmod + 1)) = false)
    (hcarryA : ∀ t ≤ n, σ (addCarryName (c.add + n + 1) t) =
      carryB (B * (A / B)) (A % B) t)
    (heq : ∀ i < n, σ (ltEqName (c.lt + 1) i) =
      ((A % B).testBit i == B.testBit i))
    (hless : ∀ i < n, σ (ltLessName (c.lt + 1) i) =
      (!(A % B).testBit i && B.testBit i))
    (hltacc : ∀ i ≤ n, σ (ltAccumName (c.lt + 1) i) =
      decide (A % B / 2 ^ i = B / 2 ^ i))
    (hltres : ∀ i < n, σ (ltResName (c.lt + 1) i) =
      (decide (A % B / 2 ^ (i + 1) = B / 2 ^ (i + 1)) &&
        (!(A % B).testBit i && B.testBit i))) :
    Sat σ (DivMod_NBit a b d m n c).1 := by
  have hBD : B * (A / B) ≤ A := Nat.mul_div_le A B
  have hBDM : B * (A / B) + A % B = A := Nat.div_add_mod A B
  have hDle : A / B ≤ A := Nat.div_le_self A B
  rw [DivMod_NBit]
  simp only
  rw [sat_append, sat_append, sat_append, sat_append]
  refine ⟨⟨⟨⟨?_, ?_⟩, ?_⟩, ?_⟩, ?_⟩
  · -- the multiplier B * (A/B)
    apply Mul_NBit_complete_vals (A := B) (B := A / B) hBlt
      (by omega : A / B < 2 ^ n)
    · exact hB
    · exact hD
    · exact hacc1
    · exact hacc2
    · exact hcarryM
    · exact hmc
    · exact haccb
    · rw [hmulov]
      symm
      exact decide_eq_false (by omega)
  · -- the adder B*(A/B) + A%B = A
    rw [Mul_NBit_counters]
    apply Add_NBit_complete_vals (A := B * (A / B)) (B := A % B)
    · exact haccb
    · exact hM
    · intro t ht
      have := hcarryA t ht
      simpa using this
    · intro i hi
      rw [hA i hi, hBDM]
    · rw [haddov]
      symm
      simp only [carryB]
      apply decide_eq_false
      rw [Nat.mod_eq_of_lt (by omega : B * (A / B) < 2 ^ n),
        Nat.mod_eq_of_lt (by omega : A % B < 2 ^ n)]
      omega
  · exact unit_neg_complete hmulov
  · exact unit_neg_complete haddov
  · -- the comparison A%B < B
    rw [Mul_NBit_counters, Add_NBit_counters]
    apply LessThan_NBit_complete (A := A % B) (B := B)
      (by omega : A % B < 2 ^ n) hBlt (Nat.mod_lt _ hBpos)
    · exact hM
    · exact hB
    · exact heq
    · exact hless
    · exact hltacc
    · exact hltres

/-! ### String toolkit: decimal digits, `Z` injectivity, and tokenisation.

Every variable name the generator builds is a concatenation of digit-free
literal fragments and 10-digit-padded `Z` blocks.  We recover the fragments
of a name uniquely by splitting it into maximal digit / non-digit runs. -/

/-- ASCII decimal digit test. -/
def isDig (c : Char) : Bool := decide (48 ≤ c.toNat) && decide (c.toNat ≤ 57)

theorem isDig_digitChar {d : Nat} (hd : d < 10) : isDig (digitChar d) = true := by
  interval_cases d <;> decide

theorem toNat_digitChar {d : Nat} (hd : d < 10) :
    (digitChar d).toNat - 48 = d := by
  interval_cases d <;> decide

theorem decDigitsCore_digits :
    ∀ f n, ∀ ch ∈ decDigitsCore f n, isDig ch = true := by
  intro f
  induction f with
  | zero =>
    intro n ch h
    simp [decDigitsCore] at h
  | succ f ih =>
    intro n ch h
    rw [decDigitsCore] at h
    by_cases hn : n < 10
    · rw [if_pos hn] at h
      simp only [List.mem_singleton] at h
      subst h
      exact isDig_digitChar hn
    · rw [if_neg hn] at h
      rcases List.mem_append.mp h with h | h
      · exact ih _ ch h
      · simp only [List.mem_singleton] at h
        subst h
        exact isDig_digitChar (Nat.mod_lt _ (by norm_num))

theorem decDigitsCore_ne_nil {f n : Nat} (hf : 0 < f) :
    decDigitsCore f n ≠ [] := by
  cases f with
  | zero => omega
  | succ f =>
    rw [decDigitsCore]
    by_cases hn : n < 10
    · rw [if_pos hn]
      simp
    · rw [if_neg hn]
      simp

/-- Decimal value of a digit string (the left inverse of formatting). -/
def valDigits (l : List Char) : Nat :=
  l.foldl (fun a ch => a * 10 + (ch.toNat - 48)) 0

theorem valDigits_append_digit (l : List Char) (d : Char) :
    valDigits (l ++ [d]) = valDigits l * 10 + (d.toNat - 48) := by
  simp [valDigits, List.foldl_append]

theorem valDigits_replicate_zero (m : Nat) (l : List Char) :
    valDigits (List.replicate m '0' ++ l) = valDigits l := by
  induction m with
  | zero => simp
  | succ m ih =>
    rw [List.replicate_succ, List.cons_append]
    simp only [valDigits, List.foldl_cons]
    have : '0'.toNat - 48 = 0 := by decide
    rw [this]
    exact ih

theorem decCore_val : ∀ f, ∀ n < f, valDigits (decDigitsCore f n) = n := by
  intro f
  induction f with
  | zero =>
    intro n hn
    omega
  | succ f ih =>
    intro n hn
    rw [decDigitsCore]
    by_cases h10 : n < 10
    · rw [if_pos h10]
      simp only [valDigits, List.foldl_cons, List.foldl_nil, Nat.zero_mul,
        Nat.zero_add]
      exact toNat_digitChar h10
    · rw [if_neg h10]
      have hdiv : n / 10 < f := by
        have h1 : n / 10 < n := Nat.div_lt_self (by omega) (by norm_num)
        omega
      rw [valDigits_append_digit, ih (n / 10) hdiv,
        toNat_digitChar (Nat.mod_lt _ (by norm_num : (0:Nat) < 10))]
      omega

theorem Z_data (i : Nat) :
    (Z i).data = List.replicate (10 - (decRepr i).length) '0' ++ decRepr i := rfl

theorem Z_val (i : Nat) : valDigits (Z i).data = i := by
  rw [Z_data, valDigits_replicate_zero, decRepr]
  exact decCore_val (i + 1) i (Nat.lt_succ_self i)

theorem Z_inj {i j : Nat} (h : Z i = Z j) : i = j := by
  have := congrArg (fun s => valDigits s.data) h
  simpa [Z_val] using this

theorem Z_data_inj {i j : Nat} (h : (Z i).data = (Z j).data) : i = j := by
  have : valDigits (Z i).data = valDigits (Z j).data := by rw [h]
  rwa [Z_val, Z_val] at this

theorem Z_ne_nil (i : Nat) : (Z i).data ≠ [] := by
  rw [Z_data]
  intro h
  have := congrArg List.length h
  simp only [List.length_append, List.length_replicate, List.length_nil] at this
  have hne : decRepr i ≠ [] := decDigitsCore_ne_nil (by omega)
  have : (decRepr i).length = 0 := by omega
  exact hne (List.eq_nil_of_length_eq_zero this)

theorem Z_all_dig (i : Nat) : ∀ ch ∈ (Z i).data, isDig ch = true := by
  rw [Z_data]
  intro ch h
  rcases List.mem_append.mp h with h | h
  · have := List.eq_of_mem_replicate h
    subst this
    decide
  · exact decDigitsCore_digits (i + 1) i ch h

theorem Z_len_ge (i : Nat) : 10 ≤ (Z i).data.length := by
  rw [Z_data]
  simp only [List.length_append, List.length_replicate]
  omega


/-- Extend a run decomposition by one character on the left. -/
def tokPush (c : Char) : List (Bool × List Char) → List (Bool × List Char)
  | [] => [(isDig c, [c])]
  | (b, w) :: rest =>
    if isDig c = b then (b, c :: w) :: rest
    else (isDig c, [c]) :: (b, w) :: rest

/-- Split a character list into maximal runs of digits / non-digits, each run
tagged with its digit flag. -/
def tokenize : List Char → List (Bool × List Char)
  | [] => []
  | c :: cs => tokPush c (tokenize cs)

/-- Concatenate a token list back into a character list. -/
def renderToks (l : List (Bool × List Char)) : List Char :=
  l.flatMap Prod.snd

/-- A well-formed token list: every run is nonempty, uniformly flagged, and
adjacent runs have distinct flags. -/
def ValidToks : List (Bool × List Char) → Prop
  | [] => True
  | (b, w) :: rest =>
    w ≠ [] ∧ (∀ ch ∈ w, isDig ch = b) ∧
      (rest.head?.elim True fun p => p.1 ≠ b) ∧ ValidToks rest

theorem tokenize_run {w : List Char} {b : Bool} :
    ∀ (_ : w ≠ []) (_ : ∀ ch ∈ w, isDig ch = b) {rest : List Char}
    (_ : (tokenize rest).head?.elim True fun p => p.1 ≠ b),
    tokenize (w ++ rest) = (b, w) :: tokenize rest := by
  induction w with
  | nil =>
    intro hne
    exact absurd rfl hne
  | cons c w ih =>
    intro _ hall rest hrest
    have hc : isDig c = b := hall c (List.mem_cons_self c w)
    rcases hw : w with _ | ⟨c', w'⟩
    · simp only [List.nil_append, List.cons_append]
      rw [tokenize]
      rcases h : tokenize rest with _ | ⟨⟨b', w''⟩, rest'⟩
      · rw [tokPush, hc]
      · rw [h] at hrest
        simp only [List.head?_cons, Option.elim] at hrest
        rw [tokPush, if_neg (by rw [hc]; exact fun he => hrest he.symm), hc]
    · subst hw
      have hih := ih (by simp) (fun ch hch => hall ch (List.mem_cons_of_mem c hch))
        hrest
      rw [List.cons_append, tokenize, hih, tokPush, if_pos (by rw [hc])]

theorem tokenize_renderToks : ∀ {l : List (Bool × List Char)},
    ValidToks l → tokenize (renderToks l) = l := by
  intro l
  induction l with
  | nil =>
    intro _
    rfl
  | cons p rest ih =>
    intro hv
    obtain ⟨b, w⟩ := p
    obtain ⟨hne, hall, hhead, hvrest⟩ := hv
    have hrest : (tokenize (renderToks rest)).head?.elim True fun p => p.1 ≠ b := by
      rw [ih hvrest]
      rcases rest with _ | ⟨⟨b', w'⟩, rest'⟩
      · simp
      · simp only [List.head?_cons, Option.elim] at hhead ⊢
        exact hhead
    show tokenize (w ++ renderToks rest) = (b, w) :: rest
    rw [tokenize_run hne hall hrest, ih hvrest]

/-- Well-formed token lists rendering to the same characters are equal. -/
theorem renderToks_inj {l₁ l₂ : List (Bool × List Char)} (h₁ : ValidToks l₁)
    (h₂ : ValidToks l₂) (h : renderToks l₁ = renderToks l₂) : l₁ = l₂ := by
  rw [← tokenize_renderToks h₁, ← tokenize_renderToks h₂, h]

/-- Family discriminator: digit runs of length `≥ 10` are `Z` blocks; erase
their contents, keeping everything else. -/
def eraseTok (p : Bool × List Char) : Bool × Option (List Char) :=
  (p.1, if p.1 && decide (10 ≤ p.2.length) then none else some p.2)

theorem eraseTok_Z (i : Nat) : eraseTok (true, (Z i).data) = (true, none) := by
  have h : decide (10 ≤ (Z i).data.length) = true := decide_eq_true (Z_len_ge i)
  simp [eraseTok, h]
  exact Z_len_ge i

/-- A token pattern: a concrete literal run, or a `Z`-formatted index block. -/
inductive TokPat where
  | lit (b : Bool) (w : List Char)
  | idx (i : Nat)

/-- The token a pattern denotes. -/
def toksOfPat : TokPat → Bool × List Char
  | .lit b w => (b, w)
  | .idx i => (true, (Z i).data)

/-- The digit flag of a pattern. -/
def patFlag : TokPat → Bool
  | .lit b _ => b
  | .idx _ => true

/-- The family skeleton of a pattern (indices erased). -/
def patSkel : TokPat → Bool × Option (List Char)
  | .lit b w => (b, some w)
  | .idx _ => (true, none)

/-- Well-formedness checker for a pattern list; it never inspects the value
of an index, so it evaluates even with free index variables. -/
def patOkB : List TokPat → Bool
  | [] => true
  | p :: rest =>
    (match p with
     | .lit b w => !w.isEmpty && w.all (fun ch => isDig ch == b) &&
         (!b || decide (w.length < 10))
     | .idx _ => true) &&
    (match rest.head? with
     | none => true
     | some q => patFlag q != patFlag p) &&
    patOkB rest

theorem fst_toksOfPat (p : TokPat) : (toksOfPat p).1 = patFlag p := by
  cases p <;> rfl

theorem patOk_valid : ∀ {l : List TokPat}, patOkB l = true →
    ValidToks (l.map toksOfPat) := by
  intro l
  induction l with
  | nil =>
    intro _
    trivial
  | cons p rest ih =>
    intro h
    rw [patOkB.eq_def, Bool.and_eq_true, Bool.and_eq_true] at h
    obtain ⟨⟨hp, hflag⟩, hrest⟩ := h
    rw [List.map_cons]
    have hhead : ((rest.map toksOfPat).head?.elim True
        fun q => q.1 ≠ (toksOfPat p).1) := by
      rcases rest with _ | ⟨q, rest'⟩
      · simp
      · simp only [List.head?_cons] at hflag
        simp only [List.map_cons, List.head?_cons, Option.elim]
        rw [fst_toksOfPat]
        intro he
        rw [fst_toksOfPat] at he
        rw [he] at hflag
        simp at hflag
    cases p with
    | lit b w =>
      rw [Bool.and_eq_true] at hp
      obtain ⟨⟨hne, hall⟩⟩ := And.intro hp trivial
      rw [Bool.and_eq_true] at hne
      refine ⟨?_, ?_, ?_, ih hrest⟩
      · intro he
        rw [he] at hne
        simp [List.isEmpty_nil] at hne
      · intro ch hch
        have := List.all_eq_true.mp hne.2 ch hch
        exact beq_iff_eq.mp this
      · exact hhead
    | idx i =>
      exact ⟨Z_ne_nil i, Z_all_dig i, hhead, ih hrest⟩

theorem patOk_erase : ∀ {l : List TokPat}, patOkB l = true →
    (l.map toksOfPat).map eraseTok = l.map patSkel := by
  intro l
  induction l with
  | nil =>
    intro _
    rfl
  | cons p rest ih =>
    intro h
    rw [patOkB.eq_def, Bool.and_eq_true, Bool.and_eq_true] at h
    obtain ⟨⟨hp, _⟩, hrest⟩ := h
    rw [List.map_cons, List.map_cons, List.map_cons, ih hrest]
    congr 1
    cases p with
    | lit b w =>
      rw [Bool.and_eq_true] at hp
      cases b
      · simp [eraseTok, toksOfPat, patSkel]
      · have hlen := hp.2
        simp only [Bool.not_true, Bool.false_or] at hlen
        have : ¬ (10 ≤ w.length) := by
          have := of_decide_eq_true hlen
          omega
        simp [eraseTok, toksOfPat, patSkel, this]
    | idx i =>
      exact eraseTok_Z i

/-- Names built from well-formed patterns are equal only when their token
patterns render identically. -/
theorem pat_toks_eq {l₁ l₂ : List TokPat} (h₁ : patOkB l₁ = true)
    (h₂ : patOkB l₂ = true)
    (h : renderToks (l₁.map toksOfPat) = renderToks (l₂.map toksOfPat)) :
    l₁.map toksOfPat = l₂.map toksOfPat :=
  renderToks_inj (patOk_valid h₁) (patOk_valid h₂) h

/-- Family discrimination: equal renders force equal skeletons. -/
theorem pat_skel_eq {l₁ l₂ : List TokPat} (h₁ : patOkB l₁ = true)
    (h₂ : patOkB l₂ = true)
    (h : renderToks (l₁.map toksOfPat) = renderToks (l₂.map toksOfPat)) :
    l₁.map patSkel = l₂.map patSkel := by
  have := congrArg (List.map eraseTok) (pat_toks_eq h₁ h₂ h)
  rwa [patOk_erase h₁, patOk_erase h₂] at this

/-! Token patterns of the name families appearing in `DivMod_NBit`. -/

theorem patEq_bit_a (i : Nat) : (bitName "a" i).data =
    renderToks ([TokPat.lit false ['a', '_'], TokPat.idx i].map toksOfPat) := by
  simp [bitName, renderToks, toksOfPat, String.data_append]

theorem patEq_bit_b (i : Nat) : (bitName "b" i).data =
    renderToks ([TokPat.lit false ['b', '_'], TokPat.idx i].map toksOfPat) := by
  simp [bitName, renderToks, toksOfPat, String.data_append]

theorem patEq_bit_d (i : Nat) : (bitName "d" i).data =
    renderToks ([TokPat.lit false ['d', '_'], TokPat.idx i].map toksOfPat) := by
  simp [bitName, renderToks, toksOfPat, String.data_append]

theorem patEq_bit_m (i : Nat) : (bitName "m" i).data =
    renderToks ([TokPat.lit false ['m', '_'], TokPat.idx i].map toksOfPat) := by
  simp [bitName, renderToks, toksOfPat, String.data_append]

theorem patEq_mulAccum1 (k i j : Nat) : (bitName (mulAccum1Name k i) j).data =
    renderToks ([TokPat.lit false "Mul_NBit_Accum".data, TokPat.lit true ['1'],
      TokPat.lit false ['_'], TokPat.idx k, TokPat.lit false ['_'], TokPat.idx i,
      TokPat.lit false ['_'], TokPat.idx j].map toksOfPat) := by
  simp [bitName, mulAccum1Name, renderToks, toksOfPat, String.data_append]

theorem patEq_mulAccum2 (k i j : Nat) : (bitName (mulAccum2Name k i) j).data =
    renderToks ([TokPat.lit false "Mul_NBit_Accum".data, TokPat.lit true ['2'],
      TokPat.lit false ['_'], TokPat.idx k, TokPat.lit false ['_'], TokPat.idx i,
      TokPat.lit false ['_'], TokPat.idx j].map toksOfPat) := by
  simp [bitName, mulAccum2Name, renderToks, toksOfPat, String.data_append]

theorem patEq_addCarry (k t : Nat) : (addCarryName k t).data =
    renderToks ([TokPat.lit false "AddNBit_".data, TokPat.idx k,
      TokPat.lit false "_carry_out_".data, TokPat.idx t].map toksOfPat) := by
  simp [addCarryName, renderToks, toksOfPat, String.data_append]

theorem patEq_mulCarry (k i : Nat) : (mulCarryName k i).data =
    renderToks ([TokPat.lit false "Mul_NBit_CarryOut_".data, TokPat.idx k,
      TokPat.lit false ['_'], TokPat.idx i].map toksOfPat) := by
  simp [mulCarryName, renderToks, toksOfPat, String.data_append]

theorem patEq_dmAccum (k i : Nat) : (bitName (dmAccumName k) i).data =
    renderToks ([TokPat.lit false "DivMod_NBit_Accum_".data, TokPat.idx k,
      TokPat.lit false ['_'], TokPat.idx i].map toksOfPat) := by
  simp [bitName, dmAccumName, renderToks, toksOfPat, String.data_append]

theorem patEq_dmMulOv (k : Nat) : (dmMulOvName k).data =
    renderToks ([TokPat.lit false "DivMode_NBit_MulOverflow_".data,
      TokPat.idx k].map toksOfPat) := by
  simp [dmMulOvName, renderToks, toksOfPat, String.data_append]

theorem patEq_dmAddOv (k : Nat) : (dmAddOvName k).data =
    renderToks ([TokPat.lit false "DivMode_NBit_AddOverflow_".data,
      TokPat.idx k].map toksOfPat) := by
  simp [dmAddOvName, renderToks, toksOfPat, String.data_append]

theorem patEq_ltEq (k i : Nat) : (ltEqName k i).data =
    renderToks ([TokPat.lit false "LessThan_NBit_Equals_".data, TokPat.idx k,
      TokPat.lit false ['_'], TokPat.idx i].map toksOfPat) := by
  simp [ltEqName, renderToks, toksOfPat, String.data_append]

theorem patEq_ltLess (k i : Nat) : (ltLessName k i).data =
    renderToks ([TokPat.lit false "LessThan_NBit_Less_".data, TokPat.idx k,
      TokPat.lit false ['_'], TokPat.idx i].map toksOfPat) := by
  simp [ltLessName, renderToks, toksOfPat, String.data_append]

theorem patEq_ltAccum (k i : Nat) : (ltAccumName k i).data =
    renderToks ([TokPat.lit false "LessThan_NBit_EqualAccum_".data, TokPat.idx k,
      TokPat.lit false ['_'], TokPat.idx i].map toksOfPat) := by
  simp [ltAccumName, renderToks, toksOfPat, String.data_append]

theorem patEq_ltRes (k i : Nat) : (ltResName k i).data =
    renderToks ([TokPat.lit false "LessThan_NBit_Result_".data, TokPat.idx k,
      TokPat.lit false ['_'], TokPat.idx i].map toksOfPat) := by
  simp [ltResName, renderToks, toksOfPat, String.data_append]

/-- Distinct-family names are distinct strings. -/
theorem name_ne_of_pats {s₁ s₂ : String} {l₁ l₂ : List TokPat}
    (e₁ : s₁.data = renderToks (l₁.map toksOfPat))
    (e₂ : s₂.data = renderToks (l₂.map toksOfPat))
    (h₁ : patOkB l₁ = true) (h₂ : patOkB l₂ = true)
    (hne : l₁.map patSkel ≠ l₂.map patSkel) : s₁ ≠ s₂ := by
  intro h
  apply hne
  apply pat_skel_eq h₁ h₂
  rw [← e₁, ← e₂, h]

/-- Equal names have equal token lists. -/
theorem name_toks_of_eq {s₁ s₂ : String} {l₁ l₂ : List TokPat}
    (e₁ : s₁.data = renderToks (l₁.map toksOfPat))
    (e₂ : s₂.data = renderToks (l₂.map toksOfPat))
    (h₁ : patOkB l₁ = true) (h₂ : patOkB l₂ = true) (h : s₁ = s₂) :
    l₁.map toksOfPat = l₂.map toksOfPat := by
  apply pat_toks_eq h₁ h₂
  rw [← e₁, ← e₂, h]

/-- Total assignment lookup with default `false`. -/
def lookupB : List (String × Bool) → String → Bool
  | [], _ => false
  | (k, v) :: rest, x => if x = k then v else lookupB rest x

theorem lookupB_append_skip {l₁ l₂ : List (String × Bool)} {x : String}
    (h : ∀ p ∈ l₁, p.1 ≠ x) : lookupB (l₁ ++ l₂) x = lookupB l₂ x := by
  induction l₁ with
  | nil => rfl
  | cons p rest ih =>
    obtain ⟨k, v⟩ := p
    rw [List.cons_append, lookupB,
      if_neg fun he => h (k, v) (List.mem_cons_self _ _) he.symm]
    exact ih fun q hq => h q (List.mem_cons_of_mem _ hq)

/-- Looking up an index-mapped key section at an in-range index. -/
theorem lookupB_map_range {g : Nat → String} {f : Nat → Bool} {m i : Nat}
    {l : List (String × Bool)}
    (hg : ∀ x < m, ∀ y < m, g x = g y → x = y) (hi : i < m) :
    lookupB (((List.range m).map fun j => (g j, f j)) ++ l) (g i) = f i := by
  have key : ∀ (js : List Nat), (∀ j ∈ js, j < m) → i ∈ js →
      lookupB ((js.map fun j => (g j, f j)) ++ l) (g i) = f i := by
    intro js
    induction js with
    | nil =>
      intro _ hmem
      cases hmem
    | cons j rest ih =>
      intro hbound hmem
      rw [List.map_cons, List.cons_append, lookupB]
      by_cases he : g i = g j
      · have hij : i = j :=
          hg i (hbound i hmem) j (hbound j (List.mem_cons_self _ _)) he
        rw [if_pos he, hij]
      · rw [if_neg he]
        have hir : i ∈ rest := by
          rcases List.mem_cons.mp hmem with h | h
          · exact absurd (congrArg g h) he
          · exact h
        exact ih (fun q hq => hbound q (List.mem_cons_of_mem _ hq)) hir
  exact key (List.range m) (fun j hj => List.mem_range.mp hj)
    (List.mem_range.mpr hi)

/-- All keys of an index-mapped section differ from `x`. -/
theorem keys_ne_map_range {g : Nat → String} {f : Nat → Bool} {m : Nat}
    {x : String} (h : ∀ j < m, g j ≠ x) :
    ∀ p ∈ (List.range m).map fun j => (g j, f j), p.1 ≠ x := by
  intro p hp
  obtain ⟨j, hj, rfl⟩ := List.mem_map.mp hp
  exact h j (List.mem_range.mp hj)

/-- All keys of a doubly-indexed section differ from `x`. -/
theorem keys_ne_flatMap_range {g : Nat → Nat → String} {f : Nat → Nat → Bool}
    {m₁ m₂ : Nat} {x : String} (h : ∀ i < m₁, ∀ j < m₂, g i j ≠ x) :
    ∀ p ∈ (List.range m₁).flatMap
      fun i => (List.range m₂).map fun j => (g i j, f i j), p.1 ≠ x := by
  intro p hp
  obtain ⟨i, hi, hpin⟩ := List.mem_flatMap.mp hp
  obtain ⟨j, hj, rfl⟩ := List.mem_map.mp hpin
  exact h i (List.mem_range.mp hi) j (List.mem_range.mp hj)

/-- Looking up a doubly-indexed key section at in-range indices. -/
theorem lookupB_flatMap_range {g : Nat → Nat → String} {f : Nat → Nat → Bool}
    {m₁ m₂ i j : Nat} {l : List (String × Bool)}
    (hg : ∀ x₁ < m₁, ∀ y₁ < m₂, ∀ x₂ < m₁, ∀ y₂ < m₂,
      g x₁ y₁ = g x₂ y₂ → x₁ = x₂ ∧ y₁ = y₂)
    (hi : i < m₁) (hj : j < m₂) :
    lookupB (((List.range m₁).flatMap
      fun i => (List.range m₂).map fun j => (g i j, f i j)) ++ l) (g i j) =
      f i j := by
  have key : ∀ (is : List Nat), (∀ q ∈ is, q < m₁) → i ∈ is →
      lookupB ((is.flatMap
        fun i => (List.range m₂).map fun j => (g i j, f i j)) ++ l) (g i j) =
        f i j := by
    intro is
    induction is with
    | nil =>
      intro _ hmem
      cases hmem
    | cons q rest ih =>
      intro hbound hmem
      rw [List.flatMap_cons, List.append_assoc]
      by_cases hq : q = i
      · subst hq
        exact lookupB_map_range (fun x hx y hy he =>
          (hg q hi x hx q hi y hy he).2) hj
      · rw [lookupB_append_skip (keys_ne_map_range fun t ht he =>
          hq (hg q (hbound q (List.mem_cons_self _ _)) t ht i hi j hj he).1)]
        have hir : i ∈ rest := by
          rcases List.mem_cons.mp hmem with h | h
          · exact absurd h.symm hq
          · exact h
        exact ih (fun t ht => hbound t (List.mem_cons_of_mem _ ht)) hir
  exact key (List.range m₁) (fun q hq => List.mem_range.mp hq)
    (List.mem_range.mpr hi)

theorem inj_bit_a {x y : Nat} (h : bitName "a" x = bitName "a" y) : x = y := by
  have h2 := name_toks_of_eq (patEq_bit_a x) (patEq_bit_a y) (by rfl) (by rfl) h
  simp only [List.map_cons, List.map_nil, toksOfPat, List.cons.injEq,
    Prod.mk.injEq, and_true, true_and] at h2
  exact Z_data_inj h2

theorem inj_bit_b {x y : Nat} (h : bitName "b" x = bitName "b" y) : x = y := by
  have h2 := name_toks_of_eq (patEq_bit_b x) (patEq_bit_b y) (by rfl) (by rfl) h
  simp only [List.map_cons, List.map_nil, toksOfPat, List.cons.injEq,
    Prod.mk.injEq, and_true, true_and] at h2
  exact Z_data_inj h2

theorem inj_bit_d {x y : Nat} (h : bitName "d" x = bitName "d" y) : x = y := by
  have h2 := name_toks_of_eq (patEq_bit_d x) (patEq_bit_d y) (by rfl) (by rfl) h
  simp only [List.map_cons, List.map_nil, toksOfPat, List.cons.injEq,
    Prod.mk.injEq, and_true, true_and] at h2
  exact Z_data_inj h2

theorem inj_bit_m {x y : Nat} (h : bitName "m" x = bitName "m" y) : x = y := by
  have h2 := name_toks_of_eq (patEq_bit_m x) (patEq_bit_m y) (by rfl) (by rfl) h
  simp only [List.map_cons, List.map_nil, toksOfPat, List.cons.injEq,
    Prod.mk.injEq, and_true, true_and] at h2
  exact Z_data_inj h2

theorem inj_addCarry {k₁ t₁ k₂ t₂ : Nat}
    (h : addCarryName k₁ t₁ = addCarryName k₂ t₂) : k₁ = k₂ ∧ t₁ = t₂ := by
  have h2 := name_toks_of_eq (patEq_addCarry k₁ t₁) (patEq_addCarry k₂ t₂)
    (by rfl) (by rfl) h
  simp only [List.map_cons, List.map_nil, toksOfPat, List.cons.injEq,
    Prod.mk.injEq, and_true, true_and] at h2
  exact ⟨Z_data_inj h2.1, Z_data_inj h2.2⟩

theorem inj_mulCarry {k₁ i₁ k₂ i₂ : Nat}
    (h : mulCarryName k₁ i₁ = mulCarryName k₂ i₂) : k₁ = k₂ ∧ i₁ = i₂ := by
  have h2 := name_toks_of_eq (patEq_mulCarry k₁ i₁) (patEq_mulCarry k₂ i₂)
    (by rfl) (by rfl) h
  simp only [List.map_cons, List.map_nil, toksOfPat, List.cons.injEq,
    Prod.mk.injEq, and_true, true_and] at h2
  exact ⟨Z_data_inj h2.1, Z_data_inj h2.2⟩

theorem inj_dmAccum {k₁ i₁ k₂ i₂ : Nat}
    (h : bitName (dmAccumName k₁) i₁ = bitName (dmAccumName k₂) i₂) :
    k₁ = k₂ ∧ i₁ = i₂ := by
  have h2 := name_toks_of_eq (patEq_dmAccum k₁ i₁) (patEq_dmAccum k₂ i₂)
    (by rfl) (by rfl) h
  simp only [List.map_cons, List.map_nil, toksOfPat, List.cons.injEq,
    Prod.mk.injEq, and_true, true_and] at h2
  exact ⟨Z_data_inj h2.1, Z_data_inj h2.2⟩

theorem inj_ltEq {k₁ i₁ k₂ i₂ : Nat}
    (h : ltEqName k₁ i₁ = ltEqName k₂ i₂) : k₁ = k₂ ∧ i₁ = i₂ := by
  have h2 := name_toks_of_eq (patEq_ltEq k₁ i₁) (patEq_ltEq k₂ i₂)
    (by rfl) (by rfl) h
  simp only [List.map_cons, List.map_nil, toksOfPat, List.cons.injEq,
    Prod.mk.injEq, and_true, true_and] at h2
  exact ⟨Z_data_inj h2.1, Z_data_inj h2.2⟩

theorem inj_ltLess {k₁ i₁ k₂ i₂ : Nat}
    (h : ltLessName k₁ i₁ = ltLessName k₂ i₂) : k₁ = k₂ ∧ i₁ = i₂ := by
  have h2 := name_toks_of_eq (patEq_ltLess k₁ i₁) (patEq_ltLess k₂ i₂)
    (by rfl) (by rfl) h
  simp only [List.map_cons, List.map_nil, toksOfPat, List.cons.injEq,
    Prod.mk.injEq, and_true, true_and] at h2
  exact ⟨Z_data_inj h2.1, Z_data_inj h2.2⟩

theorem inj_ltAccum {k₁ i₁ k₂ i₂ : Nat}
    (h : ltAccumName k₁ i₁ = ltAccumName k₂ i₂) : k₁ = k₂ ∧ i₁ = i₂ := by
  have h2 := name_toks_of_eq (patEq_ltAccum k₁ i₁) (patEq_ltAccum k₂ i₂)
    (by rfl) (by rfl) h
  simp only [List.map_cons, List.map_nil, toksOfPat, List.cons.injEq,
    Prod.mk.injEq, and_true, true_and] at h2
  exact ⟨Z_data_inj h2.1, Z_data_inj h2.2⟩

theorem inj_ltRes {k₁ i₁ k₂ i₂ : Nat}
    (h : ltResName k₁ i₁ = ltResName k₂ i₂) : k₁ = k₂ ∧ i₁ = i₂ := by
  have h2 := name_toks_of_eq (patEq_ltRes k₁ i₁) (patEq_ltRes k₂ i₂)
    (by rfl) (by rfl) h
  simp only [List.map_cons, List.map_nil, toksOfPat, List.cons.injEq,
    Prod.mk.injEq, and_true, true_and] at h2
  exact ⟨Z_data_inj h2.1, Z_data_inj h2.2⟩

theorem inj_mulAccum1 {k₁ i₁ j₁ k₂ i₂ j₂ : Nat}
    (h : bitName (mulAccum1Name k₁ i₁) j₁ = bitName (mulAccum1Name k₂ i₂) j₂) :
    k₁ = k₂ ∧ i₁ = i₂ ∧ j₁ = j₂ := by
  have h2 := name_toks_of_eq (patEq_mulAccum1 k₁ i₁ j₁) (patEq_mulAccum1 k₂ i₂ j₂)
    (by rfl) (by rfl) h
  simp only [List.map_cons, List.map_nil, toksOfPat, List.cons.injEq,
    Prod.mk.injEq, and_true, true_and] at h2
  exact ⟨Z_data_inj h2.1, Z_data_inj h2.2.1, Z_data_inj h2.2.2⟩

theorem inj_mulAccum2 {k₁ i₁ j₁ k₂ i₂ j₂ : Nat}
    (h : bitName (mulAccum2Name k₁ i₁) j₁ = bitName (mulAccum2Name k₂ i₂) j₂) :
    k₁ = k₂ ∧ i₁ = i₂ ∧ j₁ = j₂ := by
  have h2 := name_toks_of_eq (patEq_mulAccum2 k₁ i₁ j₁) (patEq_mulAccum2 k₂ i₂ j₂)
    (by rfl) (by rfl) h
  simp only [List.map_cons, List.map_nil, toksOfPat, List.cons.injEq,
    Prod.mk.injEq, and_true, true_and] at h2
  exact ⟨Z_data_inj h2.1, Z_data_inj h2.2.1, Z_data_inj h2.2.2⟩

theorem lookupB_cons_skip {k : String} {v : Bool} {rest : List (String × Bool)}
    {x : String} (h : k ≠ x) : lookupB ((k, v) :: rest) x = lookupB rest x := by
  rw [lookupB, if_neg fun he => h he.symm]

/-- Wire values of a satisfied `DivMod_NBit("a","b","d","m",n)` instance with
input values `A`, `B`, counters starting from zero. -/
def divmodModel (A B n : Nat) : List (String × Bool) :=
  ((List.range n).map fun i => (bitName "a" i, A.testBit i)) ++
  ((List.range n).map fun i => (bitName "b" i, B.testBit i)) ++
  ((List.range n).map fun i => (bitName "d" i, (A / B).testBit i)) ++
  ((List.range n).map fun i => (bitName "m" i, (A % B).testBit i)) ++
  ((List.range n).flatMap fun i => (List.range (n * 2)).map fun j =>
    (bitName (mulAccum1Name 1 i) j,
      (B * ((A / B).testBit i).toNat * 2 ^ i).testBit j)) ++
  ((List.range (n + 1)).flatMap fun i => (List.range (n * 2)).map fun j =>
    (bitName (mulAccum2Name 1 i) j, (B * (A / B % 2 ^ i)).testBit j)) ++
  ((List.range n).flatMap fun i => (List.range (n * 2 + 1)).map fun t =>
    (addCarryName (i + 1) t,
      carryB (B * ((A / B).testBit i).toNat * 2 ^ i) (B * (A / B % 2 ^ i)) t)) ++
  ((List.range (n + 1)).map fun t =>
    (addCarryName (n + 1) t, carryB (B * (A / B)) (A % B) t)) ++
  ((List.range n).map fun i => (mulCarryName 1 i,
    carryB (B * ((A / B).testBit i).toNat * 2 ^ i) (B * (A / B % 2 ^ i)) (n * 2))) ++
  ((List.range n).map fun i =>
    (bitName (dmAccumName 1) i, (B * (A / B)).testBit i)) ++
  [(dmMulOvName 1, false)] ++
  [(dmAddOvName 1, false)] ++
  ((List.range n).map fun i =>
    (ltEqName 1 i, ((A % B).testBit i == B.testBit i))) ++
  ((List.range n).map fun i =>
    (ltLessName 1 i, (!(A % B).testBit i && B.testBit i))) ++
  ((List.range (n + 1)).map fun i =>
    (ltAccumName 1 i, decide (A % B / 2 ^ i = B / 2 ^ i))) ++
  ((List.range n).map fun i => (ltResName 1 i,
    decide (A % B / 2 ^ (i + 1) = B / 2 ^ (i + 1)) &&
      (!(A % B).testBit i && B.testBit i)))

theorem lookupB_map_range_last {g : Nat → String} {f : Nat → Bool} {m i : Nat}
    (hg : ∀ x < m, ∀ y < m, g x = g y → x = y) (hi : i < m) :
    lookupB ((List.range m).map fun j => (g j, f j)) (g i) = f i := by
  have h : lookupB (((List.range m).map fun j => (g j, f j)) ++ []) (g i) = f i :=
    lookupB_map_range hg hi
  rwa [List.append_nil] at h

theorem ne_bit_a_bit_b (a0 b0 : Nat) : (bitName "a" a0) ≠ (bitName "b" b0) :=
  name_ne_of_pats (patEq_bit_a a0) (patEq_bit_b b0) (by rfl) (by rfl)
    (by simp only [List.map_cons, List.map_nil, patSkel]; decide)

theorem ne_bit_a_bit_d (a0 b0 : Nat) : (bitName "a" a0) ≠ (bitName "d" b0) :=
  name_ne_of_pats (patEq_bit_a a0) (patEq_bit_d b0) (by rfl) (by rfl)
    (by simp only [List.map_cons, List.map_nil, patSkel]; decide)

theorem ne_bit_a_bit_m (a0 b0 : Nat) : (bitName "a" a0) ≠ (bitName "m" b0) :=
  name_ne_of_pats (patEq_bit_a a0) (patEq_bit_m b0) (by rfl) (by rfl)
    (by simp only [List.map_cons, List.map_nil, patSkel]; decide)

theorem ne_bit_a_mulAccum1 (a0 b0 b1 b2 : Nat) : (bitName "a" a0) ≠ (bitName (mulAccum1Name b0 b1) b2) :=
  name_ne_of_pats (patEq_bit_a a0) (patEq_mulAccum1 b0 b1 b2) (by rfl) (by rfl)
    (by simp only [List.map_cons, List.map_nil, patSkel]; decide)

theorem ne_bit_a_mulAccum2 (a0 b0 b1 b2 : Nat) : (bitName "a" a0) ≠ (bitName (mulAccum2Name b0 b1) b2) :=
  name_ne_of_pats (patEq_bit_a a0) (patEq_mulAccum2 b0 b1 b2) (by rfl) (by rfl)
    (by simp only [List.map_cons, List.map_nil, patSkel]; decide)

theorem ne_bit_a_addCarry (a0 b0 b1 : Nat) : (bitName "a" a0) ≠ (addCarryName b0 b1) :=
  name_ne_of_pats (patEq_bit_a a0) (patEq_addCarry b0 b1) (by rfl) (by rfl)
    (by simp only [List.map_cons, List.map_nil, patSkel]; decide)

theorem ne_bit_a_mulCarry (a0 b0 b1 : Nat) : (bitName "a" a0) ≠ (mulCarryName b0 b1) :=
  name_ne_of_pats (patEq_bit_a a0) (patEq_mulCarry b0 b1) (by rfl) (by rfl)
    (by simp only [List.map_cons, List.map_nil, patSkel]; decide)

theorem ne_bit_a_dmAccum (a0 b0 b1 : Nat) : (bitName "a" a0) ≠ (bitName (dmAccumName b0) b1) :=
  name_ne_of_pats (patEq_bit_a a0) (patEq_dmAccum b0 b1) (by rfl) (by rfl)
    (by simp only [List.map_cons, List.map_nil, patSkel]; decide)

theorem ne_bit_a_dmMulOv (a0 b0 : Nat) : (bitName "a" a0) ≠ (dmMulOvName b0) :=
  name_ne_of_pats (patEq_bit_a a0) (patEq_dmMulOv b0) (by rfl) (by rfl)
    (by simp only [List.map_cons, List.map_nil, patSkel]; decide)

theorem ne_bit_a_dmAddOv (a0 b0 : Nat) : (bitName "a" a0) ≠ (dmAddOvName b0) :=
  name_ne_of_pats (patEq_bit_a a0) (patEq_dmAddOv b0) (by rfl) (by rfl)
    (by simp only [List.map_cons, List.map_nil, patSkel]; decide)

theorem ne_bit_a_ltEq (a0 b0 b1 : Nat) : (bitName "a" a0) ≠ (ltEqName b0 b1) :=
  name_ne_of_pats (patEq_bit_a a0) (patEq_ltEq b0 b1) (by rfl) (by rfl)
    (by simp only [List.map_cons, List.map_nil, patSkel]; decide)

theorem ne_bit_a_ltLess (a0 b0 b1 : Nat) : (bitName "a" a0) ≠ (ltLessName b0 b1) :=
  name_ne_of_pats (patEq_bit_a a0) (patEq_ltLess b0 b1) (by rfl) (by rfl)
    (by simp only [List.map_cons, List.map_nil, patSkel]; decide)

theorem ne_bit_a_ltAccum (a0 b0 b1 : Nat) : (bitName "a" a0) ≠ (ltAccumName b0 b1) :=
  name_ne_of_pats (patEq_bit_a a0) (patEq_ltAccum b0 b1) (by rfl) (by rfl)
    (by simp only [List.map_cons, List.map_nil, patSkel]; decide)

theorem ne_bit_a_ltRes (a0 b0 b1 : Nat) : (bitName "a" a0) ≠ (ltResName b0 b1) :=
  name_ne_of_pats (patEq_bit_a a0) (patEq_ltRes b0 b1) (by rfl) (by rfl)
    (by simp only [List.map_cons, List.map_nil, patSkel]; decide)

theorem ne_bit_b_bit_d (a0 b0 : Nat) : (bitName "b" a0) ≠ (bitName "d" b0) :=
  name_ne_of_pats (patEq_bit_b a0) (patEq_bit_d b0) (by rfl) (by rfl)
    (by simp only [List.map_cons, List.map_nil, patSkel]; decide)

theorem ne_bit_b_bit_m (a0 b0 : Nat) : (bitName "b" a0) ≠ (bitName "m" b0) :=
  name_ne_of_pats (patEq_bit_b a0) (patEq_bit_m b0) (by rfl) (by rfl)
    (by simp only [List.map_cons, List.map_nil, patSkel]; decide)

theorem ne_bit_b_mulAccum1 (a0 b0 b1 b2 : Nat) : (bitName "b" a0) ≠ (bitName (mulAccum1Name b0 b1) b2) :=
  name_ne_of_pats (patEq_bit_b a0) (patEq_mulAccum1 b0 b1 b2) (by rfl) (by rfl)
    (by simp only [List.map_cons, List.map_nil, patSkel]; decide)

theorem ne_bit_b_mulAccum2 (a0 b0 b1 b2 : Nat) : (bitName "b" a0) ≠ (bitName (mulAccum2Name b0 b1) b2) :=
  name_ne_of_pats (patEq_bit_b a0) (patEq_mulAccum2 b0 b1 b2) (by rfl) (by rfl)
    (by simp only [List.map_cons, List.map_nil, patSkel]; decide)

theorem ne_bit_b_addCarry (a0 b0 b1 : Nat) : (bitName "b" a0) ≠ (addCarryName b0 b1) :=
  name_ne_of_pats (patEq_bit_b a0) (patEq_addCarry b0 b1) (by rfl) (by rfl)
    (by simp only [List.map_cons, List.map_nil, patSkel]; decide)

theorem ne_bit_b_mulCarry (a0 b0 b1 : Nat) : (bitName "b" a0) ≠ (mulCarryName b0 b1) :=
  name_ne_of_pats (patEq_bit_b a0) (patEq_mulCarry b0 b1) (by rfl) (by rfl)
    (by simp only [List.map_cons, List.map_nil, patSkel]; decide)

theorem ne_bit_b_dmAccum (a0 b0 b1 : Nat) : (bitName "b" a0) ≠ (bitName (dmAccumName b0) b1) :=
  name_ne_of_pats (patEq_bit_b a0) (patEq_dmAccum b0 b1) (by rfl) (by rfl)
    (by simp only [List.map_cons, List.map_nil, patSkel]; decide)

theorem ne_bit_b_dmMulOv (a0 b0 : Nat) : (bitName "b" a0) ≠ (dmMulOvName b0) :=
  name_ne_of_pats (patEq_bit_b a0) (patEq_dmMulOv b0) (by rfl) (by rfl)
    (by simp only [List.map_cons, List.map_nil, patSkel]; decide)

theorem ne_bit_b_dmAddOv (a0 b0 : Nat) : (bitName "b" a0) ≠ (dmAddOvName b0) :=
  name_ne_of_pats (patEq_bit_b a0) (patEq_dmAddOv b0) (by rfl) (by rfl)
    (by simp only [List.map_cons, List.map_nil, patSkel]; decide)

theorem ne_bit_b_ltEq (a0 b0 b1 : Nat) : (bitName "b" a0) ≠ (ltEqName b0 b1) :=
  name_ne_of_pats (patEq_bit_b a0) (patEq_ltEq b0 b1) (by rfl) (by rfl)
    (by simp only [List.map_cons, List.map_nil, patSkel]; decide)

theorem ne_bit_b_ltLess (a0 b0 b1 : Nat) : (bitName "b" a0) ≠ (ltLessName b0 b1) :=
  name_ne_of_pats (patEq_bit_b a0) (patEq_ltLess b0 b1) (by rfl) (by rfl)
    (by simp only [List.map_cons, List.map_nil, patSkel]; decide)

theorem ne_bit_b_ltAccum (a0 b0 b1 : Nat) : (bitName "b" a0) ≠ (ltAccumName b0 b1) :=
  name_ne_of_pats (patEq_bit_b a0) (patEq_ltAccum b0 b1) (by rfl) (by rfl)
    (by simp only [List.map_cons, List.map_nil, patSkel]; decide)

theorem ne_bit_b_ltRes (a0 b0 b1 : Nat) : (bitName "b" a0) ≠ (ltResName b0 b1) :=
  name_ne_of_pats (patEq_bit_b a0) (patEq_ltRes b0 b1) (by rfl) (by rfl)
    (by simp only [List.map_cons, List.map_nil, patSkel]; decide)

theorem ne_bit_d_bit_m (a0 b0 : Nat) : (bitName "d" a0) ≠ (bitName "m" b0) :=
  name_ne_of_pats (patEq_bit_d a0) (patEq_bit_m b0) (by rfl) (by rfl)
    (by simp only [List.map_cons, List.map_nil, patSkel]; decide)

theorem ne_bit_d_mulAccum1 (a0 b0 b1 b2 : Nat) : (bitName "d" a0) ≠ (bitName (mulAccum1Name b0 b1) b2) :=
  name_ne_of_pats (patEq_bit_d a0) (patEq_mulAccum1 b0 b1 b2) (by rfl) (by rfl)
    (by simp only [List.map_cons, List.map_nil, patSkel]; decide)

theorem ne_bit_d_mulAccum2 (a0 b0 b1 b2 : Nat) : (bitName "d" a0) ≠ (bitName (mulAccum2Name b0 b1) b2) :=
  name_ne_of_pats (patEq_bit_d a0) (patEq_mulAccum2 b0 b1 b2) (by rfl) (by rfl)
    (by simp only [List.map_cons, List.map_nil, patSkel]; decide)

theorem ne_bit_d_addCarry (a0 b0 b1 : Nat) : (bitName "d" a0) ≠ (addCarryName b0 b1) :=
  name_ne_of_pats (patEq_bit_d a0) (patEq_addCarry b0 b1) (by rfl) (by rfl)
    (by simp only [List.map_cons, List.map_nil, patSkel]; decide)

theorem ne_bit_d_mulCarry (a0 b0 b1 : Nat) : (bitName "d" a0) ≠ (mulCarryName b0 b1) :=
  name_ne_of_pats (patEq_bit_d a0) (patEq_mulCarry b0 b1) (by rfl) (by rfl)
    (by simp only [List.map_cons, List.map_nil, patSkel]; decide)

theorem ne_bit_d_dmAccum (a0 b0 b1 : Nat) : (bitName "d" a0) ≠ (bitName (dmAccumName b0) b1) :=
  name_ne_of_pats (patEq_bit_d a0) (patEq_dmAccum b0 b1) (by rfl) (by rfl)
    (by simp only [List.map_cons, List.map_nil, patSkel]; decide)

theorem ne_bit_d_dmMulOv (a0 b0 : Nat) : (bitName "d" a0) ≠ (dmMulOvName b0) :=
  name_ne_of_pats (patEq_bit_d a0) (patEq_dmMulOv b0) (by rfl) (by rfl)
    (by simp only [List.map_cons, List.map_nil, patSkel]; decide)

theorem ne_bit_d_dmAddOv (a0 b0 : Nat) : (bitName "d" a0) ≠ (dmAddOvName b0) :=
  name_ne_of_pats (patEq_bit_d a0) (patEq_dmAddOv b0) (by rfl) (by rfl)
    (by simp only [List.map_cons, List.map_nil, patSkel]; decide)

theorem ne_bit_d_ltEq (a0 b0 b1 : Nat) : (bitName "d" a0) ≠ (ltEqName b0 b1) :=
  name_ne_of_pats (patEq_bit_d a0) (patEq_ltEq b0 b1) (by rfl) (by rfl)
    (by simp only [List.map_cons, List.map_nil, patSkel]; decide)

theorem ne_bit_d_ltLess (a0 b0 b1 : Nat) : (bitName "d" a0) ≠ (ltLessName b0 b1) :=
  name_ne_of_pats (patEq_bit_d a0) (patEq_ltLess b0 b1) (by rfl) (by rfl)
    (by simp only [List.map_cons, List.map_nil, patSkel]; decide)

theorem ne_bit_d_ltAccum (a0 b0 b1 : Nat) : (bitName "d" a0) ≠ (ltAccumName b0 b1) :=
  name_ne_of_pats (patEq_bit_d a0) (patEq_ltAccum b0 b1) (by rfl) (by rfl)
    (by simp only [List.map_cons, List.map_nil, patSkel]; decide)

theorem ne_bit_d_ltRes (a0 b0 b1 : Nat) : (bitName "d" a0) ≠ (ltResName b0 b1) :=
  name_ne_of_pats (patEq_bit_d a0) (patEq_ltRes b0 b1) (by rfl) (by rfl)
    (by simp only [List.map_cons, List.map_nil, patSkel]; decide)

theorem ne_bit_m_mulAccum1 (a0 b0 b1 b2 : Nat) : (bitName "m" a0) ≠ (bitName (mulAccum1Name b0 b1) b2) :=
  name_ne_of_pats (patEq_bit_m a0) (patEq_mulAccum1 b0 b1 b2) (by rfl) (by rfl)
    (by simp only [List.map_cons, List.map_nil, patSkel]; decide)

theorem ne_bit_m_mulAccum2 (a0 b0 b1 b2 : Nat) : (bitName "m" a0) ≠ (bitName (mulAccum2Name b0 b1) b2) :=
  name_ne_of_pats (patEq_bit_m a0) (patEq_mulAccum2 b0 b1 b2) (by rfl) (by rfl)
    (by simp only [List.map_cons, List.map_nil, patSkel]; decide)

theorem ne_bit_m_addCarry (a0 b0 b1 : Nat) : (bitName "m" a0) ≠ (addCarryName b0 b1) :=
  name_ne_of_pats (patEq_bit_m a0) (patEq_addCarry b0 b1) (by rfl) (by rfl)
    (by simp only [List.map_cons, List.map_nil, patSkel]; decide)

theorem ne_bit_m_mulCarry (a0 b0 b1 : Nat) : (bitName "m" a0) ≠ (mulCarryName b0 b1) :=
  name_ne_of_pats (patEq_bit_m a0) (patEq_mulCarry b0 b1) (by rfl) (by rfl)
    (by simp only [List.map_cons, List.map_nil, patSkel]; decide)

theorem ne_bit_m_dmAccum (a0 b0 b1 : Nat) : (bitName "m" a0) ≠ (bitName (dmAccumName b0) b1) :=
  name_ne_of_pats (patEq_bit_m a0) (patEq_dmAccum b0 b1) (by rfl) (by rfl)
    (by simp only [List.map_cons, List.map_nil, patSkel]; decide)

theorem ne_bit_m_dmMulOv (a0 b0 : Nat) : (bitName "m" a0) ≠ (dmMulOvName b0) :=
  name_ne_of_pats (patEq_bit_m a0) (patEq_dmMulOv b0) (by rfl) (by rfl)
    (by simp only [List.map_cons, List.map_nil, patSkel]; decide)

theorem ne_bit_m_dmAddOv (a0 b0 : Nat) : (bitName "m" a0) ≠ (dmAddOvName b0) :=
  name_ne_of_pats (patEq_bit_m a0) (patEq_dmAddOv b0) (by rfl) (by rfl)
    (by simp only [List.map_cons, List.map_nil, patSkel]; decide)

theorem ne_bit_m_ltEq (a0 b0 b1 : Nat) : (bitName "m" a0) ≠ (ltEqName b0 b1) :=
  name_ne_of_pats (patEq_bit_m a0) (patEq_ltEq b0 b1) (by rfl) (by rfl)
    (by simp only [List.map_cons, List.map_nil, patSkel]; decide)

theorem ne_bit_m_ltLess (a0 b0 b1 : Nat) : (bitName "m" a0) ≠ (ltLessName b0 b1) :=
  name_ne_of_pats (patEq_bit_m a0) (patEq_ltLess b0 b1) (by rfl) (by rfl)
    (by simp only [List.map_cons, List.map_nil, patSkel]; decide)

theorem ne_bit_m_ltAccum (a0 b0 b1 : Nat) : (bitName "m" a0) ≠ (ltAccumName b0 b1) :=
  name_ne_of_pats (patEq_bit_m a0) (patEq_ltAccum b0 b1) (by rfl) (by rfl)
    (by simp only [List.map_cons, List.map_nil, patSkel]; decide)

theorem ne_bit_m_ltRes (a0 b0 b1 : Nat) : (bitName "m" a0) ≠ (ltResName b0 b1) :=
  name_ne_of_pats (patEq_bit_m a0) (patEq_ltRes b0 b1) (by rfl) (by rfl)
    (by simp only [List.map_cons, List.map_nil, patSkel]; decide)

theorem ne_mulAccum1_mulAccum2 (a0 a1 a2 b0 b1 b2 : Nat) : (bitName (mulAccum1Name a0 a1) a2) ≠ (bitName (mulAccum2Name b0 b1) b2) :=
  name_ne_of_pats (patEq_mulAccum1 a0 a1 a2) (patEq_mulAccum2 b0 b1 b2) (by rfl) (by rfl)
    (by simp only [List.map_cons, List.map_nil, patSkel]; decide)

theorem ne_mulAccum1_addCarry (a0 a1 a2 b0 b1 : Nat) : (bitName (mulAccum1Name a0 a1) a2) ≠ (addCarryName b0 b1) :=
  name_ne_of_pats (patEq_mulAccum1 a0 a1 a2) (patEq_addCarry b0 b1) (by rfl) (by rfl)
    (by simp only [List.map_cons, List.map_nil, patSkel]; decide)

theorem ne_mulAccum1_mulCarry (a0 a1 a2 b0 b1 : Nat) : (bitName (mulAccum1Name a0 a1) a2) ≠ (mulCarryName b0 b1) :=
  name_ne_of_pats (patEq_mulAccum1 a0 a1 a2) (patEq_mulCarry b0 b1) (by rfl) (by rfl)
    (by simp only [List.map_cons, List.map_nil, patSkel]; decide)

theorem ne_mulAccum1_dmAccum (a0 a1 a2 b0 b1 : Nat) : (bitName (mulAccum1Name a0 a1) a2) ≠ (bitName (dmAccumName b0) b1) :=
  name_ne_of_pats (patEq_mulAccum1 a0 a1 a2) (patEq_dmAccum b0 b1) (by rfl) (by rfl)
    (by simp only [List.map_cons, List.map_nil, patSkel]; decide)

theorem ne_mulAccum1_dmMulOv (a0 a1 a2 b0 : Nat) : (bitName (mulAccum1Name a0 a1) a2) ≠ (dmMulOvName b0) :=
  name_ne_of_pats (patEq_mulAccum1 a0 a1 a2) (patEq_dmMulOv b0) (by rfl) (by rfl)
    (by simp only [List.map_cons, List.map_nil, patSkel]; decide)

theorem ne_mulAccum1_dmAddOv (a0 a1 a2 b0 : Nat) : (bitName (mulAccum1Name a0 a1) a2) ≠ (dmAddOvName b0) :=
  name_ne_of_pats (patEq_mulAccum1 a0 a1 a2) (patEq_dmAddOv b0) (by rfl) (by rfl)
    (by simp only [List.map_cons, List.map_nil, patSkel]; decide)

theorem ne_mulAccum1_ltEq (a0 a1 a2 b0 b1 : Nat) : (bitName (mulAccum1Name a0 a1) a2) ≠ (ltEqName b0 b1) :=
  name_ne_of_pats (patEq_mulAccum1 a0 a1 a2) (patEq_ltEq b0 b1) (by rfl) (by rfl)
    (by simp only [List.map_cons, List.map_nil, patSkel]; decide)

theorem ne_mulAccum1_ltLess (a0 a1 a2 b0 b1 : Nat) : (bitName (mulAccum1Name a0 a1) a2) ≠ (ltLessName b0 b1) :=
  name_ne_of_pats (patEq_mulAccum1 a0 a1 a2) (patEq_ltLess b0 b1) (by rfl) (by rfl)
    (by simp only [List.map_cons, List.map_nil, patSkel]; decide)

theorem ne_mulAccum1_ltAccum (a0 a1 a2 b0 b1 : Nat) : (bitName (mulAccum1Name a0 a1) a2) ≠ (ltAccumName b0 b1) :=
  name_ne_of_pats (patEq_mulAccum1 a0 a1 a2) (patEq_ltAccum b0 b1) (by rfl) (by rfl)
    (by simp only [List.map_cons, List.map_nil, patSkel]; decide)

theorem ne_mulAccum1_ltRes (a0 a1 a2 b0 b1 : Nat) : (bitName (mulAccum1Name a0 a1) a2) ≠ (ltResName b0 b1) :=
  name_ne_of_pats (patEq_mulAccum1 a0 a1 a2) (patEq_ltRes b0 b1) (by rfl) (by rfl)
    (by simp only [List.map_cons, List.map_nil, patSkel]; decide)

theorem ne_mulAccum2_addCarry (a0 a1 a2 b0 b1 : Nat) : (bitName (mulAccum2Name a0 a1) a2) ≠ (addCarryName b0 b1) :=
  name_ne_of_pats (patEq_mulAccum2 a0 a1 a2) (patEq_addCarry b0 b1) (by rfl) (by rfl)
    (by simp only [List.map_cons, List.map_nil, patSkel]; decide)

theorem ne_mulAccum2_mulCarry (a0 a1 a2 b0 b1 : Nat) : (bitName (mulAccum2Name a0 a1) a2) ≠ (mulCarryName b0 b1) :=
  name_ne_of_pats (patEq_mulAccum2 a0 a1 a2) (patEq_mulCarry b0 b1) (by rfl) (by rfl)
    (by simp only [List.map_cons, List.map_nil, patSkel]; decide)

theorem ne_mulAccum2_dmAccum (a0 a1 a2 b0 b1 : Nat) : (bitName (mulAccum2Name a0 a1) a2) ≠ (bitName (dmAccumName b0) b1) :=
  name_ne_of_pats (patEq_mulAccum2 a0 a1 a2) (patEq_dmAccum b0 b1) (by rfl) (by rfl)
    (by simp only [List.map_cons, List.map_nil, patSkel]; decide)

theorem ne_mulAccum2_dmMulOv (a0 a1 a2 b0 : Nat) : (bitName (mulAccum2Name a0 a1) a2) ≠ (dmMulOvName b0) :=
  name_ne_of_pats (patEq_mulAccum2 a0 a1 a2) (patEq_dmMulOv b0) (by rfl) (by rfl)
    (by simp only [List.map_cons, List.map_nil, patSkel]; decide)

theorem ne_mulAccum2_dmAddOv (a0 a1 a2 b0 : Nat) : (bitName (mulAccum2Name a0 a1) a2) ≠ (dmAddOvName b0) :=
  name_ne_of_pats (patEq_mulAccum2 a0 a1 a2) (patEq_dmAddOv b0) (by rfl) (by rfl)
    (by simp only [List.map_cons, List.map_nil, patSkel]; decide)

theorem ne_mulAccum2_ltEq (a0 a1 a2 b0 b1 : Nat) : (bitName (mulAccum2Name a0 a1) a2) ≠ (ltEqName b0 b1) :=
  name_ne_of_pats (patEq_mulAccum2 a0 a1 a2) (patEq_ltEq b0 b1) (by rfl) (by rfl)
    (by simp only [List.map_cons, List.map_nil, patSkel]; decide)

theorem ne_mulAccum2_ltLess (a0 a1 a2 b0 b1 : Nat) : (bitName (mulAccum2Name a0 a1) a2) ≠ (ltLessName b0 b1) :=
  name_ne_of_pats (patEq_mulAccum2 a0 a1 a2) (patEq_ltLess b0 b1) (by rfl) (by rfl)
    (by simp only [List.map_cons, List.map_nil, patSkel]; decide)

theorem ne_mulAccum2_ltAccum (a0 a1 a2 b0 b1 : Nat) : (bitName (mulAccum2Name a0 a1) a2) ≠ (ltAccumName b0 b1) :=
  name_ne_of_pats (patEq_mulAccum2 a0 a1 a2) (patEq_ltAccum b0 b1) (by rfl) (by rfl)
    (by simp only [List.map_cons, List.map_nil, patSkel]; decide)

theorem ne_mulAccum2_ltRes (a0 a1 a2 b0 b1 : Nat) : (bitName (mulAccum2Name a0 a1) a2) ≠ (ltResName b0 b1) :=
  name_ne_of_pats (patEq_mulAccum2 a0 a1 a2) (patEq_ltRes b0 b1) (by rfl) (by rfl)
    (by simp only [List.map_cons, List.map_nil, patSkel]; decide)

theorem ne_addCarry_mulCarry (a0 a1 b0 b1 : Nat) : (addCarryName a0 a1) ≠ (mulCarryName b0 b1) :=
  name_ne_of_pats (patEq_addCarry a0 a1) (patEq_mulCarry b0 b1) (by rfl) (by rfl)
    (by simp only [List.map_cons, List.map_nil, patSkel]; decide)

theorem ne_addCarry_dmAccum (a0 a1 b0 b1 : Nat) : (addCarryName a0 a1) ≠ (bitName (dmAccumName b0) b1) :=
  name_ne_of_pats (patEq_addCarry a0 a1) (patEq_dmAccum b0 b1) (by rfl) (by rfl)
    (by simp only [List.map_cons, List.map_nil, patSkel]; decide)

theorem ne_addCarry_dmMulOv (a0 a1 b0 : Nat) : (addCarryName a0 a1) ≠ (dmMulOvName b0) :=
  name_ne_of_pats (patEq_addCarry a0 a1) (patEq_dmMulOv b0) (by rfl) (by rfl)
    (by simp only [List.map_cons, List.map_nil, patSkel]; decide)

theorem ne_addCarry_dmAddOv (a0 a1 b0 : Nat) : (addCarryName a0 a1) ≠ (dmAddOvName b0) :=
  name_ne_of_pats (patEq_addCarry a0 a1) (patEq_dmAddOv b0) (by rfl) (by rfl)
    (by simp only [List.map_cons, List.map_nil, patSkel]; decide)

theorem ne_addCarry_ltEq (a0 a1 b0 b1 : Nat) : (addCarryName a0 a1) ≠ (ltEqName b0 b1) :=
  name_ne_of_pats (patEq_addCarry a0 a1) (patEq_ltEq b0 b1) (by rfl) (by rfl)
    (by simp only [List.map_cons, List.map_nil, patSkel]; decide)

theorem ne_addCarry_ltLess (a0 a1 b0 b1 : Nat) : (addCarryName a0 a1) ≠ (ltLessName b0 b1) :=
  name_ne_of_pats (patEq_addCarry a0 a1) (patEq_ltLess b0 b1) (by rfl) (by rfl)
    (by simp only [List.map_cons, List.map_nil, patSkel]; decide)

theorem ne_addCarry_ltAccum (a0 a1 b0 b1 : Nat) : (addCarryName a0 a1) ≠ (ltAccumName b0 b1) :=
  name_ne_of_pats (patEq_addCarry a0 a1) (patEq_ltAccum b0 b1) (by rfl) (by rfl)
    (by simp only [List.map_cons, List.map_nil, patSkel]; decide)

theorem ne_addCarry_ltRes (a0 a1 b0 b1 : Nat) : (addCarryName a0 a1) ≠ (ltResName b0 b1) :=
  name_ne_of_pats (patEq_addCarry a0 a1) (patEq_ltRes b0 b1) (by rfl) (by rfl)
    (by simp only [List.map_cons, List.map_nil, patSkel]; decide)

theorem ne_mulCarry_dmAccum (a0 a1 b0 b1 : Nat) : (mulCarryName a0 a1) ≠ (bitName (dmAccumName b0) b1) :=
  name_ne_of_pats (patEq_mulCarry a0 a1) (patEq_dmAccum b0 b1) (by rfl) (by rfl)
    (by simp only [List.map_cons, List.map_nil, patSkel]; decide)

theorem ne_mulCarry_dmMulOv (a0 a1 b0 : Nat) : (mulCarryName a0 a1) ≠ (dmMulOvName b0) :=
  name_ne_of_pats (patEq_mulCarry a0 a1) (patEq_dmMulOv b0) (by rfl) (by rfl)
    (by simp only [List.map_cons, List.map_nil, patSkel]; decide)

theorem ne_mulCarry_dmAddOv (a0 a1 b0 : Nat) : (mulCarryName a0 a1) ≠ (dmAddOvName b0) :=
  name_ne_of_pats (patEq_mulCarry a0 a1) (patEq_dmAddOv b0) (by rfl) (by rfl)
    (by simp only [List.map_cons, List.map_nil, patSkel]; decide)

theorem ne_mulCarry_ltEq (a0 a1 b0 b1 : Nat) : (mulCarryName a0 a1) ≠ (ltEqName b0 b1) :=
  name_ne_of_pats (patEq_mulCarry a0 a1) (patEq_ltEq b0 b1) (by rfl) (by rfl)
    (by simp only [List.map_cons, List.map_nil, patSkel]; decide)

theorem ne_mulCarry_ltLess (a0 a1 b0 b1 : Nat) : (mulCarryName a0 a1) ≠ (ltLessName b0 b1) :=
  name_ne_of_pats (patEq_mulCarry a0 a1) (patEq_ltLess b0 b1) (by rfl) (by rfl)
    (by simp only [List.map_cons, List.map_nil, patSkel]; decide)

theorem ne_mulCarry_ltAccum (a0 a1 b0 b1 : Nat) : (mulCarryName a0 a1) ≠ (ltAccumName b0 b1) :=
  name_ne_of_pats (patEq_mulCarry a0 a1) (patEq_ltAccum b0 b1) (by rfl) (by rfl)
    (by simp only [List.map_cons, List.map_nil, patSkel]; decide)

theorem ne_mulCarry_ltRes (a0 a1 b0 b1 : Nat) : (mulCarryName a0 a1) ≠ (ltResName b0 b1) :=
  name_ne_of_pats (patEq_mulCarry a0 a1) (patEq_ltRes b0 b1) (by rfl) (by rfl)
    (by simp only [List.map_cons, List.map_nil, patSkel]; decide)

theorem ne_dmAccum_dmMulOv (a0 a1 b0 : Nat) : (bitName (dmAccumName a0) a1) ≠ (dmMulOvName b0) :=
  name_ne_of_pats (patEq_dmAccum a0 a1) (patEq_dmMulOv b0) (by rfl) (by rfl)
    (by simp only [List.map_cons, List.map_nil, patSkel]; decide)

theorem ne_dmAccum_dmAddOv (a0 a1 b0 : Nat) : (bitName (dmAccumName a0) a1) ≠ (dmAddOvName b0) :=
  name_ne_of_pats (patEq_dmAccum a0 a1) (patEq_dmAddOv b0) (by rfl) (by rfl)
    (by simp only [List.map_cons, List.map_nil, patSkel]; decide)

theorem ne_dmAccum_ltEq (a0 a1 b0 b1 : Nat) : (bitName (dmAccumName a0) a1) ≠ (ltEqName b0 b1) :=
  name_ne_of_pats (patEq_dmAccum a0 a1) (patEq_ltEq b0 b1) (by rfl) (by rfl)
    (by simp only [List.map_cons, List.map_nil, patSkel]; decide)

theorem ne_dmAccum_ltLess (a0 a1 b0 b1 : Nat) : (bitName (dmAccumName a0) a1) ≠ (ltLessName b0 b1) :=
  name_ne_of_pats (patEq_dmAccum a0 a1) (patEq_ltLess b0 b1) (by rfl) (by rfl)
    (by simp only [List.map_cons, List.map_nil, patSkel]; decide)

theorem ne_dmAccum_ltAccum (a0 a1 b0 b1 : Nat) : (bitName (dmAccumName a0) a1) ≠ (ltAccumName b0 b1) :=
  name_ne_of_pats (patEq_dmAccum a0 a1) (patEq_ltAccum b0 b1) (by rfl) (by rfl)
    (by simp only [List.map_cons, List.map_nil, patSkel]; decide)

theorem ne_dmAccum_ltRes (a0 a1 b0 b1 : Nat) : (bitName (dmAccumName a0) a1) ≠ (ltResName b0 b1) :=
  name_ne_of_pats (patEq_dmAccum a0 a1) (patEq_ltRes b0 b1) (by rfl) (by rfl)
    (by simp only [List.map_cons, List.map_nil, patSkel]; decide)

theorem ne_dmMulOv_dmAddOv (a0 b0 : Nat) : (dmMulOvName a0) ≠ (dmAddOvName b0) :=
  name_ne_of_pats (patEq_dmMulOv a0) (patEq_dmAddOv b0) (by rfl) (by rfl)
    (by simp only [List.map_cons, List.map_nil, patSkel]; decide)

theorem ne_dmMulOv_ltEq (a0 b0 b1 : Nat) : (dmMulOvName a0) ≠ (ltEqName b0 b1) :=
  name_ne_of_pats (patEq_dmMulOv a0) (patEq_ltEq b0 b1) (by rfl) (by rfl)
    (by simp only [List.map_cons, List.map_nil, patSkel]; decide)

theorem ne_dmMulOv_ltLess (a0 b0 b1 : Nat) : (dmMulOvName a0) ≠ (ltLessName b0 b1) :=
  name_ne_of_pats (patEq_dmMulOv a0) (patEq_ltLess b0 b1) (by rfl) (by rfl)
    (by simp only [List.map_cons, List.map_nil, patSkel]; decide)

theorem ne_dmMulOv_ltAccum (a0 b0 b1 : Nat) : (dmMulOvName a0) ≠ (ltAccumName b0 b1) :=
  name_ne_of_pats (patEq_dmMulOv a0) (patEq_ltAccum b0 b1) (by rfl) (by rfl)
    (by simp only [List.map_cons, List.map_nil, patSkel]; decide)

theorem ne_dmMulOv_ltRes (a0 b0 b1 : Nat) : (dmMulOvName a0) ≠ (ltResName b0 b1) :=
  name_ne_of_pats (patEq_dmMulOv a0) (patEq_ltRes b0 b1) (by rfl) (by rfl)
    (by simp only [List.map_cons, List.map_nil, patSkel]; decide)

theorem ne_dmAddOv_ltEq (a0 b0 b1 : Nat) : (dmAddOvName a0) ≠ (ltEqName b0 b1) :=
  name_ne_of_pats (patEq_dmAddOv a0) (patEq_ltEq b0 b1) (by rfl) (by rfl)
    (by simp only [List.map_cons, List.map_nil, patSkel]; decide)

theorem ne_dmAddOv_ltLess (a0 b0 b1 : Nat) : (dmAddOvName a0) ≠ (ltLessName b0 b1) :=
  name_ne_of_pats (patEq_dmAddOv a0) (patEq_ltLess b0 b1) (by rfl) (by rfl)
    (by simp only [List.map_cons, List.map_nil, patSkel]; decide)

theorem ne_dmAddOv_ltAccum (a0 b0 b1 : Nat) : (dmAddOvName a0) ≠ (ltAccumName b0 b1) :=
  name_ne_of_pats (patEq_dmAddOv a0) (patEq_ltAccum b0 b1) (by rfl) (by rfl)
    (by simp only [List.map_cons, List.map_nil, patSkel]; decide)

theorem ne_dmAddOv_ltRes (a0 b0 b1 : Nat) : (dmAddOvName a0) ≠ (ltResName b0 b1) :=
  name_ne_of_pats (patEq_dmAddOv a0) (patEq_ltRes b0 b1) (by rfl) (by rfl)
    (by simp only [List.map_cons, List.map_nil, patSkel]; decide)

theorem ne_ltEq_ltLess (a0 a1 b0 b1 : Nat) : (ltEqName a0 a1) ≠ (ltLessName b0 b1) :=
  name_ne_of_pats (patEq_ltEq a0 a1) (patEq_ltLess b0 b1) (by rfl) (by rfl)
    (by simp only [List.map_cons, List.map_nil, patSkel]; decide)

theorem ne_ltEq_ltAccum (a0 a1 b0 b1 : Nat) : (ltEqName a0 a1) ≠ (ltAccumName b0 b1) :=
  name_ne_of_pats (patEq_ltEq a0 a1) (patEq_ltAccum b0 b1) (by rfl) (by rfl)
    (by simp only [List.map_cons, List.map_nil, patSkel]; decide)

theorem ne_ltEq_ltRes (a0 a1 b0 b1 : Nat) : (ltEqName a0 a1) ≠ (ltResName b0 b1) :=
  name_ne_of_pats (patEq_ltEq a0 a1) (patEq_ltRes b0 b1) (by rfl) (by rfl)
    (by simp only [List.map_cons, List.map_nil, patSkel]; decide)

theorem ne_ltLess_ltAccum (a0 a1 b0 b1 : Nat) : (ltLessName a0 a1) ≠ (ltAccumName b0 b1) :=
  name_ne_of_pats (patEq_ltLess a0 a1) (patEq_ltAccum b0 b1) (by rfl) (by rfl)
    (by simp only [List.map_cons, List.map_nil, patSkel]; decide)

theorem ne_ltLess_ltRes (a0 a1 b0 b1 : Nat) : (ltLessName a0 a1) ≠ (ltResName b0 b1) :=
  name_ne_of_pats (patEq_ltLess a0 a1) (patEq_ltRes b0 b1) (by rfl) (by rfl)
    (by simp only [List.map_cons, List.map_nil, patSkel]; decide)

theorem ne_ltAccum_ltRes (a0 a1 b0 b1 : Nat) : (ltAccumName a0 a1) ≠ (ltResName b0 b1) :=
  name_ne_of_pats (patEq_ltAccum a0 a1) (patEq_ltRes b0 b1) (by rfl) (by rfl)
    (by simp only [List.map_cons, List.map_nil, patSkel]; decide)

theorem dmLook_bit_a {A B n i : Nat} (hi : i < n) :
    lookupB (divmodModel A B n) (bitName "a" i) = A.testBit i := by
  rw [divmodModel]
  simp only [List.append_assoc, List.singleton_append, List.cons_append, List.nil_append]
  exact lookupB_map_range (fun x _ y _ he => inj_bit_a he) hi

theorem dmLook_bit_b {A B n i : Nat} (hi : i < n) :
    lookupB (divmodModel A B n) (bitName "b" i) = B.testBit i := by
  rw [divmodModel]
  simp only [List.append_assoc, List.singleton_append, List.cons_append, List.nil_append]
  rw [lookupB_append_skip (keys_ne_map_range fun q _ => ne_bit_a_bit_b q i)]
  exact lookupB_map_range (fun x _ y _ he => inj_bit_b he) hi

theorem dmLook_bit_d {A B n i : Nat} (hi : i < n) :
    lookupB (divmodModel A B n) (bitName "d" i) = (A / B).testBit i := by
  rw [divmodModel]
  simp only [List.append_assoc, List.singleton_append, List.cons_append, List.nil_append]
  rw [lookupB_append_skip (keys_ne_map_range fun q _ => ne_bit_a_bit_d q i)]
  rw [lookupB_append_skip (keys_ne_map_range fun q _ => ne_bit_b_bit_d q i)]
  exact lookupB_map_range (fun x _ y _ he => inj_bit_d he) hi

theorem dmLook_bit_m {A B n i : Nat} (hi : i < n) :
    lookupB (divmodModel A B n) (bitName "m" i) = (A % B).testBit i := by
  rw [divmodModel]
  simp only [List.append_assoc, List.singleton_append, List.cons_append, List.nil_append]
  rw [lookupB_append_skip (keys_ne_map_range fun q _ => ne_bit_a_bit_m q i)]
  rw [lookupB_append_skip (keys_ne_map_range fun q _ => ne_bit_b_bit_m q i)]
  rw [lookupB_append_skip (keys_ne_map_range fun q _ => ne_bit_d_bit_m q i)]
  exact lookupB_map_range (fun x _ y _ he => inj_bit_m he) hi

theorem dmLook_mulAccum1 {A B n i j : Nat} (hi : i < n) (hj : j < n * 2) :
    lookupB (divmodModel A B n) (bitName (mulAccum1Name 1 i) j) = (B * ((A / B).testBit i).toNat * 2 ^ i).testBit j := by
  rw [divmodModel]
  simp only [List.append_assoc, List.singleton_append, List.cons_append, List.nil_append]
  rw [lookupB_append_skip (keys_ne_map_range fun q _ => ne_bit_a_mulAccum1 q 1 i j)]
  rw [lookupB_append_skip (keys_ne_map_range fun q _ => ne_bit_b_mulAccum1 q 1 i j)]
  rw [lookupB_append_skip (keys_ne_map_range fun q _ => ne_bit_d_mulAccum1 q 1 i j)]
  rw [lookupB_append_skip (keys_ne_map_range fun q _ => ne_bit_m_mulAccum1 q 1 i j)]
  exact lookupB_flatMap_range (fun a _ b _ x _ y _ he => ⟨(inj_mulAccum1 he).2.1, (inj_mulAccum1 he).2.2⟩) hi hj

theorem dmLook_mulAccum2 {A B n i j : Nat} (hi : i < n + 1) (hj : j < n * 2) :
    lookupB (divmodModel A B n) (bitName (mulAccum2Name 1 i) j) = (B * (A / B % 2 ^ i)).testBit j := by
  rw [divmodModel]
  simp only [List.append_assoc, List.singleton_append, List.cons_append, List.nil_append]
  rw [lookupB_append_skip (keys_ne_map_range fun q _ => ne_bit_a_mulAccum2 q 1 i j)]
  rw [lookupB_append_skip (keys_ne_map_range fun q _ => ne_bit_b_mulAccum2 q 1 i j)]
  rw [lookupB_append_skip (keys_ne_map_range fun q _ => ne_bit_d_mulAccum2 q 1 i j)]
  rw [lookupB_append_skip (keys_ne_map_range fun q _ => ne_bit_m_mulAccum2 q 1 i j)]
  rw [lookupB_append_skip (keys_ne_flatMap_range fun q _ r _ => ne_mulAccum1_mulAccum2 1 q r 1 i j)]
  exact lookupB_flatMap_range (fun a _ b _ x _ y _ he => ⟨(inj_mulAccum2 he).2.1, (inj_mulAccum2 he).2.2⟩) hi hj

theorem dmLook_addCarryA {A B n i t : Nat} (hi : i < n) (ht : t < n * 2 + 1) :
    lookupB (divmodModel A B n) (addCarryName (i + 1) t) = carryB (B * ((A / B).testBit i).toNat * 2 ^ i) (B * (A / B % 2 ^ i)) t := by
  rw [divmodModel]
  simp only [List.append_assoc, List.singleton_append, List.cons_append, List.nil_append]
  rw [lookupB_append_skip (keys_ne_map_range fun q _ => ne_bit_a_addCarry q (i + 1) t)]
  rw [lookupB_append_skip (keys_ne_map_range fun q _ => ne_bit_b_addCarry q (i + 1) t)]
  rw [lookupB_append_skip (keys_ne_map_range fun q _ => ne_bit_d_addCarry q (i + 1) t)]
  rw [lookupB_append_skip (keys_ne_map_range fun q _ => ne_bit_m_addCarry q (i + 1) t)]
  rw [lookupB_append_skip (keys_ne_flatMap_range fun q _ r _ => ne_mulAccum1_addCarry 1 q r (i + 1) t)]
  rw [lookupB_append_skip (keys_ne_flatMap_range fun q _ r _ => ne_mulAccum2_addCarry 1 q r (i + 1) t)]
  exact lookupB_flatMap_range (fun a _ b _ x _ y _ he => ⟨by have := (inj_addCarry he).1; omega, (inj_addCarry he).2⟩) hi ht

theorem dmLook_addCarryB {A B n t : Nat} (ht : t < n + 1) :
    lookupB (divmodModel A B n) (addCarryName (n + 1) t) = carryB (B * (A / B)) (A % B) t := by
  rw [divmodModel]
  simp only [List.append_assoc, List.singleton_append, List.cons_append, List.nil_append]
  rw [lookupB_append_skip (keys_ne_map_range fun q _ => ne_bit_a_addCarry q (n + 1) t)]
  rw [lookupB_append_skip (keys_ne_map_range fun q _ => ne_bit_b_addCarry q (n + 1) t)]
  rw [lookupB_append_skip (keys_ne_map_range fun q _ => ne_bit_d_addCarry q (n + 1) t)]
  rw [lookupB_append_skip (keys_ne_map_range fun q _ => ne_bit_m_addCarry q (n + 1) t)]
  rw [lookupB_append_skip (keys_ne_flatMap_range fun q _ r _ => ne_mulAccum1_addCarry 1 q r (n + 1) t)]
  rw [lookupB_append_skip (keys_ne_flatMap_range fun q _ r _ => ne_mulAccum2_addCarry 1 q r (n + 1) t)]
  rw [lookupB_append_skip (keys_ne_flatMap_range fun q hq r _ he => by have := (inj_addCarry he).1; omega)]
  exact lookupB_map_range (fun x _ y _ he => (inj_addCarry he).2) ht

theorem dmLook_mulCarry {A B n i : Nat} (hi : i < n) :
    lookupB (divmodModel A B n) (mulCarryName 1 i) = carryB (B * ((A / B).testBit i).toNat * 2 ^ i) (B * (A / B % 2 ^ i)) (n * 2) := by
  rw [divmodModel]
  simp only [List.append_assoc, List.singleton_append, List.cons_append, List.nil_append]
  rw [lookupB_append_skip (keys_ne_map_range fun q _ => ne_bit_a_mulCarry q 1 i)]
  rw [lookupB_append_skip (keys_ne_map_range fun q _ => ne_bit_b_mulCarry q 1 i)]
  rw [lookupB_append_skip (keys_ne_map_range fun q _ => ne_bit_d_mulCarry q 1 i)]
  rw [lookupB_append_skip (keys_ne_map_range fun q _ => ne_bit_m_mulCarry q 1 i)]
  rw [lookupB_append_skip (keys_ne_flatMap_range fun q _ r _ => ne_mulAccum1_mulCarry 1 q r 1 i)]
  rw [lookupB_append_skip (keys_ne_flatMap_range fun q _ r _ => ne_mulAccum2_mulCarry 1 q r 1 i)]
  rw [lookupB_append_skip (keys_ne_flatMap_range fun q _ r _ => ne_addCarry_mulCarry (q + 1) r 1 i)]
  rw [lookupB_append_skip (keys_ne_map_range fun q _ => ne_addCarry_mulCarry (n + 1) q 1 i)]
  exact lookupB_map_range (fun x _ y _ he => (inj_mulCarry he).2) hi

theorem dmLook_dmAccum {A B n i : Nat} (hi : i < n) :
    lookupB (divmodModel A B n) (bitName (dmAccumName 1) i) = (B * (A / B)).testBit i := by
  rw [divmodModel]
  simp only [List.append_assoc, List.singleton_append, List.cons_append, List.nil_append]
  rw [lookupB_append_skip (keys_ne_map_range fun q _ => ne_bit_a_dmAccum q 1 i)]
  rw [lookupB_append_skip (keys_ne_map_range fun q _ => ne_bit_b_dmAccum q 1 i)]
  rw [lookupB_append_skip (keys_ne_map_range fun q _ => ne_bit_d_dmAccum q 1 i)]
  rw [lookupB_append_skip (keys_ne_map_range fun q _ => ne_bit_m_dmAccum q 1 i)]
  rw [lookupB_append_skip (keys_ne_flatMap_range fun q _ r _ => ne_mulAccum1_dmAccum 1 q r 1 i)]
  rw [lookupB_append_skip (keys_ne_flatMap_range fun q _ r _ => ne_mulAccum2_dmAccum 1 q r 1 i)]
  rw [lookupB_append_skip (keys_ne_flatMap_range fun q _ r _ => ne_addCarry_dmAccum (q + 1) r 1 i)]
  rw [lookupB_append_skip (keys_ne_map_range fun q _ => ne_addCarry_dmAccum (n + 1) q 1 i)]
  rw [lookupB_append_skip (keys_ne_map_range fun q _ => ne_mulCarry_dmAccum 1 q 1 i)]
  exact lookupB_map_range (fun x _ y _ he => (inj_dmAccum he).2) hi

theorem dmLook_dmMulOv {A B n : Nat} :
    lookupB (divmodModel A B n) (dmMulOvName 1) = false := by
  rw [divmodModel]
  simp only [List.append_assoc, List.singleton_append, List.cons_append, List.nil_append]
  rw [lookupB_append_skip (keys_ne_map_range fun q _ => ne_bit_a_dmMulOv q 1)]
  rw [lookupB_append_skip (keys_ne_map_range fun q _ => ne_bit_b_dmMulOv q 1)]
  rw [lookupB_append_skip (keys_ne_map_range fun q _ => ne_bit_d_dmMulOv q 1)]
  rw [lookupB_append_skip (keys_ne_map_range fun q _ => ne_bit_m_dmMulOv q 1)]
  rw [lookupB_append_skip (keys_ne_flatMap_range fun q _ r _ => ne_mulAccum1_dmMulOv 1 q r 1)]
  rw [lookupB_append_skip (keys_ne_flatMap_range fun q _ r _ => ne_mulAccum2_dmMulOv 1 q r 1)]
  rw [lookupB_append_skip (keys_ne_flatMap_range fun q _ r _ => ne_addCarry_dmMulOv (q + 1) r 1)]
  rw [lookupB_append_skip (keys_ne_map_range fun q _ => ne_addCarry_dmMulOv (n + 1) q 1)]
  rw [lookupB_append_skip (keys_ne_map_range fun q _ => ne_mulCarry_dmMulOv 1 q 1)]
  rw [lookupB_append_skip (keys_ne_map_range fun q _ => ne_dmAccum_dmMulOv 1 q 1)]
  rw [lookupB, if_pos rfl]

theorem dmLook_dmAddOv {A B n : Nat} :
    lookupB (divmodModel A B n) (dmAddOvName 1) = false := by
  rw [divmodModel]
  simp only [List.append_assoc, List.singleton_append, List.cons_append, List.nil_append]
  rw [lookupB_append_skip (keys_ne_map_range fun q _ => ne_bit_a_dmAddOv q 1)]
  rw [lookupB_append_skip (keys_ne_map_range fun q _ => ne_bit_b_dmAddOv q 1)]
  rw [lookupB_append_skip (keys_ne_map_range fun q _ => ne_bit_d_dmAddOv q 1)]
  rw [lookupB_append_skip (keys_ne_map_range fun q _ => ne_bit_m_dmAddOv q 1)]
  rw [lookupB_append_skip (keys_ne_flatMap_range fun q _ r _ => ne_mulAccum1_dmAddOv 1 q r 1)]
  rw [lookupB_append_skip (keys_ne_flatMap_range fun q _ r _ => ne_mulAccum2_dmAddOv 1 q r 1)]
  rw [lookupB_append_skip (keys_ne_flatMap_range fun q _ r _ => ne_addCarry_dmAddOv (q + 1) r 1)]
  rw [lookupB_append_skip (keys_ne_map_range fun q _ => ne_addCarry_dmAddOv (n + 1) q 1)]
  rw [lookupB_append_skip (keys_ne_map_range fun q _ => ne_mulCarry_dmAddOv 1 q 1)]
  rw [lookupB_append_skip (keys_ne_map_range fun q _ => ne_dmAccum_dmAddOv 1 q 1)]
  rw [lookupB_cons_skip (ne_dmMulOv_dmAddOv 1 1)]
  rw [lookupB, if_pos rfl]

theorem dmLook_ltEq {A B n i : Nat} (hi : i < n) :
    lookupB (divmodModel A B n) (ltEqName 1 i) = ((A % B).testBit i == B.testBit i) := by
  rw [divmodModel]
  simp only [List.append_assoc, List.singleton_append, List.cons_append, List.nil_append]
  rw [lookupB_append_skip (keys_ne_map_range fun q _ => ne_bit_a_ltEq q 1 i)]
  rw [lookupB_append_skip (keys_ne_map_range fun q _ => ne_bit_b_ltEq q 1 i)]
  rw [lookupB_append_skip (keys_ne_map_range fun q _ => ne_bit_d_ltEq q 1 i)]
  rw [lookupB_append_skip (keys_ne_map_range fun q _ => ne_bit_m_ltEq q 1 i)]
  rw [lookupB_append_skip (keys_ne_flatMap_range fun q _ r _ => ne_mulAccum1_ltEq 1 q r 1 i)]
  rw [lookupB_append_skip (keys_ne_flatMap_range fun q _ r _ => ne_mulAccum2_ltEq 1 q r 1 i)]
  rw [lookupB_append_skip (keys_ne_flatMap_range fun q _ r _ => ne_addCarry_ltEq (q + 1) r 1 i)]
  rw [lookupB_append_skip (keys_ne_map_range fun q _ => ne_addCarry_ltEq (n + 1) q 1 i)]
  rw [lookupB_append_skip (keys_ne_map_range fun q _ => ne_mulCarry_ltEq 1 q 1 i)]
  rw [lookupB_append_skip (keys_ne_map_range fun q _ => ne_dmAccum_ltEq 1 q 1 i)]
  rw [lookupB_cons_skip (ne_dmMulOv_ltEq 1 1 i)]
  rw [lookupB_cons_skip (ne_dmAddOv_ltEq 1 1 i)]
  exact lookupB_map_range (fun x _ y _ he => (inj_ltEq he).2) hi

theorem dmLook_ltLess {A B n i : Nat} (hi : i < n) :
    lookupB (divmodModel A B n) (ltLessName 1 i) = (!(A % B).testBit i && B.testBit i) := by
  rw [divmodModel]
  simp only [List.append_assoc, List.singleton_append, List.cons_append, List.nil_append]
  rw [lookupB_append_skip (keys_ne_map_range fun q _ => ne_bit_a_ltLess q 1 i)]
  rw [lookupB_append_skip (keys_ne_map_range fun q _ => ne_bit_b_ltLess q 1 i)]
  rw [lookupB_append_skip (keys_ne_map_range fun q _ => ne_bit_d_ltLess q 1 i)]
  rw [lookupB_append_skip (keys_ne_map_range fun q _ => ne_bit_m_ltLess q 1 i)]
  rw [lookupB_append_skip (keys_ne_flatMap_range fun q _ r _ => ne_mulAccum1_ltLess 1 q r 1 i)]
  rw [lookupB_append_skip (keys_ne_flatMap_range fun q _ r _ => ne_mulAccum2_ltLess 1 q r 1 i)]
  rw [lookupB_append_skip (keys_ne_flatMap_range fun q _ r _ => ne_addCarry_ltLess (q + 1) r 1 i)]
  rw [lookupB_append_skip (keys_ne_map_range fun q _ => ne_addCarry_ltLess (n + 1) q 1 i)]
  rw [lookupB_append_skip (keys_ne_map_range fun q _ => ne_mulCarry_ltLess 1 q 1 i)]
  rw [lookupB_append_skip (keys_ne_map_range fun q _ => ne_dmAccum_ltLess 1 q 1 i)]
  rw [lookupB_cons_skip (ne_dmMulOv_ltLess 1 1 i)]
  rw [lookupB_cons_skip (ne_dmAddOv_ltLess 1 1 i)]
  rw [lookupB_append_skip (keys_ne_map_range fun q _ => ne_ltEq_ltLess 1 q 1 i)]
  exact lookupB_map_range (fun x _ y _ he => (inj_ltLess he).2) hi

theorem dmLook_ltAccum {A B n i : Nat} (hi : i < n + 1) :
    lookupB (divmodModel A B n) (ltAccumName 1 i) = decide (A % B / 2 ^ i = B / 2 ^ i) := by
  rw [divmodModel]
  simp only [List.append_assoc, List.singleton_append, List.cons_append, List.nil_append]
  rw [lookupB_append_skip (keys_ne_map_range fun q _ => ne_bit_a_ltAccum q 1 i)]
  rw [lookupB_append_skip (keys_ne_map_range fun q _ => ne_bit_b_ltAccum q 1 i)]
  rw [lookupB_append_skip (keys_ne_map_range fun q _ => ne_bit_d_ltAccum q 1 i)]
  rw [lookupB_append_skip (keys_ne_map_range fun q _ => ne_bit_m_ltAccum q 1 i)]
  rw [lookupB_append_skip (keys_ne_flatMap_range fun q _ r _ => ne_mulAccum1_ltAccum 1 q r 1 i)]
  rw [lookupB_append_skip (keys_ne_flatMap_range fun q _ r _ => ne_mulAccum2_ltAccum 1 q r 1 i)]
  rw [lookupB_append_skip (keys_ne_flatMap_range fun q _ r _ => ne_addCarry_ltAccum (q + 1) r 1 i)]
  rw [lookupB_append_skip (keys_ne_map_range fun q _ => ne_addCarry_ltAccum (n + 1) q 1 i)]
  rw [lookupB_append_skip (keys_ne_map_range fun q _ => ne_mulCarry_ltAccum 1 q 1 i)]
  rw [lookupB_append_skip (keys_ne_map_range fun q _ => ne_dmAccum_ltAccum 1 q 1 i)]
  rw [lookupB_cons_skip (ne_dmMulOv_ltAccum 1 1 i)]
  rw [lookupB_cons_skip (ne_dmAddOv_ltAccum 1 1 i)]
  rw [lookupB_append_skip (keys_ne_map_range fun q _ => ne_ltEq_ltAccum 1 q 1 i)]
  rw [lookupB_append_skip (keys_ne_map_range fun q _ => ne_ltLess_ltAccum 1 q 1 i)]
  exact lookupB_map_range (fun x _ y _ he => (inj_ltAccum he).2) hi

theorem dmLook_ltRes {A B n i : Nat} (hi : i < n) :
    lookupB (divmodModel A B n) (ltResName 1 i) = (decide (A % B / 2 ^ (i + 1) = B / 2 ^ (i + 1)) && (!(A % B).testBit i && B.testBit i)) := by
  rw [divmodModel]
  simp only [List.append_assoc, List.singleton_append, List.cons_append, List.nil_append]
  rw [lookupB_append_skip (keys_ne_map_range fun q _ => ne_bit_a_ltRes q 1 i)]
  rw [lookupB_append_skip (keys_ne_map_range fun q _ => ne_bit_b_ltRes q 1 i)]
  rw [lookupB_append_skip (keys_ne_map_range fun q _ => ne_bit_d_ltRes q 1 i)]
  rw [lookupB_append_skip (keys_ne_map_range fun q _ => ne_bit_m_ltRes q 1 i)]
  rw [lookupB_append_skip (keys_ne_flatMap_range fun q _ r _ => ne_mulAccum1_ltRes 1 q r 1 i)]
  rw [lookupB_append_skip (keys_ne_flatMap_range fun q _ r _ => ne_mulAccum2_ltRes 1 q r 1 i)]
  rw [lookupB_append_skip (keys_ne_flatMap_range fun q _ r _ => ne_addCarry_ltRes (q + 1) r 1 i)]
  rw [lookupB_append_skip (keys_ne_map_range fun q _ => ne_addCarry_ltRes (n + 1) q 1 i)]
  rw [lookupB_append_skip (keys_ne_map_range fun q _ => ne_mulCarry_ltRes 1 q 1 i)]
  rw [lookupB_append_skip (keys_ne_map_range fun q _ => ne_dmAccum_ltRes 1 q 1 i)]
  rw [lookupB_cons_skip (ne_dmMulOv_ltRes 1 1 i)]
  rw [lookupB_cons_skip (ne_dmAddOv_ltRes 1 1 i)]
  rw [lookupB_append_skip (keys_ne_map_range fun q _ => ne_ltEq_ltRes 1 q 1 i)]
  rw [lookupB_append_skip (keys_ne_map_range fun q _ => ne_ltLess_ltRes 1 q 1 i)]
  rw [lookupB_append_skip (keys_ne_map_range fun q _ => ne_ltAccum_ltRes 1 q 1 i)]
  exact lookupB_map_range_last (fun x _ y _ he => (inj_ltRes he).2) hi

/-- The constructed assignment satisfies `DivMod_NBit("a","b","d","m",n)`
together with the input pins. -/
theorem divmod_model_sat {A B n : Nat} (hA : A < 2 ^ n) (hB : B < 2 ^ n)
    (hBpos : 0 < B) :
    Sat (lookupB (divmodModel A B n))
      ((DivMod_NBit "a" "b" "d" "m" n { }).1 ++
        Input_Equals_Number "a" A n ++ Input_Equals_Number "b" B n) := by
  refine sat_append.mpr ⟨sat_append.mpr ⟨?_, ?_⟩, ?_⟩
  · apply DivMod_NBit_complete_vals (A := A) (B := B) hA hB hBpos
    · intro i hi
      exact dmLook_bit_a hi
    · intro i hi
      exact dmLook_bit_b hi
    · intro i hi
      exact dmLook_bit_d hi
    · intro i hi
      exact dmLook_bit_m hi
    · intro i hi j hj
      exact dmLook_mulAccum1 hi hj
    · intro i hi j hj
      exact dmLook_mulAccum2 (by omega) hj
    · intro i hi t ht
      rw [show ({ } : Counters).add + i + 1 = i + 1 from by
        show 0 + i + 1 = i + 1
        omega]
      exact dmLook_addCarryA hi (by omega)
    · intro i hi
      exact dmLook_mulCarry hi
    · intro i hi
      exact dmLook_dmAccum hi
    · exact dmLook_dmMulOv
    · exact dmLook_dmAddOv
    · intro t ht
      rw [show ({ } : Counters).add + n + 1 = n + 1 from by
        show 0 + n + 1 = n + 1
        omega]
      exact dmLook_addCarryB (by omega)
    · intro i hi
      exact dmLook_ltEq hi
    · intro i hi
      exact dmLook_ltLess hi
    · intro i hi
      exact dmLook_ltAccum (by omega)
    · intro i hi
      exact dmLook_ltRes hi
  · apply pin_complete
    intro i hi
    exact dmLook_bit_a hi
  · apply pin_complete
    intro i hi
    exact dmLook_bit_b hi

/-! ### Determinedness: satisfying assignments force every wire value. -/

theorem addChain_parts {σ : String → Bool} {k : Nat} {a b r : String} :
    ∀ {n : Nat}, Sat σ (addChain k a b r n) → ∀ i < n,
      Sat σ (Add_1Bit (bitName a i) (bitName b i) (addCarryName k i)
        (bitName r i) (addCarryName k (i + 1))) := by
  intro n
  induction n with
  | zero =>
    intro _ i hi
    omega
  | succ m ih =>
    intro h i hi
    rw [addChain, sat_append] at h
    rcases Nat.lt_succ_iff_lt_or_eq.mp hi with h' | h'
    · exact ih h.1 i h'
    · subst h'
      exact h.2

/-- Every wire of a satisfied `Add_NBit` carries the full-adder value of the
operand values. -/
theorem Add_NBit_determined {σ : String → Bool} {a b r ov : String} {n : Nat}
    {c : Counters} {A B : Nat} (h : Sat σ (Add_NBit a b r ov n c).1)
    (hA : ∀ i < n, σ (bitName a i) = A.testBit i)
    (hB : ∀ i < n, σ (bitName b i) = B.testBit i) :
    (∀ t ≤ n, σ (addCarryName (c.add + 1) t) = carryB A B t) ∧
    (∀ i < n, σ (bitName r i) = (A + B).testBit i) ∧
    σ ov = carryB A B n := by
  rw [Add_NBit] at h
  simp only at h
  rw [sat_append, sat_append] at h
  obtain ⟨⟨h0, hchain⟩, hov⟩ := h
  have hparts := addChain_parts hchain
  have hcarry : ∀ t ≤ n, σ (addCarryName (c.add + 1) t) = carryB A B t := by
    intro t
    induction t with
    | zero =>
      intro _
      rw [unit_neg_sound h0, carryB_zero]
    | succ t' ih =>
      intro ht
      have hp := hparts t' (by omega)
      rw [Add_1Bit, sat_append] at hp
      have := carryOut_sound hp.1
      rw [this, hA t' (by omega), hB t' (by omega), ih (by omega), carryB_succ]
  refine ⟨hcarry, ?_, ?_⟩
  · intro i hi
    have hp := hparts i hi
    rw [Add_1Bit, sat_append] at hp
    have := xorResult_sound hp.2
    rw [this, hA i hi, hB i hi, hcarry i (by omega), add_testBit]
  · have := iff_clauses_sound hov
    rw [this, hcarry n (le_refl n)]

/-- Bit-level forcing of a satisfied shifted partial product. -/
theorem mulShift_determined {σ : String → Bool} {a b r : String}
    {shift n : Nat} (h : Sat σ (Mul_NBit_1Bit_Shift a b r shift n)) :
    (∀ j < shift, σ (bitName r j) = false) ∧
    (∀ j < n, σ (bitName r (j + shift)) = (σ (bitName a j) && σ b)) ∧
    (∀ j, shift + n ≤ j → j < n * 2 → σ (bitName r j) = false) := by
  rw [Mul_NBit_1Bit_Shift, sat_append, sat_append] at h
  obtain ⟨⟨hlow, hmid⟩, hhigh⟩ := h
  refine ⟨?_, ?_, ?_⟩
  · intro j hj
    have := sat_map_range hlow j hj
    simp only [clauseVal, List.any_cons, List.any_nil, litVal, nL,
      Bool.cond_false, Bool.or_false, Bool.not_eq_true'] at this
    exact this
  · intro j hj
    have := sat_flatMap_range hmid j hj
    simp only [Sat, cnfVal, clauseVal, litVal, List.all_cons, List.all_nil,
      List.any_cons, List.any_nil, pL, nL, Bool.cond_true, Bool.cond_false,
      Bool.and_eq_true, Bool.or_eq_true] at this
    cases hx : σ (bitName a j) <;> cases hy : σ b <;> simp_all
  · intro j hj1 hj2
    have hm : [nL (bitName r j)] ∈
        (List.range' (shift + n) (n * 2 - (shift + n))).map
          fun i => [nL (bitName r i)] :=
      List.mem_map.mpr ⟨j, List.mem_range'_1.mpr ⟨hj1, by omega⟩, rfl⟩
    have := sat_of_mem hhigh hm
    simp only [clauseVal, List.any_cons, List.any_nil, litVal, nL,
      Bool.cond_false, Bool.or_false, Bool.not_eq_true'] at this
    exact this

/-- Every wire of a satisfied `Mul_NBit` carries the shift-and-add value of
the operand values. -/
theorem Mul_NBit_determined {σ : String → Bool} {a b r ov : String} {n : Nat}
    {c : Counters} {A B : Nat} (h : Sat σ (Mul_NBit a b r ov n c).1)
    (hAlt : A < 2 ^ n) (hBlt : B < 2 ^ n)
    (hA : ∀ i < n, σ (bitName a i) = A.testBit i)
    (hB : ∀ i < n, σ (bitName b i) = B.testBit i) :
    (∀ i < n, ∀ j < n * 2, σ (bitName (mulAccum1Name (c.mul + 1) i) j) =
      (A * (B.testBit i).toNat * 2 ^ i).testBit j) ∧
    (∀ i ≤ n, ∀ j < n * 2, σ (bitName (mulAccum2Name (c.mul + 1) i) j) =
      (A * (B % 2 ^ i)).testBit j) ∧
    (∀ i < n, ∀ t ≤ n * 2, σ (addCarryName (c.add + i + 1) t) =
      carryB (A * (B.testBit i).toNat * 2 ^ i) (A * (B % 2 ^ i)) t) ∧
    (∀ i < n, σ (mulCarryName (c.mul + 1) i) =
      carryB (A * (B.testBit i).toNat * 2 ^ i) (A * (B % 2 ^ i)) (n * 2)) ∧
    (∀ i < n, σ (bitName r i) = (A * B).testBit i) ∧
    σ ov = decide (2 ^ n ≤ A * B) := by
  have hPbound : ∀ i, A * (B.testBit i).toNat * 2 ^ i < 2 ^ (i + n) := by
    intro i
    have hb1 : (B.testBit i).toNat ≤ 1 := Bool.toNat_le _
    have h1 : A * (B.testBit i).toNat ≤ A * 1 := Nat.mul_le_mul_left A hb1
    have hAp : A * (B.testBit i).toNat < 2 ^ n := by omega
    calc A * (B.testBit i).toNat * 2 ^ i < 2 ^ n * 2 ^ i :=
        Nat.mul_lt_mul_of_lt_of_le hAp (le_refl _) (by positivity)
    _ = 2 ^ (i + n) := by rw [← pow_add, Nat.add_comm]
  simp only [Mul_NBit] at h
  obtain ⟨h, hovU⟩ := sat_append.mp h
  obtain ⟨h, hovB⟩ := sat_append.mp h
  obtain ⟨h, hres⟩ := sat_append.mp h
  obtain ⟨h, hadds⟩ := sat_append.mp h
  obtain ⟨hpart, hinit⟩ := sat_append.mp h
  set k := c.mul + 1 with hk
  have haccum1 : ∀ i < n, ∀ j < n * 2, σ (bitName (mulAccum1Name k i) j) =
      (A * (B.testBit i).toNat * 2 ^ i).testBit j := by
    intro i hi j hj
    obtain ⟨hlo, hmidb, hhib⟩ := mulShift_determined (sat_flatMap_range hpart i hi)
    by_cases hj1 : j < i
    · rw [hlo j hj1, testBit_mul_pow_lo hj1]
    · by_cases hj2 : j < i + n
      · have hj3 : j = (j - i) + i := by omega
        rw [hj3, hmidb (j - i) (by omega), testBit_mul_pow_hi,
          hA (j - i) (by omega), hB i hi]
        cases hbit : B.testBit i
        · simp [Nat.zero_testBit]
        · simp
      · rw [hhib j (by omega) hj]
        symm
        apply Nat.testBit_eq_false_of_lt
        calc A * (B.testBit i).toNat * 2 ^ i < 2 ^ (i + n) := hPbound i
        _ ≤ 2 ^ j := Nat.pow_le_pow_right (by norm_num) (by omega)
  have haccum2 : ∀ i ≤ n, ∀ j < n * 2, σ (bitName (mulAccum2Name k i) j) =
      (A * (B % 2 ^ i)).testBit j := by
    intro i
    induction i with
    | zero =>
      intro _ j hj
      have := sat_map_range hinit j hj
      simp only [clauseVal, List.any_cons, List.any_nil, litVal, nL,
        Bool.cond_false, Bool.or_false, Bool.not_eq_true'] at this
      rw [this, pow_zero, Nat.mod_one, Nat.mul_zero, Nat.zero_testBit]
    | succ i' ih =>
      intro hi j hj
      have hctr := mulAdds_counters k n i' { c with mul := k }
      have hblk := stateLoop_sat hadds (show i' < n by omega)
      rw [show (stateLoop (fun i c => Add_NBit (mulAccum1Name k i)
        (mulAccum2Name k i) (mulAccum2Name k (i + 1)) (mulCarryName k i)
        (n * 2) c) i' { c with mul := k }) = mulAdds k n i' { c with mul := k }
        from rfl, hctr] at hblk
      have hdet := Add_NBit_determined (A := A * (B.testBit i').toNat * 2 ^ i')
        (B := A * (B % 2 ^ i')) hblk
        (fun t ht => haccum1 i' (by omega) t ht)
        (fun t ht => ih (by omega) t ht)
      have hstep : A * (B.testBit i').toNat * 2 ^ i' + A * (B % 2 ^ i') =
          A * (B % 2 ^ (i' + 1)) := by
        rw [mod_pow_succ_testBit B i']
        ring
      have := hdet.2.1 j hj
      simp only at this
      rw [this, hstep]
  have hcarries : ∀ i < n, ∀ t ≤ n * 2, σ (addCarryName (c.add + i + 1) t) =
      carryB (A * (B.testBit i).toNat * 2 ^ i) (A * (B % 2 ^ i)) t := by
    intro i hi t ht
    have hctr := mulAdds_counters k n i { c with mul := k }
    have hblk := stateLoop_sat hadds hi
    rw [show (stateLoop (fun i c => Add_NBit (mulAccum1Name k i)
      (mulAccum2Name k i) (mulAccum2Name k (i + 1)) (mulCarryName k i)
      (n * 2) c) i { c with mul := k }) = mulAdds k n i { c with mul := k }
      from rfl, hctr] at hblk
    have hdet := Add_NBit_determined (A := A * (B.testBit i).toNat * 2 ^ i)
      (B := A * (B % 2 ^ i)) hblk
      (fun t' ht' => haccum1 i hi t' ht')
      (fun t' ht' => haccum2 i (by omega) t' ht')
    have := hdet.1 t ht
    simpa using this
  have hmulCarry : ∀ i < n, σ (mulCarryName k i) =
      carryB (A * (B.testBit i).toNat * 2 ^ i) (A * (B % 2 ^ i)) (n * 2) := by
    intro i hi
    have hctr := mulAdds_counters k n i { c with mul := k }
    have hblk := stateLoop_sat hadds hi
    rw [show (stateLoop (fun i c => Add_NBit (mulAccum1Name k i)
      (mulAccum2Name k i) (mulAccum2Name k (i + 1)) (mulCarryName k i)
      (n * 2) c) i { c with mul := k }) = mulAdds k n i { c with mul := k }
      from rfl, hctr] at hblk
    have hdet := Add_NBit_determined (A := A * (B.testBit i).toNat * 2 ^ i)
      (B := A * (B % 2 ^ i)) hblk
      (fun t' ht' => haccum1 i hi t' ht')
      (fun t' ht' => haccum2 i (by omega) t' ht')
    exact hdet.2.2
  have hBmod : B % 2 ^ n = B := Nat.mod_eq_of_lt hBlt
  have hABlt : A * B < 2 ^ (n * 2) := by
    rcases Nat.eq_zero_or_pos A with h0 | h0
    · subst h0
      simp only [Nat.zero_mul]
      positivity
    · calc A * B < 2 ^ n * 2 ^ n :=
          mul_lt_mul' (le_of_lt hAlt) hBlt (Nat.zero_le _) (by positivity)
      _ = 2 ^ (n * 2) := by
          rw [← pow_add]
          congr 1
          omega
  have hresbits : ∀ i < n, σ (bitName r i) = (A * B).testBit i := by
    intro i hi
    have hcl := sat_flatMap_range hres i hi
    have h2 : Sat σ [[nL (bitName r i), pL (bitName (mulAccum2Name k n) i)],
        [pL (bitName r i), nL (bitName (mulAccum2Name k n) i)]] := hcl
    have := iff_clauses_sound h2
    rw [this, haccum2 n (le_refl n) i (by omega), hBmod]
  refine ⟨haccum1, haccum2, hcarries, hmulCarry, hresbits, ?_⟩
  cases hd : decide (2 ^ n ≤ A * B)
  · have hlt := of_decide_eq_false hd
    have hhigh : ∀ i < n, σ (bitName (mulAccum2Name k n) (i + n)) = false := by
      intro i hi
      rw [haccum2 n (le_refl n) (i + n) (by omega), hBmod]
      apply Nat.testBit_eq_false_of_lt
      calc A * B < 2 ^ n := by omega
      _ ≤ 2 ^ (i + n) := Nat.pow_le_pow_right (by norm_num) (by omega)
    simp only [Sat, cnfVal, List.all_cons, List.all_nil, Bool.and_true,
      clauseVal, List.any_cons, Bool.or_eq_true, List.any_eq_true] at hovB
    rcases hovB with hic | ⟨l, hl, hval⟩
    · simp only [litVal, nL, Bool.cond_false, Bool.not_eq_true'] at hic
      exact hic
    · obtain ⟨i, hi, rfl⟩ := List.mem_map.mp hl
      simp only [litVal, pL, Bool.cond_true] at hval
      rw [hhigh i (List.mem_range.mp hi)] at hval
      exact absurd hval Bool.noConfusion
  · have hge := of_decide_eq_true hd
    obtain ⟨j, hj, hbit⟩ := (high_bit_iff hABlt).mpr hge
    have hcl := sat_map_range hovU j hj
    simp only [clauseVal, List.any_cons, List.any_nil, litVal, pL, nL,
      Bool.cond_true, Bool.cond_false, Bool.or_false, Bool.or_eq_true] at hcl
    rcases hcl with hcl | hcl
    · exact hcl
    · rw [Bool.not_eq_true', haccum2 n (le_refl n) (j + n) (by omega), hBmod]
        at hcl
      rw [hcl] at hbit
      exact absurd hbit Bool.noConfusion

/-- Reading an operand's pinned bits as its value. -/
theorem bitsVal_of_testBit {σ : String → Bool} {x : String} {n V : Nat}
    (h : ∀ i < n, σ (bitName x i) = V.testBit i) (hV : V < 2 ^ n) :
    bitsVal σ x n = V := by
  rw [bitsVal, natOfBits_congr n h, natOfBits_of_testBit, Nat.mod_eq_of_lt hV]

/-- The prefix-equality recurrence in terms of value comparisons. -/
theorem acc_step_decide (A B i : Nat) :
    decide (A / 2 ^ i = B / 2 ^ i) =
      (decide (A / 2 ^ (i + 1) = B / 2 ^ (i + 1)) &&
        (A.testBit i == B.testBit i)) := by
  have eA := div_pow_succ_bit A i
  have eB := div_pow_succ_bit B i
  cases hd : decide (A / 2 ^ (i + 1) = B / 2 ^ (i + 1)) <;>
    cases ha : A.testBit i <;> cases hb : B.testBit i <;>
    simp_all [decide_eq_true_iff, decide_eq_false_iff_not] <;> omega

/-- Every wire of a satisfied `LessThan_NBit` is forced. -/
theorem LessThan_NBit_determined {σ : String → Bool} {a b : String} {n : Nat}
    {c : Counters} {A B : Nat} (h : Sat σ (LessThan_NBit a b n c).1)
    (hAlt : A < 2 ^ n) (hBlt : B < 2 ^ n)
    (hA : ∀ i < n, σ (bitName a i) = A.testBit i)
    (hB : ∀ i < n, σ (bitName b i) = B.testBit i) :
    (∀ i < n, σ (ltEqName (c.lt + 1) i) = (A.testBit i == B.testBit i)) ∧
    (∀ i < n, σ (ltLessName (c.lt + 1) i) = (!A.testBit i && B.testBit i)) ∧
    (∀ i ≤ n, σ (ltAccumName (c.lt + 1) i) = decide (A / 2 ^ i = B / 2 ^ i)) ∧
    (∀ i < n, σ (ltResName (c.lt + 1) i) =
      (decide (A / 2 ^ (i + 1) = B / 2 ^ (i + 1)) &&
        (!A.testBit i && B.testBit i))) := by
  rw [LessThan_NBit] at h
  simp only at h
  rw [sat_append, sat_append, sat_append, sat_append, sat_append] at h
  obtain ⟨⟨⟨⟨⟨heqs, hlesss⟩, hunit⟩, handAcc⟩, handRes⟩, _⟩ := h
  set k := c.lt + 1 with hk
  have heq : ∀ i < n, σ (ltEqName k i) = (A.testBit i == B.testBit i) := by
    intro i hi
    have := eq1_sound (sat_flatMap_range heqs i hi)
    rw [this, hA i hi, hB i hi]
  have hless : ∀ i < n, σ (ltLessName k i) = (!A.testBit i && B.testBit i) := by
    intro i hi
    have := lt1_sound (sat_flatMap_range hlesss i hi)
    rw [this, hA i hi, hB i hi]
  have haccAux : ∀ e ≤ n, σ (ltAccumName k (n - e)) =
      decide (A / 2 ^ (n - e) = B / 2 ^ (n - e)) := by
    intro e
    induction e with
    | zero =>
      intro _
      rw [Nat.sub_zero, unit_pos_sound hunit, Nat.div_eq_of_lt hAlt,
        Nat.div_eq_of_lt hBlt]
      simp
    | succ e' ih =>
      intro he
      have hi : n - (e' + 1) < n := by omega
      have hand := and1_sound (sat_flatMap_range handAcc (n - (e' + 1)) hi)
      have hnext : n - (e' + 1) + 1 = n - e' := by omega
      rw [hand, hnext, ih (by omega), heq (n - (e' + 1)) hi, ← hnext,
        ← acc_step_decide]
  have hacc : ∀ i ≤ n, σ (ltAccumName k i) =
      decide (A / 2 ^ i = B / 2 ^ i) := by
    intro i hi
    have := haccAux (n - i) (by omega)
    rwa [show n - (n - i) = i by omega] at this
  refine ⟨heq, hless, hacc, ?_⟩
  intro i hi
  have hand := and1_sound (sat_flatMap_range handRes i hi)
  rw [hand, hacc (i + 1) (by omega), hless i hi]

/-- Every wire of a satisfied `DivMod_NBit` is forced by the operand values. -/
theorem DivMod_NBit_determined {σ : String → Bool} {a b d m : String}
    {n : Nat} {c : Counters} {A B : Nat} (h : Sat σ (DivMod_NBit a b d m n c).1)
    (hAlt : A < 2 ^ n) (hBlt : B < 2 ^ n)
    (hA : ∀ i < n, σ (bitName a i) = A.testBit i)
    (hB : ∀ i < n, σ (bitName b i) = B.testBit i) :
    0 < B ∧
    (∀ i < n, σ (bitName d i) = (A / B).testBit i) ∧
    (∀ i < n, σ (bitName m i) = (A % B).testBit i) ∧
    (∀ i < n, ∀ j < n * 2, σ (bitName (mulAccum1Name (c.mul + 1) i) j) =
      (B * ((A / B).testBit i).toNat * 2 ^ i).testBit j) ∧
    (∀ i ≤ n, ∀ j < n * 2, σ (bitName (mulAccum2Name (c.mul + 1) i) j) =
      (B * (A / B % 2 ^ i)).testBit j) ∧
    (∀ i < n, ∀ t ≤ n * 2, σ (addCarryName (c.add + i + 1) t) =
      carryB (B * ((A / B).testBit i).toNat * 2 ^ i) (B * (A / B % 2 ^ i)) t) ∧
    (∀ i < n, σ (mulCarryName (c.mul + 1) i) =
      carryB (B * ((A / B).testBit i).toNat * 2 ^ i) (B * (A / B % 2 ^ i)) (n * 2)) ∧
    (∀ i < n, σ (bitName (dmAccumName (c.divmod + 1)) i) =
      (B * (A / B)).testBit i) ∧
    σ (dmMulOvName (c.divmod + 1)) = false ∧
    σ (dmAddOvName (c.divmod + 1)) = false ∧
    (∀ t ≤ n, σ (addCarryName (c.add + n + 1) t) =
      carryB (B * (A / B)) (A % B) t) ∧
    (∀ i < n, σ (ltEqName (c.lt + 1) i) = ((A % B).testBit i == B.testBit i)) ∧
    (∀ i < n, σ (ltLessName (c.lt + 1) i) = (!(A % B).testBit i && B.testBit i)) ∧
    (∀ i ≤ n, σ (ltAccumName (c.lt + 1) i) =
      decide (A % B / 2 ^ i = B / 2 ^ i)) ∧
    (∀ i < n, σ (ltResName (c.lt + 1) i) =
      (decide (A % B / 2 ^ (i + 1) = B / 2 ^ (i + 1)) &&
        (!(A % B).testBit i && B.testBit i))) := by
  have hvals := DivMod_NBit_sound h
  have hAv : bitsVal σ a n = A := bitsVal_of_testBit hA hAlt
  have hBv : bitsVal σ b n = B := bitsVal_of_testBit hB hBlt
  rw [hAv, hBv] at hvals
  obtain ⟨hBpos, hdv, hmv⟩ := hvals
  have hD : ∀ i < n, σ (bitName d i) = (A / B).testBit i := by
    intro i hi
    rw [← hdv]
    exact (bitsVal_testBit hi).symm
  have hM : ∀ i < n, σ (bitName m i) = (A % B).testBit i := by
    intro i hi
    rw [← hmv]
    exact (bitsVal_testBit hi).symm
  simp only [DivMod_NBit] at h
  obtain ⟨h, hlt⟩ := sat_append.mp h
  obtain ⟨h, haddov⟩ := sat_append.mp h
  obtain ⟨h, hmulov⟩ := sat_append.mp h
  obtain ⟨hmul, hadd⟩ := sat_append.mp h
  have hDlt : A / B < 2 ^ n := lt_of_le_of_lt (Nat.div_le_self A B) hAlt
  have hmuldet := Mul_NBit_determined (A := B) (B := A / B) hmul hBlt hDlt hB hD
  have hBD : B * (A / B) ≤ A := Nat.mul_div_le A B
  have haccb : ∀ i < n, σ (bitName (dmAccumName (c.divmod + 1)) i) =
      (B * (A / B)).testBit i := fun i hi => hmuldet.2.2.2.2.1 i hi
  rw [Mul_NBit_counters] at hadd hlt
  rw [Add_NBit_counters] at hlt
  have hadddet := Add_NBit_determined (A := B * (A / B)) (B := A % B) hadd
    haccb hM
  have hMBlt : A % B < 2 ^ n := lt_of_le_of_lt (Nat.mod_le A B) hAlt
  have hltdet := LessThan_NBit_determined (A := A % B) (B := B) hlt hMBlt hBlt
    hM hB
  refine ⟨hBpos, hD, hM, hmuldet.1, hmuldet.2.1, ?_, hmuldet.2.2.2.1, haccb,
    unit_neg_sound hmulov, unit_neg_sound haddov, ?_, hltdet.1, hltdet.2.1,
    hltdet.2.2.1, hltdet.2.2.2⟩
  · exact hmuldet.2.2.1
  · intro t ht
    have := hadddet.1 t ht
    simpa using this

/-! ### Variable inventories of each generator. -/

theorem cnfVars_append_elim {l₁ l₂ : Cnf} {x : String}
    (hx : x ∈ cnfVars (l₁ ++ l₂)) : x ∈ cnfVars l₁ ∨ x ∈ cnfVars l₂ := by
  rw [cnfVars, List.flatMap_append] at hx
  exact List.mem_append.mp hx

theorem cnfVars_flatMap_range {g : Nat → Cnf} {n : Nat} {x : String}
    (hx : x ∈ cnfVars ((List.range n).flatMap g)) :
    ∃ i < n, x ∈ cnfVars (g i) := by
  rw [cnfVars] at hx
  obtain ⟨cl, hcl, hx⟩ := List.mem_flatMap.mp hx
  obtain ⟨i, hi, hmem⟩ := List.mem_flatMap.mp hcl
  exact ⟨i, List.mem_range.mp hi, List.mem_flatMap.mpr ⟨cl, hmem, hx⟩⟩

theorem cnfVars_map_range {g : Nat → Clause} {n : Nat} {x : String}
    (hx : x ∈ cnfVars ((List.range n).map g)) :
    ∃ i < n, x ∈ clauseVars (g i) := by
  rw [cnfVars] at hx
  obtain ⟨cl, hcl, hx⟩ := List.mem_flatMap.mp hx
  obtain ⟨i, hi, rfl⟩ := List.mem_map.mp hcl
  exact ⟨i, List.mem_range.mp hi, hx⟩

theorem vars_carryOut {a b ci co x : String}
    (hx : x ∈ cnfVars (CarryOut_Equal_POPCNT_GREATER_THAN_2 a b ci co)) :
    x = a ∨ x = b ∨ x = ci ∨ x = co := by
  simp only [CarryOut_Equal_POPCNT_GREATER_THAN_2, cnfVars, clauseVars, pL, nL,
    List.flatMap_cons, List.flatMap_nil, List.map_cons, List.map_nil,
    List.append_nil, List.mem_append, List.mem_cons, List.not_mem_nil,
    or_false] at hx
  tauto

theorem vars_xorResult {a b ci r x : String}
    (hx : x ∈ cnfVars (Result_Equal_A_XOR_B_XOR_CarryIn a b ci r)) :
    x = a ∨ x = b ∨ x = ci ∨ x = r := by
  simp only [Result_Equal_A_XOR_B_XOR_CarryIn, cnfVars, clauseVars, pL, nL,
    List.flatMap_cons, List.flatMap_nil, List.map_cons, List.map_nil,
    List.append_nil, List.mem_append, List.mem_cons, List.not_mem_nil,
    or_false] at hx
  tauto

theorem vars_unit {l : Lit} {x : String} (hx : x ∈ cnfVars [[l]]) :
    x = l.2 := by
  simp only [cnfVars, clauseVars, List.flatMap_cons, List.flatMap_nil,
    List.map_cons, List.map_nil, List.append_nil, List.mem_cons,
    List.not_mem_nil, or_false] at hx
  exact hx

theorem vars_addChain {k : Nat} {a b r : String} :
    ∀ {n : Nat} {x : String}, x ∈ cnfVars (addChain k a b r n) →
      ∃ i < n, x = bitName a i ∨ x = bitName b i ∨ x = bitName r i ∨
        x = addCarryName k i ∨ x = addCarryName k (i + 1) := by
  intro n
  induction n with
  | zero =>
    intro x hx
    simp [addChain, cnfVars] at hx
  | succ m ih =>
    intro x hx
    rw [addChain] at hx
    rcases cnfVars_append_elim hx with hx | hx
    · obtain ⟨i, hi, hd⟩ := ih hx
      exact ⟨i, by omega, hd⟩
    · rw [Add_1Bit] at hx
      rcases cnfVars_append_elim hx with hx | hx
      · rcases vars_carryOut hx with h | h | h | h
        · exact ⟨m, by omega, Or.inl h⟩
        · exact ⟨m, by omega, Or.inr (Or.inl h)⟩
        · exact ⟨m, by omega, Or.inr (Or.inr (Or.inr (Or.inl h)))⟩
        · exact ⟨m, by omega, Or.inr (Or.inr (Or.inr (Or.inr h)))⟩
      · rcases vars_xorResult hx with h | h | h | h
        · exact ⟨m, by omega, Or.inl h⟩
        · exact ⟨m, by omega, Or.inr (Or.inl h)⟩
        · exact ⟨m, by omega, Or.inr (Or.inr (Or.inr (Or.inl h)))⟩
        · exact ⟨m, by omega, Or.inr (Or.inr (Or.inl h))⟩

theorem vars_Add_NBit {a b r ov : String} {n : Nat} {c : Counters} {x : String}
    (hx : x ∈ cnfVars (Add_NBit a b r ov n c).1) :
    (∃ i < n, x = bitName a i) ∨ (∃ i < n, x = bitName b i) ∨
    (∃ i < n, x = bitName r i) ∨ (∃ t ≤ n, x = addCarryName (c.add + 1) t) ∨
    x = ov := by
  rw [Add_NBit] at hx
  simp only at hx
  rcases cnfVars_append_elim hx with hx | hx
  · rcases cnfVars_append_elim hx with hx | hx
    · have := vars_unit hx
      exact Or.inr (Or.inr (Or.inr (Or.inl ⟨0, by omega, this⟩)))
    · obtain ⟨i, hi, hd⟩ := vars_addChain hx
      rcases hd with h | h | h | h | h
      · exact Or.inl ⟨i, hi, h⟩
      · exact Or.inr (Or.inl ⟨i, hi, h⟩)
      · exact Or.inr (Or.inr (Or.inl ⟨i, hi, h⟩))
      · exact Or.inr (Or.inr (Or.inr (Or.inl ⟨i, by omega, h⟩)))
      · exact Or.inr (Or.inr (Or.inr (Or.inl ⟨i + 1, by omega, h⟩)))
  · simp only [cnfVars, clauseVars, pL, nL, List.flatMap_cons,
      List.flatMap_nil, List.map_cons, List.map_nil, List.append_nil,
      List.mem_append, List.mem_cons, List.not_mem_nil, or_false] at hx
    rcases hx with ⟨h | h⟩ | h | h
    · exact Or.inr (Or.inr (Or.inr (Or.inr h)))
    · exact Or.inr (Or.inr (Or.inr (Or.inl ⟨n, le_refl n, h⟩)))
    · exact Or.inr (Or.inr (Or.inr (Or.inr h)))
    · exact Or.inr (Or.inr (Or.inr (Or.inl ⟨n, le_refl n, h⟩)))

theorem vars_stateLoop {f : Nat → Counters → Cnf × Counters} :
    ∀ {m : Nat} {c : Counters} {x : String},
      x ∈ cnfVars (stateLoop f m c).1 →
      ∃ i < m, x ∈ cnfVars (f i (stateLoop f i c).2).1 := by
  intro m
  induction m with
  | zero =>
    intro c x hx
    simp [stateLoop, cnfVars] at hx
  | succ m' ih =>
    intro c x hx
    simp only [stateLoop] at hx
    rcases cnfVars_append_elim hx with hx | hx
    · obtain ⟨i, hi, hd⟩ := ih hx
      exact ⟨i, by omega, hd⟩
    · exact ⟨m', by omega, hx⟩

theorem vars_mulShift {a b r : String} {shift n : Nat} {x : String}
    (hsh : shift ≤ n) (hx : x ∈ cnfVars (Mul_NBit_1Bit_Shift a b r shift n)) :
    (∃ j < n * 2, x = bitName r j) ∨ (∃ j < n, x = bitName a j) ∨ x = b := by
  rw [Mul_NBit_1Bit_Shift] at hx
  rcases cnfVars_append_elim hx with hx | hx
  · rcases cnfVars_append_elim hx with hx | hx
    · obtain ⟨j, hj, hd⟩ := cnfVars_map_range hx
      simp only [clauseVars, nL, List.map_cons, List.map_nil, List.mem_cons,
        List.not_mem_nil, or_false] at hd
      exact Or.inl ⟨j, by omega, hd⟩
    · obtain ⟨j, hj, hd⟩ := cnfVars_flatMap_range hx
      simp only [cnfVars, clauseVars, pL, nL, List.flatMap_cons,
        List.flatMap_nil, List.map_cons, List.map_nil, List.append_nil,
        List.mem_append, List.mem_cons, List.not_mem_nil, or_false] at hd
      rcases hd with ⟨h | h | h⟩ | ⟨h | h | h⟩ | ⟨h | h | h⟩ | h | h | h
      all_goals first
        | exact Or.inl ⟨j + shift, by omega, h⟩
        | exact Or.inr (Or.inl ⟨j, hj, h⟩)
        | exact Or.inr (Or.inr h)
  · rw [cnfVars] at hx
    obtain ⟨cl, hcl, hxin⟩ := List.mem_flatMap.mp hx
    obtain ⟨j, hj, rfl⟩ := List.mem_map.mp hcl
    have hj' := List.mem_range'_1.mp hj
    simp only [clauseVars, nL, List.map_cons, List.map_nil, List.mem_cons,
      List.not_mem_nil, or_false] at hxin
    exact Or.inl ⟨j, by omega, hxin⟩

theorem vars_Mul_NBit {a b r ov : String} {n : Nat} {c : Counters} {x : String}
    (hx : x ∈ cnfVars (Mul_NBit a b r ov n c).1) :
    (∃ i < n, x = bitName a i) ∨ (∃ i < n, x = bitName b i) ∨
    (∃ i < n, x = bitName r i) ∨ x = ov ∨
    (∃ i < n, ∃ j < n * 2, x = bitName (mulAccum1Name (c.mul + 1) i) j) ∨
    (∃ i ≤ n, ∃ j < n * 2, x = bitName (mulAccum2Name (c.mul + 1) i) j) ∨
    (∃ i < n, ∃ t ≤ n * 2, x = addCarryName (c.add + i + 1) t) ∨
    (∃ i < n, x = mulCarryName (c.mul + 1) i) := by
  simp only [Mul_NBit] at hx
  set k := c.mul + 1 with hk
  rcases cnfVars_append_elim hx with hx | hovU
  rcases cnfVars_append_elim hx with hx | hovB
  rcases cnfVars_append_elim hx with hx | hres
  rcases cnfVars_append_elim hx with hx | hadds
  rcases cnfVars_append_elim hx with hpart | hinit
  · obtain ⟨i, hi, hd⟩ := cnfVars_flatMap_range hpart
    rcases vars_mulShift (by omega) hd with ⟨j, hj, h⟩ | ⟨j, hj, h⟩ | h
    · exact Or.inr (Or.inr (Or.inr (Or.inr (Or.inl ⟨i, hi, j, hj, h⟩))))
    · exact Or.inl ⟨j, hj, h⟩
    · exact Or.inr (Or.inl ⟨i, hi, h⟩)
  · obtain ⟨j, hj, hd⟩ := cnfVars_map_range hinit
    simp only [clauseVars, nL, List.map_cons, List.map_nil, List.mem_cons,
      List.not_mem_nil, or_false] at hd
    exact Or.inr (Or.inr (Or.inr (Or.inr (Or.inr (Or.inl
      ⟨0, by omega, j, hj, hd⟩)))))
  · obtain ⟨i, hi, hd⟩ := vars_stateLoop hadds
    have hctr := mulAdds_counters k n i { c with mul := k }
    rw [show (stateLoop (fun i c => Add_NBit (mulAccum1Name k i)
      (mulAccum2Name k i) (mulAccum2Name k (i + 1)) (mulCarryName k i)
      (n * 2) c) i { c with mul := k }) = mulAdds k n i { c with mul := k }
      from rfl, hctr] at hd
    rcases vars_Add_NBit hd with ⟨j, hj, h⟩ | ⟨j, hj, h⟩ | ⟨j, hj, h⟩ |
      ⟨t, ht, h⟩ | h
    · exact Or.inr (Or.inr (Or.inr (Or.inr (Or.inl ⟨i, hi, j, hj, h⟩))))
    · exact Or.inr (Or.inr (Or.inr (Or.inr (Or.inr (Or.inl
        ⟨i, by omega, j, hj, h⟩)))))
    · exact Or.inr (Or.inr (Or.inr (Or.inr (Or.inr (Or.inl
        ⟨i + 1, by omega, j, hj, h⟩)))))
    · refine Or.inr (Or.inr (Or.inr (Or.inr (Or.inr (Or.inr (Or.inl
        ⟨i, hi, t, ht, ?_⟩))))))
      simpa using h
    · exact Or.inr (Or.inr (Or.inr (Or.inr (Or.inr (Or.inr (Or.inr
        ⟨i, hi, h⟩))))))
  · obtain ⟨i, hi, hd⟩ := cnfVars_flatMap_range hres
    simp only [cnfVars, clauseVars, pL, nL, List.flatMap_cons,
      List.flatMap_nil, List.map_cons, List.map_nil, List.append_nil,
      List.mem_append, List.mem_cons, List.not_mem_nil, or_false] at hd
    rcases hd with ⟨h | h⟩ | h | h
    · exact Or.inr (Or.inr (Or.inl ⟨i, hi, h⟩))
    · exact Or.inr (Or.inr (Or.inr (Or.inr (Or.inr (Or.inl
        ⟨n, le_refl n, i, by omega, h⟩)))))
    · exact Or.inr (Or.inr (Or.inl ⟨i, hi, h⟩))
    · exact Or.inr (Or.inr (Or.inr (Or.inr (Or.inr (Or.inl
        ⟨n, le_refl n, i, by omega, h⟩)))))
  · rw [cnfVars] at hovB
    obtain ⟨cl, hcl, hxin⟩ := List.mem_flatMap.mp hovB
    simp only [List.mem_cons, List.not_mem_nil, or_false] at hcl
    subst hcl
    simp only [clauseVars, pL, nL, List.map_cons, List.map_map,
      List.mem_cons] at hxin
    rcases hxin with h | h
    · exact Or.inr (Or.inr (Or.inr (Or.inl h)))
    · obtain ⟨i, hi, hh⟩ := List.mem_map.mp h
      exact Or.inr (Or.inr (Or.inr (Or.inr (Or.inr (Or.inl
        ⟨n, le_refl n, i + n, by
          have := List.mem_range.mp hi
          omega, hh.symm⟩)))))
  · obtain ⟨i, hi, hd⟩ := cnfVars_map_range hovU
    simp only [clauseVars, pL, nL, List.map_cons, List.map_nil, List.mem_cons,
      List.not_mem_nil, or_false] at hd
    rcases hd with h | h
    · exact Or.inr (Or.inr (Or.inr (Or.inl h)))
    · exact Or.inr (Or.inr (Or.inr (Or.inr (Or.inr (Or.inl
        ⟨n, le_refl n, i + n, by omega, h⟩)))))

theorem vars_gate4 {l : List (List Lit)} {a b r x : String}
    (hshape : ∀ cl ∈ l, clauseVars cl = [a, b, r])
    (hx : x ∈ cnfVars l) : x = a ∨ x = b ∨ x = r := by
  rw [cnfVars] at hx
  obtain ⟨cl, hcl, hxin⟩ := List.mem_flatMap.mp hx
  rw [hshape cl hcl] at hxin
  simp only [List.mem_cons, List.not_mem_nil, or_false] at hxin
  exact hxin

theorem vars_eq1 {a b r x : String} (hx : x ∈ cnfVars (Equals_1Bit a b r)) :
    x = a ∨ x = b ∨ x = r := by
  refine vars_gate4 ?_ hx
  intro cl hcl
  simp only [Equals_1Bit, List.mem_cons, List.not_mem_nil, or_false] at hcl
  rcases hcl with rfl | rfl | rfl | rfl <;> rfl

theorem vars_lt1 {a b r x : String} (hx : x ∈ cnfVars (LessThan_1Bit a b r)) :
    x = a ∨ x = b ∨ x = r := by
  refine vars_gate4 ?_ hx
  intro cl hcl
  simp only [LessThan_1Bit, List.mem_cons, List.not_mem_nil, or_false] at hcl
  rcases hcl with rfl | rfl | rfl | rfl <;> rfl

theorem vars_and1 {a b r x : String} (hx : x ∈ cnfVars (And_1Bit a b r)) :
    x = a ∨ x = b ∨ x = r := by
  refine vars_gate4 ?_ hx
  intro cl hcl
  simp only [And_1Bit, List.mem_cons, List.not_mem_nil, or_false] at hcl
  rcases hcl with rfl | rfl | rfl | rfl <;> rfl

theorem vars_LessThan_NBit {a b : String} {n : Nat} {c : Counters} {x : String}
    (hx : x ∈ cnfVars (LessThan_NBit a b n c).1) :
    (∃ i < n, x = bitName a i) ∨ (∃ i < n, x = bitName b i) ∨
    (∃ i < n, x = ltEqName (c.lt + 1) i) ∨
    (∃ i < n, x = ltLessName (c.lt + 1) i) ∨
    (∃ i ≤ n, x = ltAccumName (c.lt + 1) i) ∨
    (∃ i < n, x = ltResName (c.lt + 1) i) := by
  rw [LessThan_NBit] at hx
  simp only at hx
  set k := c.lt + 1 with hk
  rcases cnfVars_append_elim hx with hx | hbig
  rcases cnfVars_append_elim hx with hx | handRes
  rcases cnfVars_append_elim hx with hx | handAcc
  rcases cnfVars_append_elim hx with hx | hunit
  rcases cnfVars_append_elim hx with heqs | hlesss
  · obtain ⟨i, hi, hd⟩ := cnfVars_flatMap_range heqs
    rcases vars_eq1 hd with h | h | h
    · exact Or.inl ⟨i, hi, h⟩
    · exact Or.inr (Or.inl ⟨i, hi, h⟩)
    · exact Or.inr (Or.inr (Or.inl ⟨i, hi, h⟩))
  · obtain ⟨i, hi, hd⟩ := cnfVars_flatMap_range hlesss
    rcases vars_lt1 hd with h | h | h
    · exact Or.inl ⟨i, hi, h⟩
    · exact Or.inr (Or.inl ⟨i, hi, h⟩)
    · exact Or.inr (Or.inr (Or.inr (Or.inl ⟨i, hi, h⟩)))
  · have := vars_unit hunit
    exact Or.inr (Or.inr (Or.inr (Or.inr (Or.inl ⟨n, le_refl n, this⟩))))
  · obtain ⟨i, hi, hd⟩ := cnfVars_flatMap_range handAcc
    rcases vars_and1 hd with h | h | h
    · exact Or.inr (Or.inr (Or.inr (Or.inr (Or.inl ⟨i + 1, by omega, h⟩))))
    · exact Or.inr (Or.inr (Or.inl ⟨i, hi, h⟩))
    · exact Or.inr (Or.inr (Or.inr (Or.inr (Or.inl ⟨i, by omega, h⟩))))
  · obtain ⟨i, hi, hd⟩ := cnfVars_flatMap_range handRes
    rcases vars_and1 hd with h | h | h
    · exact Or.inr (Or.inr (Or.inr (Or.inr (Or.inl ⟨i + 1, by omega, h⟩))))
    · exact Or.inr (Or.inr (Or.inr (Or.inl ⟨i, hi, h⟩)))
    · exact Or.inr (Or.inr (Or.inr (Or.inr (Or.inr ⟨i, hi, h⟩))))
  · rw [cnfVars] at hbig
    obtain ⟨cl, hcl, hxin⟩ := List.mem_flatMap.mp hbig
    simp only [List.mem_cons, List.not_mem_nil, or_false] at hcl
    subst hcl
    simp only [clauseVars, pL, List.map_map] at hxin
    obtain ⟨i, hi, hh⟩ := List.mem_map.mp hxin
    exact Or.inr (Or.inr (Or.inr (Or.inr (Or.inr
      ⟨i, List.mem_range.mp hi, hh.symm⟩))))

theorem vars_DivMod_NBit {a b d m : String} {n : Nat} {c : Counters}
    {x : String} (hx : x ∈ cnfVars (DivMod_NBit a b d m n c).1) :
    (∃ i < n, x = bitName a i) ∨ (∃ i < n, x = bitName b i) ∨
    (∃ i < n, x = bitName d i) ∨ (∃ i < n, x = bitName m i) ∨
    (∃ i < n, ∃ j < n * 2, x = bitName (mulAccum1Name (c.mul + 1) i) j) ∨
    (∃ i ≤ n, ∃ j < n * 2, x = bitName (mulAccum2Name (c.mul + 1) i) j) ∨
    (∃ i < n, ∃ t ≤ n * 2, x = addCarryName (c.add + i + 1) t) ∨
    (∃ i < n, x = mulCarryName (c.mul + 1) i) ∨
    (∃ i < n, x = bitName (dmAccumName (c.divmod + 1)) i) ∨
    x = dmMulOvName (c.divmod + 1) ∨ x = dmAddOvName (c.divmod + 1) ∨
    (∃ t ≤ n, x = addCarryName (c.add + n + 1) t) ∨
    (∃ i < n, x = ltEqName (c.lt + 1) i) ∨
    (∃ i < n, x = ltLessName (c.lt + 1) i) ∨
    (∃ i ≤ n, x = ltAccumName (c.lt + 1) i) ∨
    (∃ i < n, x = ltResName (c.lt + 1) i) := by
  simp only [DivMod_NBit] at hx
  rcases cnfVars_append_elim hx with hx | hlt
  rcases cnfVars_append_elim hx with hx | haddov
  rcases cnfVars_append_elim hx with hx | hmulov
  rcases cnfVars_append_elim hx with hmul | hadd
  · rcases vars_Mul_NBit hmul with ⟨i, hi, h⟩ | ⟨i, hi, h⟩ | ⟨i, hi, h⟩ | h |
      ⟨i, hi, j, hj, h⟩ | ⟨i, hi, j, hj, h⟩ | ⟨i, hi, t, ht, h⟩ | ⟨i, hi, h⟩
    · exact Or.inr (Or.inl ⟨i, hi, h⟩)
    · exact Or.inr (Or.inr (Or.inl ⟨i, hi, h⟩))
    · exact Or.inr (Or.inr (Or.inr (Or.inr (Or.inr (Or.inr (Or.inr (Or.inr
        (Or.inl ⟨i, hi, h⟩))))))))
    · exact Or.inr (Or.inr (Or.inr (Or.inr (Or.inr (Or.inr (Or.inr (Or.inr
        (Or.inr (Or.inl h)))))))))
    · exact Or.inr (Or.inr (Or.inr (Or.inr (Or.inl ⟨i, hi, j, hj, h⟩))))
    · exact Or.inr (Or.inr (Or.inr (Or.inr (Or.inr (Or.inl ⟨i, hi, j, hj, h⟩)))))
    · exact Or.inr (Or.inr (Or.inr (Or.inr (Or.inr (Or.inr (Or.inl
        ⟨i, hi, t, ht, h⟩))))))
    · exact Or.inr (Or.inr (Or.inr (Or.inr (Or.inr (Or.inr (Or.inr (Or.inl
        ⟨i, hi, h⟩)))))))
  · rw [Mul_NBit_counters] at hadd
    rcases vars_Add_NBit hadd with ⟨i, hi, h⟩ | ⟨i, hi, h⟩ | ⟨i, hi, h⟩ |
      ⟨t, ht, h⟩ | h
    · exact Or.inr (Or.inr (Or.inr (Or.inr (Or.inr (Or.inr (Or.inr (Or.inr
        (Or.inl ⟨i, hi, h⟩))))))))
    · exact Or.inr (Or.inr (Or.inr (Or.inl ⟨i, hi, h⟩)))
    · exact Or.inl ⟨i, hi, h⟩
    · refine Or.inr (Or.inr (Or.inr (Or.inr (Or.inr (Or.inr (Or.inr (Or.inr
        (Or.inr (Or.inr (Or.inr (Or.inl ⟨t, ht, ?_⟩)))))))))))
      simpa using h
    · exact Or.inr (Or.inr (Or.inr (Or.inr (Or.inr (Or.inr (Or.inr (Or.inr
        (Or.inr (Or.inr (Or.inl h))))))))))
  · have := vars_unit hmulov
    exact Or.inr (Or.inr (Or.inr (Or.inr (Or.inr (Or.inr (Or.inr (Or.inr
      (Or.inr (Or.inl this)))))))))
  · have := vars_unit haddov
    exact Or.inr (Or.inr (Or.inr (Or.inr (Or.inr (Or.inr (Or.inr (Or.inr
      (Or.inr (Or.inr (Or.inl this))))))))))
  · rw [Mul_NBit_counters, Add_NBit_counters] at hlt
    rcases vars_LessThan_NBit hlt with ⟨i, hi, h⟩ | ⟨i, hi, h⟩ | ⟨i, hi, h⟩ |
      ⟨i, hi, h⟩ | ⟨i, hi, h⟩ | ⟨i, hi, h⟩
    · exact Or.inr (Or.inr (Or.inr (Or.inl ⟨i, hi, h⟩)))
    · exact Or.inr (Or.inl ⟨i, hi, h⟩)
    · exact Or.inr (Or.inr (Or.inr (Or.inr (Or.inr (Or.inr (Or.inr (Or.inr
        (Or.inr (Or.inr (Or.inr (Or.inr (Or.inl ⟨i, hi, h⟩))))))))))))
    · exact Or.inr (Or.inr (Or.inr (Or.inr (Or.inr (Or.inr (Or.inr (Or.inr
        (Or.inr (Or.inr (Or.inr (Or.inr (Or.inr (Or.inl ⟨i, hi, h⟩)))))))))))))
    · exact Or.inr (Or.inr (Or.inr (Or.inr (Or.inr (Or.inr (Or.inr (Or.inr
        (Or.inr (Or.inr (Or.inr (Or.inr (Or.inr (Or.inr (Or.inl
          ⟨i, hi, h⟩))))))))))))))
    · exact Or.inr (Or.inr (Or.inr (Or.inr (Or.inr (Or.inr (Or.inr (Or.inr
        (Or.inr (Or.inr (Or.inr (Or.inr (Or.inr (Or.inr (Or.inr
          ⟨i, hi, h⟩))))))))))))))

set_option maxHeartbeats 1000000 in
/-- C3: DivMod characterisation.  For every `n` and all `a, b < 2^n` with the
bits of `a` and `b` pinned: if `b ≠ 0` the clause list of
`DivMod_NBit("a","b","d","m",n)` has a satisfying extension, every satisfying
assignment has `d = ⌊a/b⌋` and `m = a - b·⌊a/b⌋` with `m < b` (numeric
unsigned comparison), and any two satisfying assignments agree on every
variable of the clause list (exactly one satisfying extension); if `b = 0`
the pinned clause list is unsatisfiable. -/
theorem C3_divmod_characterisation {n a b : Nat} (ha : a < 2 ^ n)
    (hb : b < 2 ^ n) :
    (b ≠ 0 →
      (∃ σ, Sat σ ((DivMod_NBit "a" "b" "d" "m" n { }).1 ++
        Input_Equals_Number "a" a n ++ Input_Equals_Number "b" b n)) ∧
      (∀ σ, Sat σ ((DivMod_NBit "a" "b" "d" "m" n { }).1 ++
          Input_Equals_Number "a" a n ++ Input_Equals_Number "b" b n) →
        bitsVal σ "d" n = a / b ∧ bitsVal σ "m" n = a - b * (a / b) ∧
          bitsVal σ "m" n < b) ∧
      (∀ σ₁ σ₂, Sat σ₁ ((DivMod_NBit "a" "b" "d" "m" n { }).1 ++
          Input_Equals_Number "a" a n ++ Input_Equals_Number "b" b n) →
        Sat σ₂ ((DivMod_NBit "a" "b" "d" "m" n { }).1 ++
          Input_Equals_Number "a" a n ++ Input_Equals_Number "b" b n) →
        ∀ x ∈ cnfVars (DivMod_NBit "a" "b" "d" "m" n { }).1, σ₁ x = σ₂ x)) ∧
    (b = 0 →
      ¬ ∃ σ, Sat σ ((DivMod_NBit "a" "b" "d" "m" n { }).1 ++
        Input_Equals_Number "a" a n ++ Input_Equals_Number "b" b n)) := by
  have hmul_le : b * (a / b) ≤ a := Nat.mul_div_le a b
  constructor
  · intro hb0
    have hbpos : 0 < b := Nat.pos_of_ne_zero hb0
    refine ⟨⟨lookupB (divmodModel a b n), divmod_model_sat ha hb hbpos⟩, ?_, ?_⟩
    · intro σ hsat
      obtain ⟨hsat, hpinb⟩ := sat_append.mp hsat
      obtain ⟨hdm, hpina⟩ := sat_append.mp hsat
      have hvals := DivMod_NBit_sound hdm
      rw [pin_val hpina ha, pin_val hpinb hb] at hvals
      refine ⟨hvals.2.1, ?_, ?_⟩
      · rw [hvals.2.2]
        have hdm := Nat.div_add_mod a b
        omega
      · rw [hvals.2.2]
        exact Nat.mod_lt _ hbpos
    · intro σ₁ σ₂ hs1 hs2 x hx
      obtain ⟨hs1, hpinb1⟩ := sat_append.mp hs1
      obtain ⟨hdm1, hpina1⟩ := sat_append.mp hs1
      obtain ⟨hs2, hpinb2⟩ := sat_append.mp hs2
      obtain ⟨hdm2, hpina2⟩ := sat_append.mp hs2
      have hd1 := DivMod_NBit_determined hdm1 ha hb (pin_sound hpina1)
        (pin_sound hpinb1)
      have hd2 := DivMod_NBit_determined hdm2 ha hb (pin_sound hpina2)
        (pin_sound hpinb2)
      rcases vars_DivMod_NBit hx with ⟨i, hi, rfl⟩ | ⟨i, hi, rfl⟩ |
        ⟨i, hi, rfl⟩ | ⟨i, hi, rfl⟩ | ⟨i, hi, j, hj, rfl⟩ |
        ⟨i, hi, j, hj, rfl⟩ | ⟨i, hi, t, ht, rfl⟩ | ⟨i, hi, rfl⟩ |
        ⟨i, hi, rfl⟩ | rfl | rfl | ⟨t, ht, rfl⟩ | ⟨i, hi, rfl⟩ |
        ⟨i, hi, rfl⟩ | ⟨i, hi, rfl⟩ | ⟨i, hi, rfl⟩
      · rw [pin_sound hpina1 i hi, pin_sound hpina2 i hi]
      · rw [pin_sound hpinb1 i hi, pin_sound hpinb2 i hi]
      · rw [hd1.2.1 i hi, hd2.2.1 i hi]
      · rw [hd1.2.2.1 i hi, hd2.2.2.1 i hi]
      · rw [hd1.2.2.2.1 i hi j hj, hd2.2.2.2.1 i hi j hj]
      · rw [hd1.2.2.2.2.1 i hi j hj, hd2.2.2.2.2.1 i hi j hj]
      · rw [hd1.2.2.2.2.2.1 i hi t ht, hd2.2.2.2.2.2.1 i hi t ht]
      · rw [hd1.2.2.2.2.2.2.1 i hi, hd2.2.2.2.2.2.2.1 i hi]
      · rw [hd1.2.2.2.2.2.2.2.1 i hi, hd2.2.2.2.2.2.2.2.1 i hi]
      · rw [hd1.2.2.2.2.2.2.2.2.1, hd2.2.2.2.2.2.2.2.2.1]
      · rw [hd1.2.2.2.2.2.2.2.2.2.1, hd2.2.2.2.2.2.2.2.2.2.1]
      · rw [hd1.2.2.2.2.2.2.2.2.2.2.1 t ht, hd2.2.2.2.2.2.2.2.2.2.2.1 t ht]
      · rw [hd1.2.2.2.2.2.2.2.2.2.2.2.1 i hi, hd2.2.2.2.2.2.2.2.2.2.2.2.1 i hi]
      · rw [hd1.2.2.2.2.2.2.2.2.2.2.2.2.1 i hi,
          hd2.2.2.2.2.2.2.2.2.2.2.2.2.1 i hi]
      · rw [hd1.2.2.2.2.2.2.2.2.2.2.2.2.2.1 i hi,
          hd2.2.2.2.2.2.2.2.2.2.2.2.2.2.1 i hi]
      · rw [hd1.2.2.2.2.2.2.2.2.2.2.2.2.2.2 i hi,
          hd2.2.2.2.2.2.2.2.2.2.2.2.2.2.2 i hi]
  · rintro rfl ⟨σ, hsat⟩
    obtain ⟨hsat, hpinb⟩ := sat_append.mp hsat
    obtain ⟨hdm, hpina⟩ := sat_append.mp hsat
    have hvals := DivMod_NBit_sound hdm
    rw [pin_val hpinb hb] at hvals
    exact absurd hvals.1 (by omega)

/-- Witness for C3: the characterisation applied at `n = 2`, `a = 3`, `b = 2`. -/
theorem C3_divmod_characterisation_witness :
    (3 : Nat) < 2 ^ 2 ∧ (2 : Nat) < 2 ^ 2 ∧
    ((((2 : Nat) ≠ 0 →
      (∃ σ, Sat σ ((DivMod_NBit "a" "b" "d" "m" 2 { }).1 ++
        Input_Equals_Number "a" 3 2 ++ Input_Equals_Number "b" 2 2)) ∧
      (∀ σ, Sat σ ((DivMod_NBit "a" "b" "d" "m" 2 { }).1 ++
          Input_Equals_Number "a" 3 2 ++ Input_Equals_Number "b" 2 2) →
        bitsVal σ "d" 2 = 3 / 2 ∧ bitsVal σ "m" 2 = 3 - 2 * (3 / 2) ∧
          bitsVal σ "m" 2 < 2) ∧
      (∀ σ₁ σ₂, Sat σ₁ ((DivMod_NBit "a" "b" "d" "m" 2 { }).1 ++
          Input_Equals_Number "a" 3 2 ++ Input_Equals_Number "b" 2 2) →
        Sat σ₂ ((DivMod_NBit "a" "b" "d" "m" 2 { }).1 ++
          Input_Equals_Number "a" 3 2 ++ Input_Equals_Number "b" 2 2) →
        ∀ x ∈ cnfVars (DivMod_NBit "a" "b" "d" "m" 2 { }).1, σ₁ x = σ₂ x)) ∧
    ((2 : Nat) = 0 →
      ¬ ∃ σ, Sat σ ((DivMod_NBit "a" "b" "d" "m" 2 { }).1 ++
        Input_Equals_Number "a" 3 2 ++ Input_Equals_Number "b" 2 2)))) :=
  ⟨by decide, by decide, C3_divmod_characterisation (by decide) (by decide)⟩

/-! ### Bundled wire models: `Holds σ l` says every binding in `l` is read
back by `σ`.  Component completeness lemmas take one `Holds` hypothesis per
wire bundle. -/

def Holds (σ : String → Bool) (l : List (String × Bool)) : Prop :=
  ∀ p ∈ l, σ p.1 = p.2

/-- An indexed bundle of wire bindings. -/
def segN (g : Nat → String) (f : Nat → Bool) (m : Nat) : List (String × Bool) :=
  (List.range m).map fun i => (g i, f i)

theorem holds_append {σ : String → Bool} {l₁ l₂ : List (String × Bool)}
    (h : Holds σ (l₁ ++ l₂)) : Holds σ l₁ ∧ Holds σ l₂ :=
  ⟨fun p hp => h p (List.mem_append.mpr (Or.inl hp)),
   fun p hp => h p (List.mem_append.mpr (Or.inr hp))⟩

theorem holds_segN {σ : String → Bool} {g : Nat → String} {f : Nat → Bool}
    {m : Nat} (h : Holds σ (segN g f m)) : ∀ i < m, σ (g i) = f i :=
  fun i hi => h (g i, f i) (List.mem_map.mpr ⟨i, List.mem_range.mpr hi, rfl⟩)

theorem holds_flatMap {σ : String → Bool} {g : Nat → List (String × Bool)}
    {m : Nat} (h : Holds σ ((List.range m).flatMap g)) :
    ∀ i < m, Holds σ (g i) :=
  fun i hi p hp =>
    h p (List.mem_flatMap.mpr ⟨i, List.mem_range.mpr hi, hp⟩)

theorem holds_single {σ : String → Bool} {k : String} {v : Bool}
    (h : Holds σ [(k, v)]) : σ k = v :=
  h (k, v) (List.mem_singleton.mpr rfl)

/-- Wires of one `Add_NBit` call with id `k`, operand values `A`, `B`. -/
def AddModel (k : Nat) (r ov : String) (w A B : Nat) : List (String × Bool) :=
  segN (addCarryName k) (carryB A B) (w + 1) ++
  segN (bitName r) (A + B).testBit w ++
  [(ov, carryB A B w)]

theorem Add_NBit_complete_model {σ : String → Bool} {a b r ov : String}
    {w : Nat} {c : Counters} {A B : Nat}
    (hA : ∀ i < w, σ (bitName a i) = A.testBit i)
    (hB : ∀ i < w, σ (bitName b i) = B.testBit i)
    (hm : Holds σ (AddModel (c.add + 1) r ov w A B)) :
    Sat σ (Add_NBit a b r ov w c).1 := by
  obtain ⟨hm, hov⟩ := holds_append hm
  obtain ⟨hc, hr⟩ := holds_append hm
  exact Add_NBit_complete_vals hA hB
    (fun t ht => holds_segN hc t (by omega))
    (holds_segN hr) (holds_single hov)

/-- Wires of one `Mul_NBit` call: partial products, accumulators, the embedded
adders, the result connection and the overflow wire. -/
def MulModel (k addbase : Nat) (r ov : String) (w A B : Nat) :
    List (String × Bool) :=
  ((List.range w).flatMap fun i =>
    segN (bitName (mulAccum1Name k i))
      (A * (B.testBit i).toNat * 2 ^ i).testBit (w * 2)) ++
  segN (bitName (mulAccum2Name k 0)) (fun _ => false) (w * 2) ++
  ((List.range w).flatMap fun i =>
    AddModel (addbase + i + 1) (mulAccum2Name k (i + 1)) (mulCarryName k i)
      (w * 2) (A * (B.testBit i).toNat * 2 ^ i) (A * (B % 2 ^ i))) ++
  segN (bitName r) (A * B).testBit w ++
  [(ov, decide (2 ^ w ≤ A * B))]

theorem Mul_NBit_complete_model {σ : String → Bool} {a b r ov : String}
    {w : Nat} {c : Counters} {A B : Nat} (hAlt : A < 2 ^ w) (hBlt : B < 2 ^ w)
    (hA : ∀ i < w, σ (bitName a i) = A.testBit i)
    (hB : ∀ i < w, σ (bitName b i) = B.testBit i)
    (hm : Holds σ (MulModel (c.mul + 1) c.add r ov w A B)) :
    Sat σ (Mul_NBit a b r ov w c).1 := by
  obtain ⟨hm, hov⟩ := holds_append hm
  obtain ⟨hm, hr⟩ := holds_append hm
  obtain ⟨hm, hadds⟩ := holds_append hm
  obtain ⟨hacc1, hacc20⟩ := holds_append hm
  have hacc2 : ∀ i ≤ w, ∀ j < w * 2, σ (bitName (mulAccum2Name (c.mul + 1) i) j) =
      (A * (B % 2 ^ i)).testBit j := by
    intro i
    induction i with
    | zero =>
      intro _ j hj
      rw [holds_segN hacc20 j hj, pow_zero, Nat.mod_one, Nat.mul_zero,
        Nat.zero_testBit]
    | succ i' ih =>
      intro hi j hj
      have hblk := holds_flatMap hadds i' (by omega)
      obtain ⟨hblk, _⟩ := holds_append hblk
      obtain ⟨_, hrbits⟩ := holds_append hblk
      have := holds_segN hrbits j hj
      rw [this]
      congr 1
      rw [mod_pow_succ_testBit B i']
      ring
  apply Mul_NBit_complete_vals hAlt hBlt hA hB
  · intro i hi j hj
    exact holds_segN (holds_flatMap hacc1 i hi) j hj
  · exact hacc2
  · intro i hi t ht
    have hblk := holds_flatMap hadds i hi
    obtain ⟨hblk, _⟩ := holds_append hblk
    obtain ⟨hcarr, _⟩ := holds_append hblk
    exact holds_segN hcarr t (by omega)
  · intro i hi
    have hblk := holds_flatMap hadds i hi
    obtain ⟨_, hovb⟩ := holds_append hblk
    exact holds_single hovb
  · exact holds_segN hr
  · exact holds_single hov

/-- Wires of one `LessThan_NBit` call (requires `A < B` to be satisfiable). -/
def LTModel (k : Nat) (w A B : Nat) : List (String × Bool) :=
  segN (ltEqName k) (fun i => A.testBit i == B.testBit i) w ++
  segN (ltLessName k) (fun i => !A.testBit i && B.testBit i) w ++
  segN (ltAccumName k) (fun i => decide (A / 2 ^ i = B / 2 ^ i)) (w + 1) ++
  segN (ltResName k) (fun i =>
    decide (A / 2 ^ (i + 1) = B / 2 ^ (i + 1)) &&
      (!A.testBit i && B.testBit i)) w

theorem LessThan_NBit_complete_model {σ : String → Bool} {a b : String}
    {w : Nat} {c : Counters} {A B : Nat} (hAlt : A < 2 ^ w) (hBlt : B < 2 ^ w)
    (hAB : A < B)
    (hA : ∀ i < w, σ (bitName a i) = A.testBit i)
    (hB : ∀ i < w, σ (bitName b i) = B.testBit i)
    (hm : Holds σ (LTModel (c.lt + 1) w A B)) :
    Sat σ (LessThan_NBit a b w c).1 := by
  obtain ⟨hm, hres⟩ := holds_append hm
  obtain ⟨hm, hacc⟩ := holds_append hm
  obtain ⟨heq, hless⟩ := holds_append hm
  exact LessThan_NBit_complete hAlt hBlt hAB hA hB (holds_segN heq)
    (holds_segN hless) (fun i hi => holds_segN hacc i (by omega))
    (holds_segN hres)

/-- Wires of one `DivMod_NBit` call with quotient `A / B`, remainder `A % B`. -/
def DivModModel (kd km addbase klt : Nat) (d m : String) (w A B : Nat) :
    List (String × Bool) :=
  segN (bitName d) (A / B).testBit w ++
  segN (bitName m) (A % B).testBit w ++
  MulModel km addbase (dmAccumName kd) (dmMulOvName kd) w B (A / B) ++
  segN (addCarryName (addbase + w + 1)) (carryB (B * (A / B)) (A % B)) (w + 1) ++
  [(dmAddOvName kd, carryB (B * (A / B)) (A % B) w)] ++
  LTModel klt w (A % B) B

theorem DivMod_NBit_complete_model {σ : String → Bool} {a b d m : String}
    {w : Nat} {c : Counters} {A B : Nat}
    (hAlt : A < 2 ^ w) (hBlt : B < 2 ^ w) (hBpos : 0 < B)
    (hA : ∀ i < w, σ (bitName a i) = A.testBit i)
    (hB : ∀ i < w, σ (bitName b i) = B.testBit i)
    (hm : Holds σ (DivModModel (c.divmod + 1) (c.mul + 1) c.add (c.lt + 1)
      d m w A B)) :
    Sat σ (DivMod_NBit a b d m w c).1 := by
  obtain ⟨hm', hlt⟩ := holds_append hm
  obtain ⟨hm', haddovp⟩ := holds_append hm'
  obtain ⟨hm', haddc⟩ := holds_append hm'
  obtain ⟨hm', hmul⟩ := holds_append hm'
  obtain ⟨hd, hmm⟩ := holds_append hm'
  have hDbits := holds_segN hd
  have hMbits := holds_segN hmm
  have hBD : B * (A / B) ≤ A := Nat.mul_div_le A B
  have hBDM : B * (A / B) + A % B = A := Nat.div_add_mod A B
  have hDlt : A / B < 2 ^ w := lt_of_le_of_lt (Nat.div_le_self A B) hAlt
  rw [DivMod_NBit]
  simp only
  rw [sat_append, sat_append, sat_append, sat_append]
  obtain ⟨hmul', hmulov⟩ := holds_append hmul
  obtain ⟨hmul'', hmulres⟩ := holds_append hmul'
  have hmulovv : σ (dmMulOvName (c.divmod + 1)) = false := by
    rw [holds_single hmulov]
    exact decide_eq_false (by omega)
  have haddovv : σ (dmAddOvName (c.divmod + 1)) = false := by
    rw [holds_single haddovp]
    simp only [carryB]
    apply decide_eq_false
    rw [Nat.mod_eq_of_lt (by omega : B * (A / B) < 2 ^ w),
      Nat.mod_eq_of_lt (by omega : A % B < 2 ^ w)]
    omega
  refine ⟨⟨⟨⟨?_, ?_⟩, unit_neg_complete hmulovv⟩, unit_neg_complete haddovv⟩, ?_⟩
  · exact Mul_NBit_complete_model hBlt hDlt hB hDbits hmul
  · rw [Mul_NBit_counters]
    apply Add_NBit_complete_vals (A := B * (A / B)) (B := A % B)
      (holds_segN hmulres) hMbits
    · intro t ht
      have := holds_segN haddc t (by omega)
      simpa using this
    · intro i hi
      rw [hA i hi, hBDM]
    · have := holds_single haddovp
      simpa using this
  · rw [Mul_NBit_counters, Add_NBit_counters]
    exact LessThan_NBit_complete_model (by omega) hBlt (Nat.mod_lt _ hBpos)
      hMbits hB hlt

theorem DivMod_NBit_counters (a b d m : String) (w : Nat) (c : Counters) :
    (DivMod_NBit a b d m w c).2 =
      { c with divmod := c.divmod + 1, mul := c.mul + 1, add := c.add + (w + 1), lt := c.lt + 1 } := by
  rw [DivMod_NBit]
  simp only [Mul_NBit_counters, Add_NBit_counters, LessThan_NBit_counters]
  congr 1


theorem pmLoop_counters (k n : Nat) : ∀ (i : Nat) (c : Counters),
    (pmLoop k n i c).2 = { c with mul := c.mul + 4 * i, add := c.add + (8 * n + 2) * i, divmod := c.divmod + 2 * i, lt := c.lt + 2 * i } := by
  intro i
  induction i with
  | zero =>
    intro c
    simp [pmLoop, stateLoop]
  | succ i' ih =>
    intro c
    show (stateLoop _ (i' + 1) c).2 = _
    rw [stateLoop]
    simp only
    rw [show (stateLoop (fun i c => _) i' c) = pmLoop k n i' c from rfl, ih]
    simp only [Mul_NBit_counters, DivMod_NBit_counters]
    have hexp : (8 * n + 2) * (i' + 1) = (8 * n + 2) * i' + (8 * n + 2) := by
      ring
    congr 1 <;> omega

/-- The `CurrentPow` chain of values in `PowMod_NBit`. -/
def pmC (B M : Nat) : Nat → Nat
  | 0 => B
  | i + 1 => pmC B M i * pmC B M i % M

/-- The `PartialResult` chain of values in `PowMod_NBit`. -/
def pmP (B E M : Nat) : Nat → Nat
  | 0 => 1
  | i + 1 => pmP B E M i * (if E.testBit i then pmC B M i else 1) % M

theorem pmC_lt {B M n : Nat} (hB : B < 2 ^ n) (hM : M < 2 ^ n) (hMpos : 0 < M) :
    ∀ i, pmC B M i < 2 ^ n
  | 0 => hB
  | i + 1 => lt_trans (Nat.mod_lt _ hMpos) hM

theorem pmP_lt {B E M n : Nat} (hn : 1 ≤ n) (hM : M < 2 ^ n) (hMpos : 0 < M) :
    ∀ i, pmP B E M i < 2 ^ n
  | 0 => by
      have : (2:Nat) ^ 1 ≤ 2 ^ n := Nat.pow_le_pow_right (by norm_num) hn
      rw [pmP]
      omega
  | i + 1 => lt_trans (Nat.mod_lt _ hMpos) hM

/-- The bit-factor value at loop step `i`. -/
def pmBF (B E M i : Nat) : Nat := if E.testBit i then pmC B M i else 1

/-- All wires of one `PowMod_NBit` call (ids relative to the entry counter
values `cm`, `ca`, `cd`, `cl`). -/
def PowModModel (k cm ca cd cl : Nat) (result : String) (n B E M : Nat) :
    List (String × Bool) :=
  segN (bitName (pmBaseName k)) B.testBit (n * 2) ++
  segN (bitName (pmExpName k)) E.testBit (n * 2) ++
  segN (bitName (pmModName k)) M.testBit (n * 2) ++
  ((List.range (n + 1)).flatMap fun i =>
    segN (bitName (pmPartialName k i)) (pmP B E M i).testBit (n * 2)) ++
  ((List.range (n + 1)).flatMap fun i =>
    segN (bitName (pmCurName k i)) (pmC B M i).testBit (n * 2)) ++
  ((List.range n).flatMap fun i =>
    segN (bitName (pmBitFactorName k i)) (pmBF B E M i).testBit (n * 2)) ++
  ((List.range n).flatMap fun i =>
    MulModel (cm + 4 * i + 1) (ca + (8 * n + 2) * i)
      (pmMultipledName k i) (pmMultipledOvName k i) (n * 2)
      (pmP B E M i) (pmBF B E M i)) ++
  ((List.range n).flatMap fun i =>
    DivModModel (cd + 2 * i + 1) (cm + 4 * i + 2)
      (ca + (8 * n + 2) * i + n * 2) (cl + 2 * i + 1)
      (pmDiv1Name k i) (pmPartialName k (i + 1)) (n * 2)
      (pmP B E M i * pmBF B E M i) M) ++
  ((List.range n).flatMap fun i =>
    MulModel (cm + 4 * i + 3) (ca + (8 * n + 2) * i + (n * 2) * 2 + 1)
      (pmSquareName k i) (pmSquareOvName k i) (n * 2)
      (pmC B M i) (pmC B M i)) ++
  ((List.range n).flatMap fun i =>
    DivModModel (cd + 2 * i + 2) (cm + 4 * i + 4)
      (ca + (8 * n + 2) * i + (n * 2) * 3 + 1) (cl + 2 * i + 2)
      (pmDiv2Name k i) (pmCurName k (i + 1)) (n * 2)
      (pmC B M i * pmC B M i) M) ++
  segN (bitName result) (pmP B E M n).testBit n

theorem DoubleSize_complete {σ : String → Bool} {a r : String} {n V : Nat}
    (hV : V < 2 ^ n)
    (ha : ∀ i < n, σ (bitName a i) = V.testBit i)
    (hr : ∀ j < n * 2, σ (bitName r j) = V.testBit j) :
    Sat σ (DoubleSize_Assign a r n) := by
  rw [DoubleSize_Assign, sat_append]
  constructor
  · apply equalsN_complete
    intro i hi
    rw [ha i hi, hr i (by omega)]
  · simp only [Sat, cnfVal, List.all_eq_true]
    intro cl hcl
    obtain ⟨j, hj, rfl⟩ := List.mem_map.mp hcl
    have hj' := List.mem_range'_1.mp hj
    have hz : V.testBit j = false :=
      Nat.testBit_eq_false_of_lt (lt_of_lt_of_le hV
        (Nat.pow_le_pow_right (by norm_num) (by omega)))
    simp [clauseVal, litVal, nL, hr j (by omega), hz]

